import Mathlib

/-!
# doktri: document tree construction, dating, sorting and path normalisation

A shallow embedding of `internal/engine/{tree,node,engine,options}.go`.

Conventions of the embedding

* A Go `string` is the list of its bytes, each byte written as the `Char`
  with that code (`GoString`).  All string operations of the program used
  here (slicing, `TrimSuffix`, comparison with ASCII literals, digit tests,
  concatenation) act byte-wise, so "character" below always means byte.
* A Go panic is the `error` side of `Except Panic`.  Where several children
  of one node would make `Date()` panic, the order of the comparisons inside
  `sort.SliceStable` decides which panic surfaces; the embedding reports the
  first in list order.  Whether a call panics does not depend on that order,
  and whenever `SortDate` returns at most one panic is possible below any
  node.
* `path/filepath` is modelled for a Unix host (separator `/`, no volume
  names), `time.Parse` for the one layout the program uses (`2006-01-02`),
  `sort.SliceStable` by a stable insertion sort and `fs.WalkDir` by a
  pre-order walk over a finite directory tree with entries sorted by name.
* The pointer graph that `buildTree` produces is kept as an arena
  (`Heap`); the methods that only read a node and its descendants
  (`Date`, `SortDate`, `Path`, `Name`) are defined on the tree `TreeNode`
  obtained by following `Children`.
* `nodeCache` memoises `Path`, `Name` and `Date`.  The memoised value of
  `Path` and `Name` depends on immutable fields only; the memoised value of
  `Date` depends on the multiset of the children, which `SortDate` does not
  change (`Date_SortDate` below).  The methods are therefore embedded
  without the cache.
* `NextSibling` and `PreviousSibling` read the `Parent` pointer and so are
  defined on the arena.
* `RenderWalk` writes files.  The effects of rendering one node (creating the
  directories and the file, executing the template, minifying, closing) are
  a parameter `RenderIO` acting on an abstract world; the walk threads the
  world and records the nodes whose rendering has been started and has
  returned nil.  `writePage` is the world in which nothing fails: the files
  below the output root, each with the node whose page it holds, where
  `os.Create` replaces the file that is at the path.
-/

namespace Doktri

/-! ## Go strings -/

/-- A Go string: its bytes in order. -/
abbrev GoString := List Char

/-- Panics the embedded code can raise. -/
inductive Panic where
  /-- Slice bounds out of range (`s[:10]`, `s[11:]`). -/
  | sliceBounds
  /-- The panic `failed to parse date: <ds>` of `Date`. -/
  | failedToParseDate (ds : GoString)
  /-- The panic `fileinfo: <err>` of `Date`. -/
  | fileinfo
  /-- Dereference of a nil `*TreeNode`. -/
  | nilDereference
  /-- The panic `root node cannot have siblings`. -/
  | rootNodeCannotHaveSiblings
  /-- Index out of range on a slice. -/
  | indexOutOfRange
  deriving DecidableEq, Repr

/-- Equality of results is decidable. -/
instance instDecidableEqExcept {ε α : Type} [DecidableEq ε] [DecidableEq α] :
    DecidableEq (Except ε α)
  | .ok a, .ok b =>
    if h : a = b then isTrue (congrArg Except.ok h)
    else isFalse (fun h' => h (Except.ok.inj h'))
  | .error a, .error b =>
    if h : a = b then isTrue (congrArg Except.error h)
    else isFalse (fun h' => h (Except.error.inj h'))
  | .ok _, .error _ => isFalse (fun h => Except.noConfusion h)
  | .error _, .ok _ => isFalse (fun h => Except.noConfusion h)

/-- Go `s[:n]`. -/
def sliceTo (s : GoString) (n : Nat) : Except Panic GoString :=
  if s.length < n then .error .sliceBounds else .ok (s.take n)

/-- Go `s[n:]`. -/
def sliceFrom (s : GoString) (n : Nat) : Except Panic GoString :=
  if s.length < n then .error .sliceBounds else .ok (s.drop n)

/-- Go `strings.HasSuffix`. -/
def HasSuffix (s suffix : GoString) : Bool :=
  decide (suffix.length ≤ s.length) && (s.drop (s.length - suffix.length) == suffix)

/-- Go `strings.TrimSuffix`. -/
def TrimSuffix (s suffix : GoString) : GoString :=
  if HasSuffix s suffix then s.take (s.length - suffix.length) else s

/-- The program's `NormalizeMdName`: `strings.TrimSuffix(s, ".md")[11:]`. -/
def NormalizeMdName (s : GoString) : Except Panic GoString :=
  sliceFrom (TrimSuffix s ".md".toList) 11

/-! ## `path/filepath` on a Unix host -/

/-- The path elements of a path: the pieces between separators (`k`
separators give `k + 1` pieces, possibly empty). -/
def pathElems : GoString → List GoString
  | [] => [[]]
  | c :: cs =>
    match pathElems cs with
    | [] => [[]]
    | w :: ws => if c = '/' then [] :: w :: ws else (c :: w) :: ws

/-- One step of `filepath.Clean` on the stack of kept elements (top first):
empty and `.` elements are dropped, `..` removes the last kept real element
or, when there is none, is kept on a non-rooted path and dropped on a rooted
one; any other element is kept. -/
def cleanStep (rooted : Bool) (out : List GoString) (e : GoString) : List GoString :=
  if e = [] ∨ e = ".".toList then out
  else if e = "..".toList then
    match out with
    | [] => if rooted then [] else ["..".toList]
    | top :: rest =>
      if top = "..".toList then (if rooted then out else "..".toList :: out) else rest
  else e :: out

/-- Elements joined by the separator (`strings.Join(elems, "/")`). -/
def joinSep : List GoString → GoString
  | [] => []
  | [e] => e
  | e :: es => e ++ '/' :: joinSep es

/-- Go `filepath.Clean`. -/
def Clean (path : GoString) : GoString :=
  match path with
  | [] => ".".toList
  | c :: _ =>
    let rooted := decide (c = '/')
    let out := ((pathElems path).foldl (cleanStep rooted) []).reverse
    if rooted then '/' :: joinSep out
    else if out = [] then ".".toList else joinSep out

/-- Go `filepath.Join`: leading empty elements are skipped, the rest is
joined by the separator and cleaned. -/
def Join : List GoString → GoString
  | [] => []
  | e :: es => if e = [] then Join es else Clean (joinSep (e :: es))

/-- The part of a path up to and including its last separator. -/
def dirPrefix : GoString → GoString
  | [] => []
  | c :: cs =>
    if cs.contains '/' then c :: dirPrefix cs
    else if c = '/' then [c] else []

/-- Go `filepath.Dir`. -/
def Dir (path : GoString) : GoString := Clean (dirPrefix path)

/-- A path without its trailing separators. -/
def stripTrailingSlashes (path : GoString) : GoString :=
  (path.reverse.dropWhile (fun c => c = '/')).reverse

/-- The part of a path after its last separator. -/
def lastElem (path : GoString) : GoString :=
  (path.reverse.takeWhile (fun c => c ≠ '/')).reverse

/-- Go `filepath.Base`. -/
def Base (path : GoString) : GoString :=
  if path = [] then ".".toList
  else
    let p := lastElem (stripTrailingSlashes path)
    if p = [] then "/".toList else p

/-- Go `filepath.ToSlash` (the identity where the separator is `/`). -/
def ToSlash (path : GoString) : GoString := path

/-! ## `time` -/

/-- A `time.Time`: an instant, written by its civil date in UTC and the
nanoseconds elapsed since midnight UTC of that day. -/
structure Time where
  year : Nat
  month : Nat
  day : Nat
  nsec : Nat
  deriving DecidableEq, Repr

/-- Go `t.Before(u)`. -/
def Time.Before (t u : Time) : Bool :=
  decide (t.year < u.year ∨ (t.year = u.year ∧ (t.month < u.month ∨ (t.month = u.month ∧
    (t.day < u.day ∨ (t.day = u.day ∧ t.nsec < u.nsec))))))

/-- Go `time.isLeap`. -/
def isLeap (year : Nat) : Bool :=
  year % 4 == 0 && (year % 100 != 0 || year % 400 == 0)

/-- Go `time.daysIn`. -/
def daysIn (month year : Nat) : Nat :=
  if month = 2 then (if isLeap year then 29 else 28)
  else if month = 4 ∨ month = 6 ∨ month = 9 ∨ month = 11 then 30
  else 31

/-- A decimal digit byte. -/
def isDigit (c : Char) : Bool := decide ('0'.toNat ≤ c.toNat ∧ c.toNat ≤ '9'.toNat)

/-- The value of a decimal digit byte. -/
def digitVal (c : Char) : Nat := c.toNat - '0'.toNat

/-- The four-digit year of layout element `2006`. -/
def parseYear (value : GoString) : Option (Nat × GoString) :=
  match value with
  | a :: b :: c :: d :: rest =>
    if isDigit a && isDigit b && isDigit c && isDigit d then
      some (digitVal a * 1000 + digitVal b * 100 + digitVal c * 10 + digitVal d, rest)
    else none
  | _ => none

/-- Go `time.getnum(value, true)`: exactly two digits. -/
def getnum (value : GoString) : Option (Nat × GoString) :=
  match value with
  | a :: b :: rest =>
    if isDigit a && isDigit b then some (digitVal a * 10 + digitVal b, rest) else none
  | _ => none

/-- Go `time.skip(value, "-")`. -/
def skipDash (value : GoString) : Option GoString :=
  match value with
  | c :: rest => if c = '-' then some rest else none
  | [] => none

/-- Go `time.Parse("2006-01-02", value)`; `none` when it returns an error.
The result is midnight UTC of the parsed day. -/
def timeParse (value : GoString) : Option Time :=
  match parseYear value with
  | none => none
  | some (year, v1) =>
    match skipDash v1 with
    | none => none
    | some v2 =>
      match getnum v2 with
      | none => none
      | some (month, v3) =>
        if month = 0 ∨ 12 < month then none
        else
          match skipDash v3 with
          | none => none
          | some v4 =>
            match getnum v4 with
            | none => none
            | some (day, v5) =>
              if v5 ≠ [] then none
              else if day < 1 ∨ daysIn month year < day then none
              else some ⟨year, month, day, 0⟩

/-! ## The node model (`node.go`) -/

/-- What the program reads of an `fs.DirEntry`: `Name()`, `IsDir()` and the
`ModTime()` of `Info()` (`none` when `Info()` returns an error). -/
structure DirEntry where
  Name : GoString
  IsDir : Bool
  ModTime : Option Time
  deriving DecidableEq, Repr

/-- Go `type SortDirection string`. -/
abbrev SortDirection := GoString

/-- The constant `SortDirectionAscending`. -/
def SortDirectionAscending : SortDirection := "asc".toList

/-- The constant `SortDirectionDescending`. -/
def SortDirectionDescending : SortDirection := "desc".toList

/-- A `TreeNode` together with the nodes reachable through `Children`. -/
inductive TreeNode where
  | mk (SourcePath : GoString) (Entry : DirEntry) (IsRoot IsLeaf : Bool)
      (Children : List TreeNode)
  deriving Repr

/-- Field `SourcePath`. -/
def TreeNode.SourcePath : TreeNode → GoString
  | .mk sp _ _ _ _ => sp

/-- Field `Entry`. -/
def TreeNode.Entry : TreeNode → DirEntry
  | .mk _ e _ _ _ => e

/-- Field `IsRoot`. -/
def TreeNode.IsRoot : TreeNode → Bool
  | .mk _ _ r _ _ => r

/-- Field `IsLeaf`. -/
def TreeNode.IsLeaf : TreeNode → Bool
  | .mk _ _ _ l _ => l

/-- Field `Children`. -/
def TreeNode.Children : TreeNode → List TreeNode
  | .mk _ _ _ _ cs => cs

/-- The variable `CONTEXT_PATH` after `WithContextPath(path)` has been
applied to its previous value. -/
def WithContextPath (path : GoString) (CONTEXT_PATH : GoString) : GoString :=
  if path ≠ [] then path else CONTEXT_PATH

/-- The initial value of `CONTEXT_PATH`. -/
def defaultContextPath : GoString := "/".toList

/-- The method `Path`, reading the global `CONTEXT_PATH`. -/
def TreeNode.Path (CONTEXT_PATH : GoString) (n : TreeNode) : Except Panic GoString :=
  if n.IsRoot then .ok CONTEXT_PATH
  else if n.IsLeaf then
    match NormalizeMdName (Base n.SourcePath) with
    | .error e => .error e
    | .ok name => .ok (CONTEXT_PATH ++ ToSlash (Join [Dir n.SourcePath, name]) ++ "/".toList)
  else .ok (CONTEXT_PATH ++ ToSlash n.SourcePath ++ "/".toList)

/-- The method `Name`. -/
def TreeNode.Name (n : TreeNode) : Except Panic GoString :=
  if n.IsRoot then .ok "home".toList
  else if n.IsLeaf then NormalizeMdName (Base n.SourcePath)
  else .ok (Base n.SourcePath)

/-- The path `p` of the file that `RenderWalk` creates for a node. -/
def TreeWalker.outputPath (distPath : GoString) (node : TreeNode) : Except Panic GoString :=
  if node.IsLeaf then
    match NormalizeMdName (Base node.SourcePath) with
    | .error e => .error e
    | .ok name => .ok (Join [distPath, Dir node.SourcePath, name, "index.html".toList])
  else .ok (Join [distPath, node.SourcePath, "index.html".toList])

/-- Insertion of `x` in front of a sorted list: `x` passes the elements that
are `less` than it and stops at the first that is not. -/
def insertStable {α : Type} (less : α → α → Bool) (x : α) : List α → List α
  | [] => [x]
  | y :: ys => if less y x then y :: insertStable less x ys else x :: y :: ys

/-- Go `sort.SliceStable`: a stable sort (insertion sort). -/
def SliceStable {α : Type} (less : α → α → Bool) : List α → List α
  | [] => []
  | x :: xs => insertStable less x (SliceStable less xs)

/-- The comparison of `TreeNodeList.SortDate` on elements whose `Date()` is
known: `tc[a].Date().Before(tc[b].Date())` with `(a, b) = (i, j)` when the
direction is ascending and `(j, i)` otherwise. -/
def dateLess {α : Type} (direction : SortDirection) (x y : α × Time) : Bool :=
  if direction = SortDirectionAscending then x.2.Before y.2 else y.2.Before x.2

/-- The method `TreeNodeList.Oldest`, on children whose `Date()` is known:
the first element of a stably ascending sorted copy, nil on the empty list. -/
def TreeNodeList.Oldest {α : Type} (tc : List (α × Time)) : Option (α × Time) :=
  if tc.length = 0 then none
  else (SliceStable (fun x y => x.2.Before y.2) tc).head?

mutual
/-- The method `Date`. -/
def TreeNode.Date : TreeNode → Except Panic Time
  | .mk sp entry _ isLeaf cs =>
    if !isLeaf then
      match TreeNodeList.dated cs with
      | .error e => .error e
      | .ok ds =>
        match TreeNodeList.Oldest ds with
        | some oldest => .ok oldest.2
        | none =>
          match entry.ModTime with
          | none => .error .fileinfo
          | some t => .ok t
    else
      match sliceTo (Base sp) 10 with
      | .error e => .error e
      | .ok ds =>
        match timeParse ds with
        | none => .error (.failedToParseDate ds)
        | some t => .ok t
/-- The children of a list, each with its `Date()`; the first panic when one
of the calls panics. -/
def TreeNodeList.dated : List TreeNode → Except Panic (List (TreeNode × Time))
  | [] => .ok []
  | c :: cs =>
    match c.Date with
    | .error e => .error e
    | .ok t =>
      match TreeNodeList.dated cs with
      | .error e => .error e
      | .ok ds => .ok ((c, t) :: ds)
end

/-- The elements of a list, each with the `Date()` of its node. -/
def datedBy {α : Type} (node : α → TreeNode) : List α → Except Panic (List (α × Time))
  | [] => .ok []
  | x :: xs =>
    match (node x).Date with
    | .error e => .error e
    | .ok t =>
      match datedBy node xs with
      | .error e => .error e
      | .ok ds => .ok ((x, t) :: ds)

/-- The method `TreeNodeList.SortDate` on a list whose elements carry a
node.  `sort.SliceStable` calls the comparison, and with it `Date()`, only
on lists of two or more elements, and then on every element. -/
def sortDateBy {α : Type} (node : α → TreeNode) (direction : SortDirection)
    (tc : List α) : Except Panic (List α) :=
  if tc.length < 2 then .ok tc
  else
    match datedBy node tc with
    | .error e => .error e
    | .ok ds => .ok ((SliceStable (dateLess direction) ds).map Prod.fst)

/-- The method `TreeNodeList.SortDate`. -/
def TreeNodeList.SortDate (tc : List TreeNode) (direction : SortDirection) :
    Except Panic (List TreeNode) :=
  sortDateBy id direction tc

/-- The results of a list of pending calls, in order; the first panic when
one of them panics. -/
def runAll {α : Type} : List (Except Panic α) → Except Panic (List α)
  | [] => .ok []
  | x :: xs =>
    match x with
    | .error e => .error e
    | .ok a =>
      match runAll xs with
      | .error e => .error e
      | .ok as => .ok (a :: as)

mutual
/-- The method `TreeNode.SortDate`: the children are sorted first, then
`SortDate` runs on each child in the new order. -/
def TreeNode.SortDate (direction : SortDirection) : TreeNode → Except Panic TreeNode
  | .mk sp entry isRoot isLeaf cs =>
    match sortDateBy Prod.fst direction (TreeNodeList.pending direction cs) with
    | .error e => .error e
    | .ok sorted =>
      match runAll (sorted.map Prod.snd) with
      | .error e => .error e
      | .ok cs' => .ok (.mk sp entry isRoot isLeaf cs')
/-- Every child with its pending recursive call `c.SortDate(direction)`. -/
def TreeNodeList.pending (direction : SortDirection) :
    List TreeNode → List (TreeNode × Except Panic TreeNode)
  | [] => []
  | c :: cs => (c, c.SortDate direction) :: TreeNodeList.pending direction cs
end

/-! ## The source file system and `fs.WalkDir` -/

/-- A file or a directory of the source file system.  The entries of a
directory are listed in the order `ReadDir` returns them, sorted by name. -/
inductive FsEntry where
  | file (name : GoString) (modTime : Option Time)
  | dir (name : GoString) (modTime : Option Time) (entries : List FsEntry)
  deriving Repr

/-- The file name of an entry. -/
def FsEntry.name : FsEntry → GoString
  | .file n _ => n
  | .dir n _ _ => n

/-- Byte-wise lexical order of names, strict. -/
def nameLt : GoString → GoString → Bool
  | [], [] => false
  | [], _ :: _ => true
  | _ :: _, [] => false
  | a :: as, b :: bs => decide (a.toNat < b.toNat) || (decide (a = b) && nameLt as bs)

/-- A list of names is strictly increasing. -/
def namesSorted : List GoString → Bool
  | [] => true
  | [_] => true
  | a :: b :: rest => nameLt a b && namesSorted (b :: rest)

/-- A file name: not empty, without separator, neither `.` nor `..`. -/
def validName (n : GoString) : Bool :=
  decide (n ≠ []) && !n.contains '/' && decide (n ≠ ".".toList) && decide (n ≠ "..".toList)

mutual
/-- Every name below an entry is a file name and every directory lists its
entries in strictly increasing order of name. -/
def FsEntry.wellFormed : FsEntry → Bool
  | .file n _ => validName n
  | .dir n _ es => validName n && namesSorted (FsEntry.names es) && FsEntry.allWellFormed es
/-- The names of a list of entries. -/
def FsEntry.names : List FsEntry → List GoString
  | [] => []
  | e :: es =>
    (match e with
      | .file n _ => n
      | .dir n _ _ => n) :: FsEntry.names es
/-- Every entry of a list is well formed. -/
def FsEntry.allWellFormed : List FsEntry → Bool
  | [] => true
  | e :: es => e.wellFormed && FsEntry.allWellFormed es
end

/-- A call of the `WalkDirFunc`: the path and the directory entry. -/
structure WalkEntry where
  path : GoString
  d : DirEntry
  deriving DecidableEq, Repr

mutual
/-- Go `fs.walkDir` on an entry reached under the path `name`, without
read errors: the entry itself, then, for a directory, its entries in
order, each under `path.Join(name, d1.Name())`. -/
def walkDir (name : GoString) : FsEntry → List WalkEntry
  | .file n mt => [⟨name, ⟨n, false, mt⟩⟩]
  | .dir n mt es => ⟨name, ⟨n, true, mt⟩⟩ :: walkDirEntries name es
/-- The loop of `fs.walkDir` over the entries of a directory. -/
def walkDirEntries (name : GoString) : List FsEntry → List WalkEntry
  | [] => []
  | e :: es =>
    (match e with
      | .file n mt => walkDir (Join [name, n]) (.file n mt)
      | .dir n mt sub => walkDir (Join [name, n]) (.dir n mt sub)) ++ walkDirEntries name es
end

/-- Go `fs.WalkDir(srcFS, ".", fn)` on a documents directory with the
given entries: the calls of `fn`, in order. -/
def WalkDir (modTime : Option Time) (entries : List FsEntry) : List WalkEntry :=
  walkDir ".".toList (.dir ".".toList modTime entries)

/-! ## `buildTree` (`tree.go`) -/

/-- A `*TreeNode`: the position of the node in the arena. -/
abbrev Ptr := Nat

/-- The struct `TreeNode` as allocated by `buildTree`; pointers are
positions in the arena, `none` is nil. -/
structure HeapNode where
  SourcePath : GoString
  Entry : DirEntry
  IsRoot : Bool
  IsLeaf : Bool
  Parent : Option Ptr
  Children : List Ptr
  Root : Option Ptr
  deriving DecidableEq, Repr

/-- The allocated nodes, in order of allocation. -/
abbrev Heap := List HeapNode

/-- The variables of `buildTree` that the walk function closes over. -/
structure BuildState where
  heap : Heap
  treeRoot : Option Ptr
  currentBranch : Option Ptr
  deriving DecidableEq, Repr

/-- The arena with `f` applied to the node at `p`. -/
def Heap.update (h : Heap) (p : Ptr) (f : HeapNode → HeapNode) : Heap :=
  match h, p with
  | [], _ => []
  | n :: ns, 0 => f n :: ns
  | n :: ns, p + 1 => n :: Heap.update ns p f

/-- The walk function of `buildTree` on one entry (`err == nil`). -/
def buildStep (st : BuildState) (w : WalkEntry) : Except Panic BuildState :=
  if w.d.Name = "index.md".toList then .ok st
  else
    let self : Ptr := st.heap.length
    let node : HeapNode :=
      { SourcePath := w.path, Entry := w.d, IsRoot := false, IsLeaf := !w.d.IsDir,
        Parent := none, Children := [], Root := none }
    let (node, treeRoot, currentBranch) :=
      if w.path = ".".toList then
        ({ node with IsRoot := true }, some self, st.currentBranch)
      else if w.path = w.d.Name then
        ({ node with Parent := st.treeRoot }, st.treeRoot, some self)
      else if w.d.IsDir then
        ({ node with Parent := st.currentBranch }, st.treeRoot, some self)
      else
        ({ node with Parent := st.currentBranch }, st.treeRoot, st.currentBranch)
    let linked : Except Panic Heap :=
      if !node.IsRoot then
        match node.Parent with
        | none => .error .nilDereference
        | some p => .ok (Heap.update st.heap p (fun q => { q with Children := q.Children ++ [self] }))
      else .ok st.heap
    match linked with
    | .error e => .error e
    | .ok heap =>
      .ok { heap := heap ++ [{ node with Root := treeRoot }],
            treeRoot := treeRoot, currentBranch := currentBranch }

/-- The walk function applied to the calls of a walk, in order. -/
def buildSteps (st : BuildState) : List WalkEntry → Except Panic BuildState
  | [] => .ok st
  | w :: ws =>
    match buildStep st w with
    | .error e => .error e
    | .ok st' => buildSteps st' ws

/-- The function `buildTree` on a walk without read errors: the returned
`treeRoot` and the allocated nodes. -/
def buildTree (walk : List WalkEntry) : Except Panic (Option Ptr × Heap) :=
  match buildSteps { heap := [], treeRoot := none, currentBranch := none } walk with
  | .error e => .error e
  | .ok st => .ok (st.treeRoot, st.heap)

/-- The node a pointer refers to. -/
def Heap.node (h : Heap) (p : Ptr) : Option HeapNode := h.get? p

/-- The `SourcePath` of the node `Parent` points to. -/
def Heap.parentSourcePath (h : Heap) (p : Ptr) : Option GoString :=
  match h.node p with
  | none => none
  | some n =>
    match n.Parent with
    | none => none
    | some q => (h.node q).map HeapNode.SourcePath

/-! ## Calendar dates as the specification writes them -/

/-- The decimal digit byte of the last digit of `n`. -/
def digitChar (n : Nat) : Char := Char.ofNat ('0'.toNat + n % 10)

/-- The text `YYYY-MM-DD` of a date. -/
def formatDate (y m d : Nat) : GoString :=
  [digitChar (y / 1000), digitChar (y / 100), digitChar (y / 10), digitChar y, '-',
   digitChar (m / 10), digitChar m, '-', digitChar (d / 10), digitChar d]

/-- A calendar date with a four-digit year. -/
def validDate (y m d : Nat) : Prop :=
  y ≤ 9999 ∧ 1 ≤ m ∧ m ≤ 12 ∧ 1 ≤ d ∧ d ≤ daysIn m y

/-- Midnight UTC of a day. -/
def midnightUTC (y m d : Nat) : Time := ⟨y, m, d, 0⟩

/-! ## Example inputs -/

/-- A leaf node for a source path. -/
def leafNode (sourcePath : GoString) : TreeNode :=
  .mk sourcePath ⟨Base sourcePath, false, none⟩ false true []

/-- A directory node for a source path. -/
def dirNode (sourcePath : GoString) (modTime : Option Time) (children : List TreeNode) :
    TreeNode :=
  .mk sourcePath ⟨Base sourcePath, true, modTime⟩ false false children

/-- A root node. -/
def rootNode (modTime : Option Time) (children : List TreeNode) : TreeNode :=
  .mk ".".toList ⟨".".toList, true, modTime⟩ true false children

/-- The documents directory `a/{b/{2020-01-01-x.md}, c/{2021-01-01-y.md}}`. -/
def nestedSiblings : List FsEntry :=
  [.dir "a".toList none
    [.dir "b".toList none [.file "2020-01-01-x.md".toList none],
     .dir "c".toList none [.file "2021-01-01-y.md".toList none]]]

/-! ## Dates of the leaves below a node, as the specification reads them -/

/-- The date a filename begins with: the first ten characters of the base
name of a source path read as `YYYY-MM-DD`, if they are a calendar date. -/
def filenameDate (sourcePath : GoString) : Option Time :=
  timeParse ((Base sourcePath).take 10)

mutual
/-- The filename dates of the leaves `Date()` looks at from a node: the node
itself when it is a leaf, otherwise the leaves reached from it through
directory nodes.  The children of a leaf node are not looked at; where no
leaf has children these are all leaves at or below the node
(`leafDates_eq_allLeafDates`). -/
def TreeNode.leafDates : TreeNode → List Time
  | .mk sp _ _ isLeaf cs =>
    if isLeaf then
      match filenameDate sp with
      | some t => [t]
      | none => []
    else TreeNodeList.leafDates cs
/-- The filename dates of the leaves `Date()` looks at from the nodes of a
list. -/
def TreeNodeList.leafDates : List TreeNode → List Time
  | [] => []
  | c :: cs => c.leafDates ++ TreeNodeList.leafDates cs
end

mutual
/-- Every leaf `Date()` looks at from the node (the node itself when it is a
leaf, otherwise the leaves reached from it through directory nodes) has a
filename of at least ten characters that begins with a calendar date. -/
def TreeNode.allLeavesDated : TreeNode → Bool
  | .mk sp _ _ isLeaf cs =>
    if isLeaf then decide (10 ≤ (Base sp).length) && (filenameDate sp).isSome
    else TreeNodeList.allLeavesDated cs
/-- Every leaf `Date()` looks at from the nodes of a list has a dated
filename. -/
def TreeNodeList.allLeavesDated : List TreeNode → Bool
  | [] => true
  | c :: cs => c.allLeavesDated && TreeNodeList.allLeavesDated cs
end

mutual
/-- No directory node `Date()` looks at from the node (the node itself and
the directory nodes reached from it through directory nodes) is without
children. -/
def TreeNode.noEmptyDirectory : TreeNode → Bool
  | .mk _ _ _ isLeaf cs =>
    if isLeaf then true else !cs.isEmpty && TreeNodeList.noEmptyDirectory cs
/-- No directory node `Date()` looks at from the nodes of a list is without
children. -/
def TreeNodeList.noEmptyDirectory : List TreeNode → Bool
  | [] => true
  | c :: cs => c.noEmptyDirectory && TreeNodeList.noEmptyDirectory cs
end

mutual
/-- The node and all nodes below it, in pre-order. -/
def TreeNode.subtrees : TreeNode → List TreeNode
  | .mk sp e r l cs => .mk sp e r l cs :: TreeNodeList.subtrees cs
/-- The nodes of a list and all nodes below them, in pre-order. -/
def TreeNodeList.subtrees : List TreeNode → List TreeNode
  | [] => []
  | c :: cs => c.subtrees ++ TreeNodeList.subtrees cs
end

/-- The `Date()` of a node, and the zero time where `Date()` panics. -/
def TreeNode.dateOr (n : TreeNode) : Time :=
  match n.Date with
  | .ok t => t
  | .error _ => ⟨0, 0, 0, 0⟩

/-- The comparison of two times that `TreeNodeList.SortDate` makes for a
direction. -/
def timeLess (direction : SortDirection) (t u : Time) : Bool :=
  if direction = SortDirectionAscending then t.Before u else u.Before t

/-- The comparison of two nodes that `TreeNodeList.SortDate` makes for a
direction, by their `Date()`. -/
def nodeLess (direction : SortDirection) (a b : TreeNode) : Bool :=
  timeLess direction a.dateOr b.dateOr

/-- A strict total order on times: what `timeLess` is in either direction. -/
structure StrictTotal (lt : Time → Time → Bool) : Prop where
  irrefl : ∀ t, lt t t = false
  trans : ∀ a b c, lt a b = true → lt b c = true → lt a c = true
  tri : ∀ a b, lt a b = false → lt b a = false → a = b
  negtrans : ∀ a b c, lt b a = false → lt c b = false → lt c a = false

/-- The root of a documents directory with the leaf `2024-01-01-b.md` and
the directory `drafts`, which has no children (it is empty or holds only an
`index.md`) and was last modified on 17 May 2023 at 10:00 UTC. -/
def rootWithEmptyDirectory : TreeNode :=
  rootNode none
    [leafNode "2024-01-01-b.md".toList,
     dirNode "drafts".toList (some ⟨2023, 5, 17, 36000000000000⟩) []]

/-- The root of a documents directory with the leaves `2023-01-01-hello.md`
and `2023-06-01-world.md` and the directory `notes` holding the leaf
`2020-01-01-a.md`. -/
def rootWithNotes : TreeNode :=
  rootNode none
    [leafNode "2023-01-01-hello.md".toList,
     leafNode "2023-06-01-world.md".toList,
     dirNode "notes".toList none [leafNode "notes/2020-01-01-a.md".toList]]

mutual
/-- No leaf at or below the node has children (the field `Children` is
"always empty for leave nodes"). -/
def TreeNode.leavesChildless : TreeNode → Bool
  | .mk _ _ _ isLeaf cs =>
    (if isLeaf then cs.isEmpty else true) && TreeNodeList.leavesChildless cs
/-- No leaf at or below the nodes of a list has children. -/
def TreeNodeList.leavesChildless : List TreeNode → Bool
  | [] => true
  | c :: cs => c.leavesChildless && TreeNodeList.leavesChildless cs
end

/-- The tree `rootWithNotes` after `SortDate(SortDirectionDescending)`. -/
def rootWithNotesDescending : TreeNode :=
  rootNode none
    [leafNode "2023-06-01-world.md".toList,
     leafNode "2023-01-01-hello.md".toList,
     dirNode "notes".toList none [leafNode "notes/2020-01-01-a.md".toList]]

/-- The tree `rootWithNotes` after `SortDate(SortDirectionAscending)`. -/
def rootWithNotesAscending : TreeNode :=
  rootNode none
    [dirNode "notes".toList none [leafNode "notes/2020-01-01-a.md".toList],
     leafNode "2023-01-01-hello.md".toList,
     leafNode "2023-06-01-world.md".toList]

/-! ## The links of a built tree -/

/-- The links between the nodes of an arena that `buildTree` establishes:
the node allocated first is the root and has no parent, it is the only node
with `IsRoot` and every `Root` points to it; every other node is listed in
the `Children` of the node its `Parent` points to, which was allocated
before it; every `Children` list is in order of allocation and lists only
nodes whose `Parent` points back. -/
structure Heap.Linked (h : Heap) : Prop where
  root : ∃ r, h.node 0 = some r ∧ r.IsRoot = true ∧ r.Parent = none
  isRoot : ∀ (i : Nat) (n : HeapNode), h.node i = some n →
    ((n.IsRoot = true ↔ i = 0) ∧ n.Root = some 0)
  parent : ∀ (i : Nat) (n : HeapNode), h.node i = some n → i ≠ 0 →
    ∃ (p : Nat) (pn : HeapNode), n.Parent = some p ∧ p < i ∧ h.node p = some pn ∧
      i ∈ pn.Children
  children : ∀ (p : Nat) (pn : HeapNode), h.node p = some pn →
    pn.Children.Pairwise (fun a b : Nat => a < b) ∧
    ∀ c ∈ pn.Children, ∃ cn, h.node c = some cn ∧ cn.Parent = some p

/-- The first call of the walk function for an entry not named `index.md`,
if there is one, is for an entry directly below the documents directory
(its path is its name). -/
def anchored : List WalkEntry → Bool
  | [] => true
  | w :: ws =>
    if w.d.Name = "index.md".toList then anchored ws else decide (w.path = w.d.Name)

/-- A directory named `index.md`. -/
def FsEntry.isIndexDir : FsEntry → Bool
  | .file _ _ => false
  | .dir n _ _ => decide (n = "index.md".toList)

/-! ## From the arena to the tree below a node -/

/-- The values of a list of optional values, if all are present. -/
def allSome {α : Type} : List (Option α) → Option (List α)
  | [] => some []
  | x :: xs =>
    match x with
    | none => none
    | some a =>
      match allSome xs with
      | none => none
      | some as => some (a :: as)

/-- The node a pointer refers to together with the nodes reachable through
`Children`, down to the given depth; `none` when a pointer is dangling or the
depth does not suffice. -/
def Heap.toTree (h : Heap) : Nat → Ptr → Option TreeNode
  | 0, _ => none
  | depth + 1, p =>
    match h.node p with
    | none => none
    | some n =>
      match allSome (n.Children.map (Heap.toTree h depth)) with
      | none => none
      | some cs => some (.mk n.SourcePath n.Entry n.IsRoot n.IsLeaf cs)

/-! ## Sibling navigation (`node.go`) -/

/-- The index at which the loop `for i, c := range children` first finds
`c == n`. -/
def firstIndex (children : List Ptr) (n : Ptr) : Option Nat :=
  match children with
  | [] => none
  | c :: cs => if c = n then some 0 else (firstIndex cs n).map (fun i => i + 1)

/-- The method `NextSibling` on the node `n` points to: nil (`none`) or a
pointer. -/
def Heap.NextSibling (h : Heap) (n : Ptr) : Except Panic (Option Ptr) :=
  match h.node n with
  | none => .error .nilDereference
  | some node =>
    if node.IsRoot then .error .rootNodeCannotHaveSiblings
    else
      match node.Parent with
      | none => .error .nilDereference
      | some p =>
        match h.node p with
        | none => .error .nilDereference
        | some parent =>
          let ni : Nat :=
            match firstIndex parent.Children n with
            | some i => i + 1
            | none => 0
          if parent.Children.length < ni + 1 then .ok none
          else
            match parent.Children.get? ni with
            | none => .error .indexOutOfRange
            | some c => .ok (some c)

/-- The method `PreviousSibling` on the node `n` points to. -/
def Heap.PreviousSibling (h : Heap) (n : Ptr) : Except Panic (Option Ptr) :=
  match h.node n with
  | none => .error .nilDereference
  | some node =>
    if node.IsRoot then .error .rootNodeCannotHaveSiblings
    else
      match node.Parent with
      | none => .error .nilDereference
      | some p =>
        match h.node p with
        | none => .error .nilDereference
        | some parent =>
          let ni : Int :=
            match firstIndex parent.Children n with
            | some i => (i : Int) - 1
            | none => 0
          if ni < 0 then .ok none
          else
            match parent.Children.get? ni.toNat with
            | none => .error .indexOutOfRange
            | some c => .ok (some c)

/-! ## `RenderWalk` (`engine.go`) -/

/-- The errors `RenderWalk` returns for a node: `create dist dir`,
`create distr file`, `exec template`, `minify html`, `close file`. -/
inductive RenderError where
  | createDistDir
  | createDistFile
  | execTemplate
  | minifyHtml
  | closeFile
  deriving DecidableEq, Repr

/-- How a call of `RenderWalk` ends: it returns nil, it returns an error, or
it panics. -/
inductive Outcome where
  | returnedNil
  | returned (err : RenderError)
  | panicked (p : Panic)
  deriving DecidableEq, Repr

/-- The effect on the world of creating the directory and the file of a
node, executing the template on the node, minifying and closing the file:
the world afterwards and the error of the first of these that failed. -/
abbrev RenderIO (σ : Type) := σ → GoString → TreeNode → σ × Option RenderError

/-- The state `RenderWalk` works on: the world and the nodes whose file has
been written and closed so far, in order. -/
abbrev RenderState (σ : Type) := σ × List TreeNode

/-- What `RenderWalk` does for the node itself, before it turns to the
children: the output path is computed (which panics on a leaf whose name
`NormalizeMdName` rejects, as do the calls in the `Printf` before it), then
the file is rendered. -/
def TreeWalker.renderNode {σ : Type} (distPath : GoString) (io : RenderIO σ)
    (node : TreeNode) (st : RenderState σ) : RenderState σ × Outcome :=
  match TreeWalker.outputPath distPath node with
  | .error p => (st, .panicked p)
  | .ok path =>
    match io st.1 path node with
    | (world, some err) => ((world, st.2), .returned err)
    | (world, none) => ((world, st.2 ++ [node]), .returnedNil)

mutual
/-- The method `RenderWalk`. -/
def TreeWalker.RenderWalk {σ : Type} (distPath : GoString) (io : RenderIO σ) :
    TreeNode → RenderState σ → RenderState σ × Outcome
  | .mk sp e r l cs, st =>
    match TreeWalker.renderNode distPath io (.mk sp e r l cs) st with
    | (st', .returnedNil) => TreeWalker.renderChildren distPath io cs st'
    | (st', out) => (st', out)
/-- The loop of `RenderWalk` over the children: the first call that does not
return nil ends the loop. -/
def TreeWalker.renderChildren {σ : Type} (distPath : GoString) (io : RenderIO σ) :
    List TreeNode → RenderState σ → RenderState σ × Outcome
  | [], st => (st, .returnedNil)
  | c :: cs, st =>
    match TreeWalker.RenderWalk distPath io c st with
    | (st', .returnedNil) => TreeWalker.renderChildren distPath io cs st'
    | (st', out) => (st', out)
end

/-- Nodes rendered one after the other, in the order of the list, up to the
first that does not return nil. -/
def renderInOrder {σ : Type} (distPath : GoString) (io : RenderIO σ) :
    List TreeNode → RenderState σ → RenderState σ × Outcome
  | [], st => (st, .returnedNil)
  | n :: ns, st =>
    match TreeWalker.renderNode distPath io n st with
    | (st', .returnedNil) => renderInOrder distPath io ns st'
    | (st', out) => (st', out)

/-! ## Normalized paths, as the specification reads them -/

/-- The path elements a non-root node is published under: the elements of
the source path of a directory; for a leaf `<dirs>/<date>-<slug>.md`
(`<date>` any ten characters) the directories and the slug. -/
def NormalizedAs (n : TreeNode) (elems : List GoString) : Prop :=
  n.IsRoot = false ∧ (∀ x ∈ elems, validName x = true) ∧
  ((n.IsLeaf = false ∧ elems ≠ [] ∧ n.SourcePath = joinSep elems) ∨
   (n.IsLeaf = true ∧ ∃ (dirs : List GoString) (date slug : GoString),
      date.length = 10 ∧ '/' ∉ date ∧ elems = dirs ++ [slug] ∧
      n.SourcePath = joinSep (dirs ++ [date ++ "-".toList ++ slug ++ ".md".toList])))

/-! ## More example inputs -/

/-- The documents directory of scenario B: the file `2024-01-01-b.md` and
the directory `notes` with the single file `2020-01-01-a.md`. -/
def scenarioB : List FsEntry :=
  [.file "2024-01-01-b.md".toList none,
   .dir "notes".toList none [.file "2020-01-01-a.md".toList none]]

/-- The tree of scenario B. -/
def scenarioBTree : TreeNode :=
  rootNode none
    [leafNode "2024-01-01-b.md".toList,
     dirNode "notes".toList none [leafNode "notes/2020-01-01-a.md".toList]]

/-- The tree of scenario B with its children in the opposite order. -/
def scenarioBTreeNotesFirst : TreeNode :=
  rootNode none
    [dirNode "notes".toList none [leafNode "notes/2020-01-01-a.md".toList],
     leafNode "2024-01-01-b.md".toList]

/-- A documents directory with an `index.md` at the top and in `notes`. -/
def notesWithIndex : List FsEntry :=
  [.file "index.md".toList none,
   .dir "notes".toList none
     [.file "2020-01-01-a.md".toList none, .file "index.md".toList none]]

/-- A documents directory with two files that differ in the date only. -/
def sameSlug : List FsEntry :=
  [.file "2020-01-01-x.md".toList none, .file "2021-01-01-x.md".toList none]

/-- A root whose only child is the leaf `draft.md`. -/
def rootWithDraft : TreeNode := rootNode none [leafNode "draft.md".toList]

/-- A world in which executing the template fails on the node `notes` and
everything else succeeds. -/
def failOnNotes : RenderIO Unit :=
  fun _ _ node => ((), if node.SourcePath = "notes".toList then some .execTemplate else none)

/-- The arena `buildTree` returns for scenario B: the root, `2024-01-01-b.md`,
`notes` and `notes/2020-01-01-a.md`. -/
def scenarioBHeap : Heap :=
  [HeapNode.mk ".".toList ⟨".".toList, true, none⟩ true false none [1, 2] (some 0),
   HeapNode.mk "2024-01-01-b.md".toList ⟨"2024-01-01-b.md".toList, false, none⟩ false true
     (some 0) [] (some 0),
   HeapNode.mk "notes".toList ⟨"notes".toList, true, none⟩ false false (some 0) [3] (some 0),
   HeapNode.mk "notes/2020-01-01-a.md".toList ⟨"2020-01-01-a.md".toList, false, none⟩ false
     true (some 2) [] (some 0)]

/-! ## Leaves with children, and all leaves below a node -/

/-- The filename dates of all leaf nodes at or below a node: the nodes of
the subtree with `IsLeaf`, each with the date its filename begins with. -/
def TreeNode.allLeafDates (n : TreeNode) : List Time :=
  (n.subtrees.filter TreeNode.IsLeaf).filterMap (fun m => filenameDate m.SourcePath)

/-- A documents directory with the file `2022-01-01-a.md` and a directory
named `index.md` that holds the file `2019-01-01-x.md`. -/
def fileThenIndexDir : List FsEntry :=
  [.file "2022-01-01-a.md".toList none,
   .dir "index.md".toList none [.file "2019-01-01-x.md".toList none]]

/-- The tree `buildTree` returns for `fileThenIndexDir`: the directory
`index.md` has no node, and the file in it is a child of the leaf
`2022-01-01-a.md`, the top-level entry walked before it. -/
def fileThenIndexDirTree : TreeNode :=
  rootNode none
    [.mk "2022-01-01-a.md".toList ⟨"2022-01-01-a.md".toList, false, none⟩ false true
      [.mk "index.md/2019-01-01-x.md".toList ⟨"2019-01-01-x.md".toList, false, none⟩
        false true []]]

/-- A documents directory with the files `2020-01-01-a.md`, `2021-01-01-b.md`
and a directory named `index.md` that holds the file `draft.md`. -/
def draftInIndexDir : List FsEntry :=
  [.file "2020-01-01-a.md".toList none, .file "2021-01-01-b.md".toList none,
   .dir "index.md".toList none [.file "draft.md".toList none]]

/-- The tree `buildTree` returns for `draftInIndexDir`: `draft.md` is the
only child of the leaf `2021-01-01-b.md`. -/
def draftInIndexDirTree : TreeNode :=
  rootNode none
    [leafNode "2020-01-01-a.md".toList,
     .mk "2021-01-01-b.md".toList ⟨"2021-01-01-b.md".toList, false, none⟩ false true
      [.mk "index.md/draft.md".toList ⟨"draft.md".toList, false, none⟩ false true []]]

/-- The tree `draftInIndexDirTree` with the children of the root in the
opposite order. -/
def draftInIndexDirTreeNewestFirst : TreeNode :=
  rootNode none
    [.mk "2021-01-01-b.md".toList ⟨"2021-01-01-b.md".toList, false, none⟩ false true
      [.mk "index.md/draft.md".toList ⟨"draft.md".toList, false, none⟩ false true []],
     leafNode "2020-01-01-a.md".toList]

/-! ## The files below the output root -/

/-- C1 (code defect): on the documents directory
`a/{b/{2020-01-01-x.md}, c/{2021-01-01-y.md}}`, walked in pre-order with
sorted siblings, `buildTree` returns a tree whose node `a/c` (allocated
fifth) has the node `a/b` as parent and is listed in the children of
`a/b`, while the directory part of `a/c` is `a`. -/
theorem buildTree_nested_sibling_wrong_parent :
    FsEntry.allWellFormed nestedSiblings = true ∧
    (WalkDir none nestedSiblings).map WalkEntry.path =
      [".".toList, "a".toList, "a/b".toList, "a/b/2020-01-01-x.md".toList,
       "a/c".toList, "a/c/2021-01-01-y.md".toList] ∧
    (buildTree (WalkDir none nestedSiblings)).map
        (fun r => (r.1, (r.2.node 4).map HeapNode.SourcePath, r.2.parentSourcePath 4,
          (r.2.node 2).map HeapNode.Children, (r.2.node 1).map HeapNode.Children)) =
      .ok (some 0, some "a/c".toList, some "a/b".toList, some [3, 4], some [2]) ∧
    Dir "a/c".toList = "a".toList ∧
    "a/b".toList ≠ Dir "a/c".toList :=
  ⟨by decide, by decide, by rfl, by decide, by decide⟩

/-! ## Strings and date parsing -/

theorem HasSuffix_append (t suf : GoString) : HasSuffix (t ++ suf) suf = true := by
  simp [HasSuffix]

theorem TrimSuffix_append (t suf : GoString) : TrimSuffix (t ++ suf) suf = t := by
  simp [TrimSuffix, HasSuffix_append]

theorem HasSuffix_iff (s suf : GoString) : HasSuffix s suf = true ↔ suf <:+ s := by
  unfold HasSuffix
  constructor
  · intro h
    simp only [Bool.and_eq_true, decide_eq_true_eq, beq_iff_eq] at h
    exact ⟨s.take (s.length - suf.length), by
      conv_rhs => rw [← List.take_append_drop (s.length - suf.length) s]
      rw [h.2]⟩
  · rintro ⟨t, rfl⟩
    simp

theorem TrimSuffix_of_not_suffix (s suf : GoString) (h : ¬ suf <:+ s) : TrimSuffix s suf = s := by
  unfold TrimSuffix
  rw [if_neg]
  rw [HasSuffix_iff]; exact h

theorem isDigit_digitChar (n : Nat) : isDigit (digitChar n) = true := by
  have h : n % 10 < 10 := Nat.mod_lt _ (by decide)
  unfold digitChar
  generalize n % 10 = k at h
  interval_cases k <;> decide

theorem digitVal_digitChar (n : Nat) : digitVal (digitChar n) = n % 10 := by
  have h : n % 10 < 10 := Nat.mod_lt _ (by decide)
  unfold digitChar
  generalize n % 10 = k at h
  interval_cases k <;> decide

theorem digitChar_digitVal (c : Char) (h : isDigit c = true) : digitChar (digitVal c) = c := by
  unfold isDigit at h
  simp only [decide_eq_true_eq] at h
  unfold digitChar digitVal
  have e : '0'.toNat + (c.toNat - '0'.toNat) % 10 = c.toNat := by
    have : '0'.toNat = 48 := by decide
    have : '9'.toNat = 57 := by decide
    omega
  rw [e]
  exact Char.ofNat_toNat c
theorem digitVal_lt (c : Char) (h : isDigit c = true) : digitVal c < 10 := by
  unfold isDigit at h
  simp only [decide_eq_true_eq] at h
  unfold digitVal
  have : '0'.toNat = 48 := by decide
  have : '9'.toNat = 57 := by decide
  omega

theorem timeParse_formatDate (y m d : Nat) (h : validDate y m d) :
    timeParse (formatDate y m d) = some (midnightUTC y m d) := by
  obtain ⟨hy, hm1, hm2, hd1, hd2⟩ := h
  have hd3 : d ≤ 31 := by
    unfold daysIn at hd2
    split_ifs at hd2 <;> omega
  have ey : y / 1000 % 10 * 1000 + y / 100 % 10 * 100 + y / 10 % 10 * 10 + y % 10 = y := by omega
  have em : m / 10 % 10 * 10 + m % 10 = m := by omega
  have ed : d / 10 % 10 * 10 + d % 10 = d := by omega
  simp only [timeParse, formatDate, parseYear, getnum, skipDash, isDigit_digitChar,
    digitVal_digitChar, ey, em, ed, Bool.and_self, if_true, midnightUTC]
  have h1 : ¬ (m = 0 ∨ 12 < m) := by omega
  have h2 : ¬ (d < 1 ∨ daysIn m y < d) := by omega
  simp only [h1, h2, if_false]
  simp

theorem parseYear_some (v : GoString) (y : Nat) (r : GoString) (h : parseYear v = some (y, r)) :
    ∃ a b c d, v = a :: b :: c :: d :: r ∧ isDigit a = true ∧ isDigit b = true ∧
      isDigit c = true ∧ isDigit d = true ∧
      y = digitVal a * 1000 + digitVal b * 100 + digitVal c * 10 + digitVal d := by
  unfold parseYear at h
  split at h
  · rename_i a b c d rest
    split_ifs at h with hd
    simp only [Option.some.injEq, Prod.mk.injEq] at h
    simp only [Bool.and_eq_true] at hd
    exact ⟨a, b, c, d, by rw [h.2], hd.1.1.1, hd.1.1.2, hd.1.2, hd.2, h.1.symm⟩
  · exact absurd h (by simp)

theorem getnum_some (v : GoString) (n : Nat) (r : GoString) (h : getnum v = some (n, r)) :
    ∃ a b, v = a :: b :: r ∧ isDigit a = true ∧ isDigit b = true ∧
      n = digitVal a * 10 + digitVal b := by
  unfold getnum at h
  split at h
  · rename_i a b rest
    split_ifs at h with hd
    simp only [Option.some.injEq, Prod.mk.injEq] at h
    simp only [Bool.and_eq_true] at hd
    exact ⟨a, b, by rw [h.2], hd.1, hd.2, h.1.symm⟩
  · exact absurd h (by simp)

theorem skipDash_some (v r : GoString) (h : skipDash v = some r) : v = '-' :: r := by
  unfold skipDash at h
  split at h
  · split_ifs at h with hc
    simp only [Option.some.injEq] at h
    rw [hc, h]
  · exact absurd h (by simp)

theorem timeParse_some (ds : GoString) (t : Time) (h : timeParse ds = some t) :
    ∃ y m d, validDate y m d ∧ ds = formatDate y m d ∧ t = midnightUTC y m d := by
  unfold timeParse at h
  split at h
  · exact absurd h (by simp)
  · rename_i year v1 hy
    split at h
    · exact absurd h (by simp)
    · rename_i v2 hs1
      split at h
      · exact absurd h (by simp)
      · rename_i month v3 hm
        split_ifs at h with hmr
        split at h
        · exact absurd h (by simp)
        · rename_i v4 hs2
          split at h
          · exact absurd h (by simp)
          · rename_i day v5 hdd
            split_ifs at h with hv5 hdr
            simp only [Option.some.injEq] at h
            obtain ⟨a, b, c, d, ev, ha, hb, hc, hd, ey⟩ := parseYear_some _ _ _ hy
            obtain ⟨e, f, ev3, he, hf, em⟩ := getnum_some _ _ _ hm
            obtain ⟨g, k, ev5, hg, hk, ed⟩ := getnum_some _ _ _ hdd
            have e1 := skipDash_some _ _ hs1
            have e2 := skipDash_some _ _ hs2
            have la := digitVal_lt a ha
            have lb := digitVal_lt b hb
            have lc := digitVal_lt c hc
            have ld := digitVal_lt d hd
            have le := digitVal_lt e he
            have lf := digitVal_lt f hf
            have lg := digitVal_lt g hg
            have lk := digitVal_lt k hk
            simp only [ne_eq, not_not] at hv5
            refine ⟨year, month, day, ⟨by omega, by omega, by omega, by omega, by omega⟩, ?_, h.symm⟩
            have d1 : digitChar (year / 1000) = a := by
              rw [← digitChar_digitVal a ha]; unfold digitChar; congr 2; omega
            have d2 : digitChar (year / 100) = b := by
              rw [← digitChar_digitVal b hb]; unfold digitChar; congr 2; omega
            have d3 : digitChar (year / 10) = c := by
              rw [← digitChar_digitVal c hc]; unfold digitChar; congr 2; omega
            have d4 : digitChar year = d := by
              rw [← digitChar_digitVal d hd]; unfold digitChar; congr 2; omega
            have d5 : digitChar (month / 10) = e := by
              rw [← digitChar_digitVal e he]; unfold digitChar; congr 2; omega
            have d6 : digitChar month = f := by
              rw [← digitChar_digitVal f hf]; unfold digitChar; congr 2; omega
            have d7 : digitChar (day / 10) = g := by
              rw [← digitChar_digitVal g hg]; unfold digitChar; congr 2; omega
            have d8 : digitChar day = k := by
              rw [← digitChar_digitVal k hk]; unfold digitChar; congr 2; omega
            unfold formatDate
            rw [d1, d2, d3, d4, d5, d6, d7, d8, ev, e1, ev3, e2, ev5, hv5]
/-! ## C5, C6: name and date of a leaf -/

theorem NormalizeMdName_dated (date slug : GoString) (h : date.length = 10) :
    NormalizeMdName (date ++ "-".toList ++ slug ++ ".md".toList) = .ok slug := by
  unfold NormalizeMdName
  rw [TrimSuffix_append]
  unfold sliceFrom
  have hl : ¬ (date ++ "-".toList ++ slug).length < 11 := by
    simp only [List.length_append, h]
    have : "-".toList.length = 1 := rfl
    omega
  rw [if_neg hl]
  have : date ++ "-".toList ++ slug = (date ++ "-".toList) ++ slug := rfl
  rw [this, List.drop_left' (by simp [h])]

theorem formatDate_length (y m d : Nat) : (formatDate y m d).length = 10 := rfl

/-- C5: a non-root leaf whose base filename is `YYYY-MM-DD-<slug>.md`, the
date being a calendar date and the slug any string, has `Name()` equal to
the slug and `Date()` equal to midnight UTC of that date. -/
theorem Name_Date_of_dated_leaf (n : TreeNode) (y m d : Nat) (slug : GoString)
    (hroot : n.IsRoot = false) (hleaf : n.IsLeaf = true) (hdate : validDate y m d)
    (hbase : Base n.SourcePath = formatDate y m d ++ "-".toList ++ slug ++ ".md".toList) :
    n.Name = .ok slug ∧ n.Date = .ok (midnightUTC y m d) := by
  obtain ⟨sp, entry, isRoot, isLeaf, cs⟩ := n
  simp only [TreeNode.IsRoot, TreeNode.IsLeaf, TreeNode.SourcePath] at hroot hleaf hbase
  subst hroot hleaf
  constructor
  · simp only [TreeNode.Name, TreeNode.IsRoot, TreeNode.IsLeaf, TreeNode.SourcePath, hbase]
    exact NormalizeMdName_dated _ _ (formatDate_length y m d)
  · have ht : sliceTo (Base sp) 10 = .ok (formatDate y m d) := by
      rw [hbase]
      unfold sliceTo
      rw [if_neg (by simp [formatDate_length])]
      rw [List.append_assoc, List.append_assoc, List.take_left' (formatDate_length y m d)]
    simp only [TreeNode.Date, ht, timeParse_formatDate y m d hdate]
    rfl

/-- C5, witness: the leaf `posts/2022-03-05-my-file.md`. -/
theorem Name_Date_of_dated_leaf_witness :
    (leafNode "posts/2022-03-05-my-file.md".toList).Name = .ok "my-file".toList ∧
    (leafNode "posts/2022-03-05-my-file.md".toList).Date = .ok (midnightUTC 2022 3 5) :=
  Name_Date_of_dated_leaf (leafNode "posts/2022-03-05-my-file.md".toList) 2022 3 5
    "my-file".toList rfl rfl (by unfold validDate; decide) (by decide)

/-- C6: a leaf whose base filename does not begin with the ten characters of
a calendar date `YYYY-MM-DD` has no `Date()`: the call panics, on the slice
`[:10]` when the filename has fewer than ten characters and with
`failed to parse date` otherwise. -/
theorem Date_panics_of_invalid_prefix (n : TreeNode) (hleaf : n.IsLeaf = true)
    (h : ¬ ∃ y m d, validDate y m d ∧ (Base n.SourcePath).take 10 = formatDate y m d) :
    ((Base n.SourcePath).length < 10 ∧ n.Date = .error .sliceBounds) ∨
    (10 ≤ (Base n.SourcePath).length ∧
      n.Date = .error (.failedToParseDate ((Base n.SourcePath).take 10))) := by
  obtain ⟨sp, entry, isRoot, isLeaf, cs⟩ := n
  simp only [TreeNode.IsLeaf, TreeNode.SourcePath] at hleaf h ⊢
  subst hleaf
  by_cases hl : (Base sp).length < 10
  · left
    refine ⟨hl, ?_⟩
    simp [TreeNode.Date, sliceTo, hl]
  · right
    refine ⟨by omega, ?_⟩
    have hp : timeParse ((Base sp).take 10) = none := by
      cases hq : timeParse ((Base sp).take 10) with
      | none => rfl
      | some t =>
        obtain ⟨y, m, d, hv, he, _⟩ := timeParse_some _ _ hq
        exact absurd ⟨y, m, d, hv, he⟩ h
    simp [TreeNode.Date, sliceTo, hl, hp]

/-- C6, witness: the leaf `2021-02-30-x.md` (February has no 30th). -/
theorem Date_panics_of_invalid_prefix_witness :
    ("2021-02-30-x.md".toList.length < 10 ∧
      (leafNode "2021-02-30-x.md".toList).Date = .error .sliceBounds) ∨
    (10 ≤ "2021-02-30-x.md".toList.length ∧
      (leafNode "2021-02-30-x.md".toList).Date =
        .error (.failedToParseDate "2021-02-30".toList)) :=
  Date_panics_of_invalid_prefix (leafNode "2021-02-30-x.md".toList) rfl (by
    rintro ⟨y, m, d, hv, he⟩
    have hp := timeParse_formatDate y m d hv
    have hn : timeParse ((Base (leafNode "2021-02-30-x.md".toList).SourcePath).take 10) = none := by
      decide
    rw [← he, hn] at hp
    exact Option.noConfusion hp)

/-! ## C7: `NormalizeMdName` -/

/-- C7 (as stated, refuted): `2020-01-01-a.txt` lacks the `.md` extension
and `NormalizeMdName` returns `a.txt` for it; `0123456789.md` has thirteen
characters and the extension and `NormalizeMdName` panics on it. -/
theorem NormalizeMdName_accepts_other_extension :
    HasSuffix "2020-01-01-a.txt".toList ".md".toList = false ∧
    NormalizeMdName "2020-01-01-a.txt".toList = .ok "a.txt".toList ∧
    HasSuffix "0123456789.md".toList ".md".toList = true ∧
    11 ≤ "0123456789.md".toList.length ∧
    NormalizeMdName "0123456789.md".toList = .error .sliceBounds := by
  decide

/-- C7 (amended): `NormalizeMdName` removes one trailing `.md` when there is
one and then drops the first eleven characters; it panics exactly when what
is left of the filename after removing the extension has fewer than eleven
characters.  A filename without the extension is not rejected. -/
theorem NormalizeMdName_spec :
    (∀ stem : GoString, NormalizeMdName (stem ++ ".md".toList) =
        if stem.length < 11 then .error .sliceBounds else .ok (stem.drop 11)) ∧
    (∀ s : GoString, ¬ ".md".toList <:+ s → NormalizeMdName s =
        if s.length < 11 then .error .sliceBounds else .ok (s.drop 11)) := by
  constructor
  · intro stem
    unfold NormalizeMdName
    rw [TrimSuffix_append]
    rfl
  · intro s hs
    unfold NormalizeMdName
    rw [TrimSuffix_of_not_suffix s _ hs]
    rfl

/-- C7, witness: `2020-01-01-a.txt` is not rejected. -/
theorem NormalizeMdName_spec_witness :
    NormalizeMdName "2020-01-01-a.txt".toList =
      if "2020-01-01-a.txt".toList.length < 11 then .error .sliceBounds
      else .ok ("2020-01-01-a.txt".toList.drop 11) :=
  NormalizeMdName_spec.2 "2020-01-01-a.txt".toList (by decide)

/-! ## C8: `Path` begins with the context path and ends in a slash -/

/-- C8 (as stated, refuted): with the context path `/blog` the root's
`Path()` is `/blog`, which does not end in `/`; and the leaf `a.md` has no
`Path()` at all, the call panics. -/
theorem Path_root_without_trailing_slash :
    (rootNode none []).Path (WithContextPath "/blog".toList defaultContextPath) =
      .ok "/blog".toList ∧
    ¬ "/".toList <:+ "/blog".toList ∧
    (leafNode "a.md".toList).Path defaultContextPath = .error .sliceBounds := by
  decide

/-- C8 (amended): for every node and every context path, `Path()` panics
exactly on a non-root leaf whose base filename without a trailing `.md` has
fewer than eleven characters; otherwise it returns a path that begins with
the context path and that ends in `/` when the node is not the root or the
context path itself ends in `/` (the root's path is the context path). -/
theorem Path_prefix_suffix (ctx : GoString) (n : TreeNode) :
    (n.IsRoot = false ∧ n.IsLeaf = true ∧
      (TrimSuffix (Base n.SourcePath) ".md".toList).length < 11 ∧
      n.Path ctx = .error .sliceBounds) ∨
    (¬ (n.IsRoot = false ∧ n.IsLeaf = true ∧
        (TrimSuffix (Base n.SourcePath) ".md".toList).length < 11) ∧
      ∃ p, n.Path ctx = .ok p ∧ ctx <+: p ∧ (n.IsRoot = true → p = ctx) ∧
        ((n.IsRoot = false ∨ "/".toList <:+ ctx) → "/".toList <:+ p)) := by
  obtain ⟨sp, entry, isRoot, isLeaf, cs⟩ := n
  simp only [TreeNode.IsRoot, TreeNode.IsLeaf, TreeNode.SourcePath, TreeNode.Path]
  cases isRoot
  · cases isLeaf
    · right
      refine ⟨by simp, ctx ++ ToSlash sp ++ "/".toList, by simp, ?_, by simp, ?_⟩
      · rw [List.append_assoc]; exact List.prefix_append _ _
      · intro _; exact List.suffix_append _ _
    · by_cases hl : (TrimSuffix (Base sp) ".md".toList).length < 11
      · left
        refine ⟨rfl, rfl, hl, ?_⟩
        simp only [NormalizeMdName, sliceFrom, if_pos hl]
        rfl
      · right
        refine ⟨fun h => hl h.2.2, ?_⟩
        refine ⟨ctx ++ ToSlash (Join [Dir sp, (TrimSuffix (Base sp) ".md".toList).drop 11]) ++
          "/".toList, ?_, ?_, by simp, ?_⟩
        · simp only [NormalizeMdName, sliceFrom, if_neg hl]
          rfl
        · rw [List.append_assoc]; exact List.prefix_append _ _
        · intro _; exact List.suffix_append _ _
  · right
    refine ⟨by simp, ctx, by simp, List.prefix_refl _, fun _ => rfl, ?_⟩
    intro h
    rcases h with h | h
    · exact absurd h (by simp)
    · exact h

/-! ## `filepath.Clean`, `Join`, `Dir` and `Base` -/

theorem pathElems_ne_nil (p : GoString) : pathElems p ≠ [] := by
  cases p with
  | nil => simp [pathElems]
  | cons c cs =>
    unfold pathElems
    split
    · simp
    · split_ifs <;> simp

theorem pathElems_cons_slash (p : GoString) : pathElems ('/' :: p) = [] :: pathElems p := by
  have h := pathElems_ne_nil p
  rw [pathElems]
  split
  · rename_i e; exact absurd e h
  · rename_i w ws e; rw [e]; simp

theorem pathElems_cons_of_ne (c : Char) (p : GoString) (hc : c ≠ '/') :
    ∃ w ws, pathElems p = w :: ws ∧ pathElems (c :: p) = (c :: w) :: ws := by
  have h := pathElems_ne_nil p
  cases e : pathElems p with
  | nil => exact absurd e h
  | cons w ws =>
    refine ⟨w, ws, rfl, ?_⟩
    rw [pathElems, e]
    simp [hc]

theorem pathElems_append_slash (a b : GoString) :
    pathElems (a ++ '/' :: b) = pathElems a ++ pathElems b := by
  induction a with
  | nil => rw [List.nil_append, pathElems_cons_slash]; rfl
  | cons c cs ih =>
    by_cases hc : c = '/'
    · subst hc
      rw [List.cons_append, pathElems_cons_slash, pathElems_cons_slash, ih]; rfl
    · obtain ⟨w, ws, e1, e2⟩ := pathElems_cons_of_ne c cs hc
      obtain ⟨w', ws', e1', e2'⟩ := pathElems_cons_of_ne c (cs ++ '/' :: b) hc
      rw [List.cons_append, e2', e2]
      rw [ih, e1] at e1'
      simp only [List.cons_append, List.cons.injEq] at e1'
      rw [← e1'.1, ← e1'.2]; rfl

theorem pathElems_of_no_slash (e : GoString) (h : '/' ∉ e) : pathElems e = [e] := by
  induction e with
  | nil => rfl
  | cons c cs ih =>
    have hc : c ≠ '/' := fun hc => h (by simp [hc])
    obtain ⟨w, ws, e1, e2⟩ := pathElems_cons_of_ne c cs hc
    rw [ih (fun hm => h (List.mem_cons_of_mem _ hm))] at e1
    simp only [List.cons.injEq] at e1
    rw [e2, ← e1.1, ← e1.2]

theorem no_slash_of_mem_pathElems (p e : GoString) (h : e ∈ pathElems p) : '/' ∉ e := by
  induction p generalizing e with
  | nil => simp [pathElems] at h; simp [h]
  | cons c cs ih =>
    by_cases hc : c = '/'
    · subst hc
      rw [pathElems_cons_slash] at h
      rcases List.mem_cons.1 h with h | h
      · simp [h]
      · exact ih e h
    · obtain ⟨w, ws, e1, e2⟩ := pathElems_cons_of_ne c cs hc
      rw [e2] at h
      rcases List.mem_cons.1 h with h | h
      · subst h
        have := ih w (by rw [e1]; simp)
        intro hm
        rcases List.mem_cons.1 hm with hm | hm
        · exact hc hm.symm
        · exact this hm
      · exact ih e (by rw [e1]; exact List.mem_cons_of_mem _ h)

theorem joinSep_cons_cons (e f : GoString) (es : List GoString) :
    joinSep (e :: f :: es) = e ++ '/' :: joinSep (f :: es) := rfl

theorem pathElems_joinSep (es : List GoString) (hne : es ≠ []) (h : ∀ e ∈ es, '/' ∉ e) :
    pathElems (joinSep es) = es := by
  induction es with
  | nil => exact absurd rfl hne
  | cons e es ih =>
    cases es with
    | nil => exact pathElems_of_no_slash e (h e (by simp))
    | cons f fs =>
      rw [joinSep_cons_cons, pathElems_append_slash,
        pathElems_of_no_slash e (h e (by simp)),
        ih (by simp) (fun x hx => h x (List.mem_cons_of_mem _ hx))]
      rfl

theorem joinSep_append_singleton (es : List GoString) (hne : es ≠ []) (x : GoString) :
    joinSep (es ++ [x]) = joinSep es ++ '/' :: x := by
  induction es with
  | nil => exact absurd rfl hne
  | cons e es ih =>
    cases es with
    | nil => rfl
    | cons f fs =>
      rw [List.cons_append, List.cons_append, joinSep_cons_cons, ← List.cons_append,
        ih (by simp), joinSep_cons_cons]
      simp

theorem cleanStep_nil (r : Bool) (out : List GoString) : cleanStep r out [] = out := by
  simp [cleanStep]

theorem cleanStep_dot (r : Bool) (out : List GoString) : cleanStep r out ".".toList = out := by
  simp [cleanStep]

theorem cleanStep_proper (r : Bool) (out : List GoString) (e : GoString)
    (h1 : e ≠ []) (h2 : e ≠ ".".toList) (h3 : e ≠ "..".toList) :
    cleanStep r out e = e :: out := by
  unfold cleanStep
  rw [if_neg (fun h => h.elim h1 h2), if_neg h3]

theorem cleanStep_dotdot_pop (r : Bool) (top : GoString) (rest : List GoString)
    (h : top ≠ "..".toList) : cleanStep r (top :: rest) "..".toList = rest := by
  unfold cleanStep
  rw [if_neg (by decide), if_pos rfl]
  simp only [if_neg h]

theorem cleanStep_dotdot_keep (out : List GoString)
    (h : out = [] ∨ ∃ rest, out = "..".toList :: rest) :
    cleanStep false out "..".toList = "..".toList :: out := by
  unfold cleanStep
  rw [if_neg (by decide), if_pos rfl]
  rcases h with h | ⟨rest, h⟩
  · subst h; rfl
  · subst h; simp

theorem mem_foldl_cleanStep (r : Bool) (es : List GoString) (S : List GoString) (x : GoString)
    (h : x ∈ es.foldl (cleanStep r) S) : x ∈ S ∨ (x ∈ es ∧ x ≠ [] ∧ x ≠ ".".toList) := by
  induction es generalizing S with
  | nil => exact Or.inl h
  | cons e es ih =>
    rw [List.foldl_cons] at h
    rcases ih _ h with h' | h'
    · by_cases h1 : e = [] ∨ e = ".".toList
      · have : cleanStep r S e = S := by unfold cleanStep; rw [if_pos h1]
        rw [this] at h'; exact Or.inl h'
      · by_cases h3 : e = "..".toList
        · subst h3
          cases S with
          | nil =>
            cases r
            · simp only [cleanStep] at h'
              right
              simp at h'
              subst h'
              exact ⟨by simp, by decide, by decide⟩
            · simp [cleanStep] at h'
          | cons top rest =>
            by_cases ht : top = "..".toList
            · cases r
              · simp only [cleanStep, if_neg h1, if_pos ht] at h'
                simp only [↓reduceIte, Bool.false_eq_true] at h'
                rcases List.mem_cons.1 h' with h' | h'
                · right; subst h'; exact ⟨by simp, by decide, by decide⟩
                · exact Or.inl h'
              · simp only [cleanStep, if_neg h1, if_pos ht] at h'
                simp only [↓reduceIte] at h'
                exact Or.inl h'
            · rw [cleanStep_dotdot_pop r top rest ht] at h'
              exact Or.inl (List.mem_cons_of_mem _ h')
        · push_neg at h1
          rw [cleanStep_proper r S e h1.1 h1.2 h3] at h'
          rcases List.mem_cons.1 h' with h' | h'
          · right; subst h'; exact ⟨by simp, h1.1, h1.2⟩
          · exact Or.inl h'
    · exact Or.inr ⟨List.mem_cons_of_mem _ h'.1, h'.2⟩

theorem foldl_cleanStep_normal (r : Bool) (S : List GoString) (es : List GoString) :
    es.foldl (cleanStep r) S =
      (es.foldl (cleanStep false) []).reverse.foldl (cleanStep r) S := by
  induction es using List.reverseRecOn with
  | nil => rfl
  | append_singleton es c ih =>
    rw [List.foldl_append, List.foldl_append, List.foldl_cons, List.foldl_nil,
      List.foldl_cons, List.foldl_nil, ih]
    by_cases h1 : c = [] ∨ c = ".".toList
    · have e1 : ∀ q X, cleanStep q X c = X := by
        intro q X; unfold cleanStep; rw [if_pos h1]
      rw [e1, e1]
    · push_neg at h1
      by_cases h3 : c = "..".toList
      · subst h3
        cases hN : es.foldl (cleanStep false) [] with
        | nil => rw [cleanStep_dotdot_keep [] (Or.inl rfl)]; simp
        | cons top rest =>
          by_cases ht : top = "..".toList
          · subst ht
            rw [cleanStep_dotdot_keep _ (Or.inr ⟨rest, rfl⟩)]
            simp [List.foldl_append]
          · rw [cleanStep_dotdot_pop false top rest ht]
            have hm : top ∈ es.foldl (cleanStep false) [] := by rw [hN]; simp
            rcases mem_foldl_cleanStep false es [] top hm with hm | hm
            · simp at hm
            · rw [List.reverse_cons, List.foldl_append, List.foldl_cons, List.foldl_nil,
                cleanStep_proper r _ top hm.2.1 hm.2.2 ht, cleanStep_dotdot_pop r _ _ ht]
      · rw [cleanStep_proper false _ c h1.1 h1.2 h3, List.reverse_cons, List.foldl_append,
          List.foldl_cons, List.foldl_nil]
theorem Clean_of_relative (p : GoString) (h : p.head? ≠ some '/') :
    Clean p =
      if ((pathElems p).foldl (cleanStep false) []).reverse = [] then ".".toList
      else joinSep ((pathElems p).foldl (cleanStep false) []).reverse := by
  cases p with
  | nil => decide
  | cons c cs =>
    have hc : c ≠ '/' := fun hc => h (by simp [hc])
    have hd : decide (c = '/') = false := decide_eq_false hc
    simp only [Clean, hd, Bool.false_eq_true, ↓reduceIte]

theorem joinSep_head (e : GoString) (es : List GoString) (he : e ≠ []) :
    (joinSep (e :: es)).head? = e.head? := by
  cases es with
  | nil => rfl
  | cons f fs =>
    rw [joinSep_cons_cons]
    cases e with
    | nil => exact absurd rfl he
    | cons a as => rfl

theorem Clean_relative (p : GoString) (h : p.head? ≠ some '/') :
    (Clean p).head? ≠ some '/' := by
  rw [Clean_of_relative p h]
  split_ifs with ho
  · decide
  · cases hr : ((pathElems p).foldl (cleanStep false) []).reverse with
    | nil => exact absurd hr ho
    | cons e es =>
      have hm : e ∈ (pathElems p).foldl (cleanStep false) [] := by
        rw [← List.mem_reverse, hr]; simp
      rcases mem_foldl_cleanStep false _ [] e hm with hm | hm
      · simp at hm
      · rw [joinSep_head e es hm.2.1]
        have hs := no_slash_of_mem_pathElems p e hm.1
        cases e with
        | nil => exact absurd rfl hm.2.1
        | cons a as =>
          simp only [List.head?_cons, ne_eq, Option.some.injEq]
          intro ha
          exact hs (by simp [ha])

theorem Clean_ne_nil (p : GoString) : Clean p ≠ [] := by
  cases p with
  | nil => decide
  | cons c cs =>
    by_cases hc : c = '/'
    · simp [Clean, hc]
    · have h : (c :: cs).head? ≠ some '/' := by simp [hc]
      have := Clean_relative (c :: cs) h
      rw [Clean_of_relative _ h]
      split_ifs with ho
      · decide
      · cases hr : ((pathElems (c :: cs)).foldl (cleanStep false) []).reverse with
        | nil => exact absurd hr ho
        | cons e es =>
          have hm : e ∈ (pathElems (c :: cs)).foldl (cleanStep false) [] := by
            rw [← List.mem_reverse, hr]; simp
          rcases mem_foldl_cleanStep false _ [] e hm with hm | hm
          · simp at hm
          · intro hj
            have := joinSep_head e es hm.2.1
            rw [hj] at this
            cases e with
            | nil => exact hm.2.1 rfl
            | cons a as => simp at this

/-- Cleaning a relative path first does not change what a later `Clean` of
a longer path makes of its elements. -/
theorem foldl_pathElems_Clean (r : Bool) (S : List GoString) (p : GoString)
    (h : p.head? ≠ some '/') :
    (pathElems (Clean p)).foldl (cleanStep r) S = (pathElems p).foldl (cleanStep r) S := by
  rw [foldl_cleanStep_normal r S (pathElems p), Clean_of_relative p h]
  split_ifs with ho
  · rw [ho]
    have : pathElems ".".toList = [".".toList] := by decide
    rw [this, List.foldl_cons, cleanStep_dot]
  · rw [pathElems_joinSep _ ho]
    intro e he
    rw [List.mem_reverse] at he
    rcases mem_foldl_cleanStep false _ [] e he with hm | hm
    · simp at hm
    · exact no_slash_of_mem_pathElems p e hm.1

theorem foldl_cleanStep_names (r : Bool) (S : List GoString) (names : List GoString)
    (h : ∀ e ∈ names, validName e = true) :
    names.foldl (cleanStep r) S = names.reverse ++ S := by
  induction names generalizing S with
  | nil => rfl
  | cons e es ih =>
    have he := h e (by simp)
    simp only [validName, Bool.and_eq_true, decide_eq_true_eq, Bool.not_eq_true'] at he
    rw [List.foldl_cons, cleanStep_proper r S e he.1.1.1 he.1.2 he.2,
      ih _ (fun x hx => h x (List.mem_cons_of_mem _ hx))]
    simp

theorem validName_no_slash (e : GoString) (h : validName e = true) : '/' ∉ e := by
  simp only [validName, Bool.and_eq_true, decide_eq_true_eq, Bool.not_eq_true'] at h
  have := h.1.1.2
  intro hm
  have hc : e.contains '/' = true := by simpa using hm
  rw [hc] at this
  exact Bool.noConfusion this

theorem validName_head (e : GoString) (h : validName e = true) : e.head? ≠ some '/' := by
  have hs := validName_no_slash e h
  cases e with
  | nil => simp
  | cons a as =>
    simp only [List.head?_cons, ne_eq, Option.some.injEq]
    intro ha; exact hs (by simp [ha])

/-- A path made of file names is clean. -/
theorem Clean_joinSep_names (names : List GoString) (hne : names ≠ [])
    (h : ∀ e ∈ names, validName e = true) : Clean (joinSep names) = joinSep names := by
  have hrel : (joinSep names).head? ≠ some '/' := by
    cases names with
    | nil => exact absurd rfl hne
    | cons e es =>
      have he := h e (by simp)
      have hv := validName_head e he
      simp only [validName, Bool.and_eq_true, decide_eq_true_eq] at he
      rw [joinSep_head e es he.1.1.1]
      exact hv
  rw [Clean_of_relative _ hrel,
    pathElems_joinSep names hne (fun e he => validName_no_slash e (h e he)),
    foldl_cleanStep_names false [] names h]
  simp [hne]

theorem dirPrefix_relative (p : GoString) (h : p.head? ≠ some '/') :
    (dirPrefix p).head? ≠ some '/' := by
  cases p with
  | nil => simp [dirPrefix]
  | cons c cs =>
    have hc : c ≠ '/' := fun hc => h (by simp [hc])
    unfold dirPrefix
    split_ifs <;> simp [hc]

theorem Dir_relative (p : GoString) (h : p.head? ≠ some '/') : (Dir p).head? ≠ some '/' :=
  Clean_relative _ (dirPrefix_relative p h)

theorem head?_append_of_ne_nil (a b : GoString) (h : a ≠ []) : (a ++ b).head? = a.head? := by
  cases a with
  | nil => exact absurd rfl h
  | cons x xs => rfl

/-- Two middle parts of a path that `Clean` treats alike give the same joined
path. -/
theorem Join_congr (dist a b x : GoString) (hd : dist ≠ [])
    (h : ∀ r S, (pathElems a).foldl (cleanStep r) S = (pathElems b).foldl (cleanStep r) S) :
    Join [dist, a, x] = Join [dist, b, x] := by
  cases dist with
  | nil => exact absurd rfl hd
  | cons c dt =>
    have e : ∀ m : GoString, Join [c :: dt, m, x] = Clean (c :: (dt ++ '/' :: (m ++ '/' :: x))) := by
      intro m
      simp only [Join, joinSep, List.cons_append, if_neg (List.cons_ne_nil c dt)]
    have f : ∀ m : GoString, pathElems (c :: (dt ++ '/' :: (m ++ '/' :: x))) =
        pathElems (c :: dt) ++ (pathElems m ++ pathElems x) := by
      intro m
      rw [← List.cons_append, pathElems_append_slash, pathElems_append_slash]
    rw [e, e]
    simp only [Clean]
    rw [f, f]
    simp only [List.foldl_append, h]

theorem Join_four (dist d n x : GoString) (hd : dist ≠ []) :
    Join [dist, d, n, x] = Join [dist, d ++ '/' :: n, x] := by
  simp only [Join, joinSep, List.append_assoc, List.cons_append, if_neg hd]

theorem Path_ok_prefix (ctx : GoString) (n : TreeNode) (p : GoString)
    (h : n.Path ctx = .ok p) : ctx <+: p := by
  obtain ⟨sp, entry, isRoot, isLeaf, cs⟩ := n
  simp only [TreeNode.Path, TreeNode.IsRoot, TreeNode.IsLeaf, TreeNode.SourcePath] at h
  split_ifs at h
  · cases h; exact List.prefix_refl _
  · split at h
    · exact Except.noConfusion h
    · cases h; rw [List.append_assoc]; exact List.prefix_append _ _
  · cases h; rw [List.append_assoc]; exact List.prefix_append _ _

theorem Join_two (d n : GoString) (h : d ≠ []) : Join [d, n] = Clean (d ++ '/' :: n) := by
  simp only [Join, joinSep, if_neg h]

theorem foldl_pathElems_append_slash_nil (r : Bool) (S : List GoString) (p : GoString) :
    (pathElems (p ++ "/".toList)).foldl (cleanStep r) S =
      (pathElems p).foldl (cleanStep r) S := by
  have : p ++ "/".toList = p ++ '/' :: [] := rfl
  rw [this, pathElems_append_slash, List.foldl_append]
  have : pathElems [] = [[]] := rfl
  rw [this, List.foldl_cons, List.foldl_nil, cleanStep_nil]

theorem Join_leading_slash (dist w x : GoString) (hd : dist ≠ []) :
    Join [dist, '/' :: w, x] = Join [dist, w, x] := by
  apply Join_congr _ _ _ _ hd
  intro r S
  rw [pathElems_cons_slash, List.foldl_cons, cleanStep_nil]


theorem dirPrefix_cons (c : Char) (cs : GoString) :
    dirPrefix (c :: cs) =
      if cs.contains '/' then c :: dirPrefix cs else if c = '/' then [c] else [] := rfl

theorem dirPrefix_of_no_slash (file : GoString) (h : '/' ∉ file) : dirPrefix file = [] := by
  cases file with
  | nil => rfl
  | cons c cs =>
    have hc : c ≠ '/' := fun hc => h (by simp [hc])
    have hcs : '/' ∉ cs := fun hm => h (List.mem_cons_of_mem _ hm)
    have hn : ¬ (cs.contains '/' = true) := by simpa using hcs
    rw [dirPrefix_cons, if_neg hn, if_neg hc]

theorem dirPrefix_append_slash (pre file : GoString) (h : '/' ∉ file) :
    dirPrefix (pre ++ '/' :: file) = pre ++ ['/'] := by
  induction pre with
  | nil =>
    have hn : ¬ (file.contains '/' = true) := by simpa using h
    rw [List.nil_append, dirPrefix_cons, if_neg hn, if_pos rfl]; rfl
  | cons c cs ih =>
    have hp : (cs ++ '/' :: file).contains '/' = true := by simp
    rw [List.cons_append, dirPrefix_cons, if_pos hp, ih]; rfl

theorem lastElem_append_slash (pre file : GoString) (h : '/' ∉ file) :
    lastElem (pre ++ '/' :: file) = file := by
  unfold lastElem
  rw [List.reverse_append, List.reverse_cons, List.append_assoc]
  rw [List.takeWhile_append_of_pos, List.singleton_append, List.takeWhile_cons_of_neg]
  · simp
  · simp
  · intro c hc
    have : c ≠ '/' := fun e => h (by rw [← e]; exact List.mem_reverse.1 hc)
    simp [this]

theorem lastElem_of_no_slash (file : GoString) (h : '/' ∉ file) : lastElem file = file := by
  unfold lastElem
  rw [List.takeWhile_eq_self_iff.2]
  · simp
  · intro c hc
    have : c ≠ '/' := fun e => h (by rw [← e]; exact List.mem_reverse.1 hc)
    simp [this]

theorem stripTrailingSlashes_append (pre file : GoString) (hne : file ≠ []) (h : '/' ∉ file) :
    stripTrailingSlashes (pre ++ file) = pre ++ file := by
  unfold stripTrailingSlashes
  rw [List.reverse_append]
  cases hr : file.reverse with
  | nil => exact absurd (List.reverse_eq_nil_iff.1 hr) hne
  | cons c cs =>
    have hc : c ≠ '/' := fun e => h (by
      rw [← e]; exact List.mem_reverse.1 (by rw [hr]; simp))
    rw [List.cons_append, List.dropWhile_cons_of_neg (by simp [hc])]
    rw [← List.cons_append, ← hr, ← List.reverse_append, List.reverse_reverse]

theorem Base_append_slash (pre file : GoString) (hne : file ≠ []) (h : '/' ∉ file) :
    Base (pre ++ '/' :: file) = file := by
  unfold Base
  rw [if_neg (by simp)]
  have e : pre ++ '/' :: file = (pre ++ ['/']) ++ file := by simp
  have := stripTrailingSlashes_append (pre ++ ['/']) file hne h
  rw [← e] at this
  simp only [this, lastElem_append_slash pre file h, if_neg hne]

theorem Base_of_no_slash (file : GoString) (hne : file ≠ []) (h : '/' ∉ file) :
    Base file = file := by
  unfold Base
  rw [if_neg hne]
  have := stripTrailingSlashes_append [] file hne h
  simp only [List.nil_append] at this
  simp only [this, lastElem_of_no_slash file h, if_neg hne]

theorem Clean_joinSep_names_slash (names : List GoString) (hne : names ≠ [])
    (h : ∀ e ∈ names, validName e = true) :
    Clean (joinSep names ++ ['/']) = joinSep names := by
  have hrel0 : (joinSep names).head? ≠ some '/' := by
    cases names with
    | nil => exact absurd rfl hne
    | cons e es =>
      have he := h e (by simp)
      have hv := validName_head e he
      simp only [validName, Bool.and_eq_true, decide_eq_true_eq] at he
      rw [joinSep_head e es he.1.1.1]
      exact hv
  have hjn : joinSep names ≠ [] := by
    intro hj
    have := Clean_joinSep_names names hne h
    rw [hj] at this
    exact Clean_ne_nil [] this
  have hrel : (joinSep names ++ ['/']).head? ≠ some '/' := by
    rw [head?_append_of_ne_nil _ _ hjn]; exact hrel0
  rw [Clean_of_relative _ hrel, pathElems_append_slash,
    pathElems_joinSep names hne (fun e he => validName_no_slash e (h e he)),
    List.foldl_append, foldl_cleanStep_names false [] names h]
  have : pathElems [] = [[]] := rfl
  rw [this, List.foldl_cons, List.foldl_nil, cleanStep_nil]
  simp [hne]

/-- `Base` and `Dir` of a path made of directory names and a file name. -/
theorem Base_Dir_joinSep (dirs : List GoString) (file : GoString)
    (hdirs : ∀ e ∈ dirs, validName e = true) (hne : file ≠ []) (h : '/' ∉ file) :
    Base (joinSep (dirs ++ [file])) = file ∧
    Dir (joinSep (dirs ++ [file])) = if dirs = [] then ".".toList else joinSep dirs := by
  by_cases hd : dirs = []
  · subst hd
    simp only [List.nil_append, joinSep, if_true]
    exact ⟨Base_of_no_slash file hne h, by
      unfold Dir; rw [dirPrefix_of_no_slash file h]; rfl⟩
  · rw [joinSep_append_singleton dirs hd, if_neg hd]
    refine ⟨Base_append_slash _ file hne h, ?_⟩
    unfold Dir
    rw [dirPrefix_append_slash _ file h]
    exact Clean_joinSep_names_slash dirs hd hdirs

theorem Join_Dir_name (dirs : List GoString) (slug : GoString)
    (hdirs : ∀ e ∈ dirs, validName e = true) (hslug : validName slug = true) :
    Join [if dirs = [] then ".".toList else joinSep dirs, slug] = joinSep (dirs ++ [slug]) := by
  have hs := hslug
  simp only [validName, Bool.and_eq_true, decide_eq_true_eq] at hs
  by_cases hd : dirs = []
  · subst hd
    rw [if_pos rfl, Join_two _ _ (by decide)]
    have hrel : (".".toList ++ '/' :: slug).head? ≠ some '/' := by
      simp
    rw [Clean_of_relative _ hrel, pathElems_append_slash,
      pathElems_of_no_slash slug (validName_no_slash slug hslug)]
    have : pathElems ".".toList = [".".toList] := by decide
    rw [this]
    simp only [List.singleton_append, List.foldl_cons, List.foldl_nil, cleanStep_dot,
      cleanStep_proper false [] slug hs.1.1.1 hs.1.2 hs.2]
    simp [joinSep]
  · rw [if_neg hd]
    have hjn : joinSep dirs ≠ [] := by
      intro hj
      have := Clean_joinSep_names dirs hd hdirs
      rw [hj] at this
      exact Clean_ne_nil [] this
    rw [Join_two _ _ hjn, ← joinSep_append_singleton dirs hd]
    apply Clean_joinSep_names _ (by simp)
    intro e he
    rcases List.mem_append.1 he with he | he
    · exact hdirs e he
    · simp only [List.mem_singleton] at he; subst he; exact hslug

/-! ## C9: what `Path` removes of a leaf's filename -/

/-- C9 (as stated, refuted): the leaf `2020-01-01-2020-01-01-a.md` has the
path `/2020-01-01-a/`, which contains the date prefix of its filename; the
leaf `2020-01-01-notes.md.md` has the path `/notes.md/`, which contains
`.md`; the directory `2020-01-01-trip` has the path `/2020-01-01-trip/`. -/
theorem Path_keeps_date_prefix_and_extension :
    (leafNode "2020-01-01-2020-01-01-a.md".toList).Path defaultContextPath =
      .ok "/2020-01-01-a/".toList ∧
    "2020-01-01-".toList <:+: "/2020-01-01-a/".toList ∧
    (leafNode "2020-01-01-notes.md.md".toList).Path defaultContextPath =
      .ok "/notes.md/".toList ∧
    ".md".toList <:+: "/notes.md/".toList ∧
    (dirNode "2020-01-01-trip".toList none []).Path defaultContextPath =
      .ok "/2020-01-01-trip/".toList ∧
    "2020-01-01-".toList <:+: "/2020-01-01-trip/".toList := by
  refine ⟨by decide, ⟨"/".toList, "a/".toList, by decide⟩, by decide,
    ⟨"/notes".toList, "/".toList, by decide⟩, by decide,
    ⟨"/".toList, "trip/".toList, by decide⟩⟩

/-- C9 (amended): for a non-root leaf whose source path is made of
directory names and the filename `<date>-<slug>.md` (`<date>` any ten
characters, `<slug>` a file name), `Path()` is the context path followed by
the directory names and the slug, each followed by `/`: the eleven leading
characters and the one trailing `.md` of the leaf's own filename are removed.
For a non-root directory `Path()` is the context path, the source path and
`/`, with nothing removed. -/
theorem Path_of_dated_leaf (ctx : GoString) :
    (∀ (n : TreeNode) (dirs : List GoString) (date slug : GoString),
      n.IsRoot = false → n.IsLeaf = true →
      (∀ e ∈ dirs, validName e = true) → date.length = 10 → '/' ∉ date →
      validName slug = true →
      n.SourcePath = joinSep (dirs ++ [date ++ "-".toList ++ slug ++ ".md".toList]) →
      n.Path ctx = .ok (ctx ++ joinSep (dirs ++ [slug]) ++ "/".toList)) ∧
    (∀ n : TreeNode, n.IsRoot = false → n.IsLeaf = false →
      n.Path ctx = .ok (ctx ++ n.SourcePath ++ "/".toList)) := by
  constructor
  · intro n dirs date slug hroot hleaf hdirs hlen hdate hslug hsp
    obtain ⟨sp, entry, isRoot, isLeaf, cs⟩ := n
    simp only [TreeNode.IsRoot, TreeNode.IsLeaf, TreeNode.SourcePath] at hroot hleaf hsp
    subst hroot hleaf
    have hfile_ne : date ++ "-".toList ++ slug ++ ".md".toList ≠ [] := by simp
    have hfile : '/' ∉ date ++ "-".toList ++ slug ++ ".md".toList := by
      have := validName_no_slash slug hslug
      simp only [List.mem_append, not_or]
      exact ⟨⟨⟨hdate, by decide⟩, this⟩, by decide⟩
    obtain ⟨hb, hd⟩ := Base_Dir_joinSep dirs _ hdirs hfile_ne hfile
    simp only [TreeNode.Path, TreeNode.IsRoot, TreeNode.IsLeaf, TreeNode.SourcePath, hsp, hb,
      hd, NormalizeMdName_dated date slug hlen, ToSlash, Join_Dir_name dirs slug hdirs hslug]
    rfl
  · intro n hroot hleaf
    obtain ⟨sp, entry, isRoot, isLeaf, cs⟩ := n
    simp only [TreeNode.IsRoot, TreeNode.IsLeaf, TreeNode.SourcePath] at hroot hleaf
    subst hroot hleaf
    rfl

/-- C9, witness: the leaf `posts/2022-03-05-my-file.md` under the context
path `/blog/`. -/
theorem Path_of_dated_leaf_witness :
    (leafNode "posts/2022-03-05-my-file.md".toList).Path "/blog/".toList =
      .ok "/blog/posts/my-file/".toList :=
  (Path_of_dated_leaf "/blog/".toList).1 (leafNode "posts/2022-03-05-my-file.md".toList)
    ["posts".toList] "2022-03-05".toList "my-file".toList rfl rfl (by decide) rfl
    (by decide) (by decide) (by decide)

/-! ## The output file of a node -/

/-- The output file and `Path()`: for every node with a relative source
path (the root being the directory `.`) and a non-empty output root, the file
`RenderWalk` creates is `Join(distPath, rest, "index.html")` where `rest` is
`Path()` without the context path in front; and with the context path `/` it
is `Join(distPath, Path(), "index.html")`, the file a link to `Path()`
resolves to below the output root.  On a leaf whose name makes
`NormalizeMdName` panic both sides panic. -/
theorem outputPath_eq_Path (distPath ctx : GoString) (n : TreeNode)
    (hdist : distPath ≠ [])
    (hrel : n.SourcePath.head? ≠ some '/')
    (hroot : n.IsRoot = true → n.IsLeaf = false ∧ n.SourcePath = ".".toList) :
    TreeWalker.outputPath distPath n =
      (n.Path ctx).map (fun p => Join [distPath, p.drop ctx.length, "index.html".toList]) ∧
    TreeWalker.outputPath distPath n =
      (n.Path defaultContextPath).map (fun p => Join [distPath, p, "index.html".toList]) := by
  have key : ∀ c : GoString, TreeWalker.outputPath distPath n =
      (n.Path c).map (fun p => Join [distPath, p.drop c.length, "index.html".toList]) := by
    intro c
    obtain ⟨sp, entry, isRoot, isLeaf, cs⟩ := n
    simp only [TreeNode.IsRoot, TreeNode.IsLeaf, TreeNode.SourcePath] at hrel hroot
    simp only [TreeWalker.outputPath, TreeNode.Path, TreeNode.IsRoot, TreeNode.IsLeaf,
      TreeNode.SourcePath, ToSlash]
    cases isRoot
    · cases isLeaf
      · simp only [Bool.false_eq_true, ↓reduceIte, Except.map, List.append_assoc,
          List.drop_left]
        congr 1
        apply Join_congr _ _ _ _ hdist
        intro r S
        rw [foldl_pathElems_append_slash_nil]
      · simp only [Bool.false_eq_true, ↓reduceIte]
        cases hn : NormalizeMdName (Base sp) with
        | error e => rfl
        | ok name =>
          simp only [Except.map, List.append_assoc, List.drop_left]
          congr 1
          rw [Join_four _ _ _ _ hdist]
          apply Join_congr _ _ _ _ hdist
          intro r S
          have hD : Dir sp ≠ [] := Clean_ne_nil _
          rw [foldl_pathElems_append_slash_nil, Join_two _ _ hD, foldl_pathElems_Clean]
          rw [head?_append_of_ne_nil _ _ hD]
          exact Dir_relative sp hrel
    · obtain ⟨hl, hs⟩ := hroot rfl
      subst hl hs
      simp only [Bool.false_eq_true, ↓reduceIte, Except.map, List.drop_length]
      congr 1
      apply Join_congr _ _ _ _ hdist
      intro r S
      rfl
  refine ⟨key ctx, ?_⟩
  rw [key defaultContextPath]
  cases hp : n.Path defaultContextPath with
  | error e => rfl
  | ok p =>
    simp only [Except.map]
    congr 1
    have hpre : ∃ w, p = '/' :: w := by
      obtain ⟨t, ht⟩ := Path_ok_prefix defaultContextPath n p hp
      exact ⟨t, ht.symm⟩
    obtain ⟨w, rfl⟩ := hpre
    rw [Join_leading_slash _ _ _ hdist]
    rfl

/-- The output file of the leaf `posts/2022-03-05-my-file.md` for the output
root `dist` and the context path `/blog/`. -/
theorem outputPath_eq_Path_witness :
    ("dist".toList ≠ [] ∧
      (leafNode "posts/2022-03-05-my-file.md".toList).SourcePath.head? ≠ some '/') ∧
    (TreeWalker.outputPath "dist".toList (leafNode "posts/2022-03-05-my-file.md".toList) =
        ((leafNode "posts/2022-03-05-my-file.md".toList).Path "/blog/".toList).map
          (fun p => Join ["dist".toList, p.drop "/blog/".toList.length, "index.html".toList]) ∧
      TreeWalker.outputPath "dist".toList (leafNode "posts/2022-03-05-my-file.md".toList) =
        ((leafNode "posts/2022-03-05-my-file.md".toList).Path defaultContextPath).map
          (fun p => Join ["dist".toList, p, "index.html".toList])) :=
  ⟨⟨by decide, by decide⟩,
    outputPath_eq_Path "dist".toList "/blog/".toList
      (leafNode "posts/2022-03-05-my-file.md".toList) (by decide) (by decide)
      (fun h => absurd h (by decide))⟩

/-! ## C8, witness -/

/-- C8, witness: the leaf `posts/2022-03-05-my-file.md` under the context
path `/blog/`. -/
theorem Path_prefix_suffix_witness :
    ((leafNode "posts/2022-03-05-my-file.md".toList).IsRoot = false ∧
      (leafNode "posts/2022-03-05-my-file.md".toList).IsLeaf = true ∧
      (TrimSuffix (Base (leafNode "posts/2022-03-05-my-file.md".toList).SourcePath)
        ".md".toList).length < 11 ∧
      (leafNode "posts/2022-03-05-my-file.md".toList).Path "/blog/".toList =
        .error .sliceBounds) ∨
    (¬ ((leafNode "posts/2022-03-05-my-file.md".toList).IsRoot = false ∧
        (leafNode "posts/2022-03-05-my-file.md".toList).IsLeaf = true ∧
        (TrimSuffix (Base (leafNode "posts/2022-03-05-my-file.md".toList).SourcePath)
          ".md".toList).length < 11) ∧
      ∃ p, (leafNode "posts/2022-03-05-my-file.md".toList).Path "/blog/".toList = .ok p ∧
        "/blog/".toList <+: p ∧
        ((leafNode "posts/2022-03-05-my-file.md".toList).IsRoot = true → p = "/blog/".toList) ∧
        (((leafNode "posts/2022-03-05-my-file.md".toList).IsRoot = false ∨
          "/".toList <:+ "/blog/".toList) → "/".toList <:+ p)) :=
  Path_prefix_suffix "/blog/".toList (leafNode "posts/2022-03-05-my-file.md".toList)

/-! ## The order of times -/

theorem Before_irrefl (t : Time) : t.Before t = false := by
  simp [Time.Before]

theorem Before_trans (a b c : Time) (h1 : a.Before b = true) (h2 : b.Before c = true) :
    a.Before c = true := by
  simp only [Time.Before, decide_eq_true_eq] at *
  omega

theorem Before_trichotomy (a b : Time) (h1 : a.Before b = false) (h2 : b.Before a = false) :
    a = b := by
  simp only [Time.Before, decide_eq_false_iff_not] at *
  obtain ⟨y1, m1, d1, n1⟩ := a
  obtain ⟨y2, m2, d2, n2⟩ := b
  simp only [Time.mk.injEq] at *
  omega

theorem not_Before_trans (a b c : Time) (h1 : b.Before a = false) (h2 : c.Before b = false) :
    c.Before a = false := by
  simp only [Time.Before, decide_eq_false_iff_not] at *
  omega

theorem timeLess_strictTotal (d : SortDirection) : StrictTotal (timeLess d) := by
  unfold timeLess
  by_cases h : d = SortDirectionAscending
  · simp only [if_pos h]
    exact ⟨Before_irrefl, Before_trans, Before_trichotomy, not_Before_trans⟩
  · simp only [if_neg h]
    exact ⟨Before_irrefl, fun a b c h1 h2 => Before_trans c b a h2 h1,
      fun a b h1 h2 => Before_trichotomy a b h2 h1,
      fun a b c h1 h2 => not_Before_trans c b a h2 h1⟩

/-! ## `sort.SliceStable` -/

theorem insertStable_perm {α : Type} (less : α → α → Bool) (x : α) (l : List α) :
    (insertStable less x l).Perm (x :: l) := by
  induction l with
  | nil => exact List.Perm.refl _
  | cons y ys ih =>
    unfold insertStable
    split_ifs
    · exact (List.Perm.cons y ih).trans (List.Perm.swap x y ys)
    · exact List.Perm.refl _

theorem SliceStable_perm {α : Type} (less : α → α → Bool) (l : List α) : (SliceStable less l).Perm l := by
  induction l with
  | nil => exact List.Perm.refl _
  | cons x xs ih =>
    unfold SliceStable
    exact (insertStable_perm less x _).trans (List.Perm.cons x ih)

theorem SliceStable_length {α : Type} (less : α → α → Bool) (l : List α) :
    (SliceStable less l).length = l.length := (SliceStable_perm less l).length_eq

theorem SliceStable_short {α : Type} (less : α → α → Bool) (l : List α) (h : l.length < 2) :
    SliceStable less l = l := by
  match l, h with
  | [], _ => rfl
  | [x], _ => rfl

theorem insertStable_sorted {α : Type} (lt : Time → Time → Bool) (hlt : StrictTotal lt) (key : α → Time)
    (x : α) (l : List α)
    (h : l.Pairwise (fun a b => lt (key b) (key a) = false)) :
    (insertStable (fun a b => lt (key a) (key b)) x l).Pairwise
      (fun a b => lt (key b) (key a) = false) := by
  induction l with
  | nil => simp [insertStable]
  | cons y ys ih =>
    rw [List.pairwise_cons] at h
    unfold insertStable
    split_ifs with hyx
    · rw [List.pairwise_cons]
      refine ⟨?_, ih h.2⟩
      intro z hz
      rcases List.mem_cons.1 ((insertStable_perm _ x ys).subset hz) with hz | hz
      · subst hz
        cases hxy : lt (key z) (key y) with
        | false => rfl
        | true =>
          have := hlt.trans _ _ _ hxy hyx
          rw [hlt.irrefl] at this
          exact Bool.noConfusion this
      · exact h.1 z hz
    · rw [List.pairwise_cons]
      refine ⟨?_, List.pairwise_cons.2 h⟩
      have hyx' : lt (key y) (key x) = false := by simpa using hyx
      intro z hz
      rcases List.mem_cons.1 hz with hz | hz
      · subst hz; exact hyx'
      · exact hlt.negtrans _ _ _ hyx' (h.1 z hz)

theorem SliceStable_sorted {α : Type} (lt : Time → Time → Bool) (hlt : StrictTotal lt) (key : α → Time)
    (l : List α) :
    (SliceStable (fun a b => lt (key a) (key b)) l).Pairwise
      (fun a b => lt (key b) (key a) = false) := by
  induction l with
  | nil => simp [SliceStable]
  | cons x xs ih =>
    unfold SliceStable
    exact insertStable_sorted lt hlt key x _ ih

theorem filter_insertStable {α : Type} (lt : Time → Time → Bool) (hlt : StrictTotal lt) (key : α → Time)
    (k : Time) (x : α) (l : List α) :
    (insertStable (fun a b => lt (key a) (key b)) x l).filter (fun a => decide (key a = k)) =
      (x :: l).filter (fun a => decide (key a = k)) := by
  induction l with
  | nil => rfl
  | cons y ys ih =>
    unfold insertStable
    split_ifs with hyx
    · rw [List.filter_cons, ih]
      by_cases hy : key y = k
      · have hx : key x ≠ k := by
          intro hx
          rw [hy, hx, hlt.irrefl] at hyx
          exact Bool.noConfusion hyx
        simp [List.filter_cons, hy, hx]
      · simp [List.filter_cons, hy]
    · rfl

theorem filter_SliceStable {α : Type} (lt : Time → Time → Bool) (hlt : StrictTotal lt) (key : α → Time)
    (k : Time) (l : List α) :
    (SliceStable (fun a b => lt (key a) (key b)) l).filter (fun a => decide (key a = k)) =
      l.filter (fun a => decide (key a = k)) := by
  induction l with
  | nil => rfl
  | cons x xs ih =>
    unfold SliceStable
    rw [filter_insertStable lt hlt, List.filter_cons, List.filter_cons, ih]

/-- Two lists in the same order of keys that agree on the elements of every
key are equal. -/
theorem eq_of_sorted_of_filter_eq {α : Type} (lt : Time → Time → Bool) (hlt : StrictTotal lt)
    (key : α → Time) (l₁ l₂ : List α)
    (h₁ : l₁.Pairwise (fun a b => lt (key b) (key a) = false))
    (h₂ : l₂.Pairwise (fun a b => lt (key b) (key a) = false))
    (h : ∀ k, l₁.filter (fun a => decide (key a = k)) = l₂.filter (fun a => decide (key a = k))) :
    l₁ = l₂ := by
  induction l₁ generalizing l₂ with
  | nil =>
    cases l₂ with
    | nil => rfl
    | cons b t₂ =>
      have := h (key b)
      simp [List.filter_cons] at this
  | cons a t₁ ih =>
    cases l₂ with
    | nil =>
      have := h (key a)
      simp [List.filter_cons] at this
    | cons b t₂ =>
      rw [List.pairwise_cons] at h₁ h₂
      have hk : key a = key b := by
        apply hlt.tri
        · -- `a` occurs in `b :: t₂`
          have hm : a ∈ (b :: t₂).filter (fun x => decide (key x = key a)) := by
            rw [← h (key a)]; simp [List.filter_cons]
          rcases List.mem_cons.1 (List.mem_filter.1 hm).1 with e | e
          · rw [e]; exact hlt.irrefl _
          · have := h₂.1 a e
            cases hab : lt (key a) (key b) with
            | false => rfl
            | true => rw [hab] at this; exact Bool.noConfusion this
        · have hm : b ∈ (a :: t₁).filter (fun x => decide (key x = key b)) := by
            rw [h (key b)]; simp [List.filter_cons]
          rcases List.mem_cons.1 (List.mem_filter.1 hm).1 with e | e
          · rw [e]; exact hlt.irrefl _
          · have := h₁.1 b e
            cases hab : lt (key b) (key a) with
            | false => rfl
            | true => rw [hab] at this; exact Bool.noConfusion this
      have hab : a = b := by
        have := h (key a)
        simp only [List.filter_cons, decide_True, if_true, hk] at this
        exact (List.cons.inj this).1
      subst hab
      congr 1
      apply ih t₂ h₁.2 h₂.2
      intro k
      have := h k
      simp only [List.filter_cons] at this
      split_ifs at this with hc
      · exact (List.cons.inj this).2
      · exact this

/-- The last stable sort wins: sorting a stably sorted list again, by the
same keys in any order, gives what sorting the original list gives. -/
theorem SliceStable_SliceStable {α : Type} (lt₁ lt₂ : Time → Time → Bool) (h₁ : StrictTotal lt₁)
    (h₂ : StrictTotal lt₂) (key : α → Time) (l : List α) :
    SliceStable (fun a b => lt₂ (key a) (key b))
        (SliceStable (fun a b => lt₁ (key a) (key b)) l) =
      SliceStable (fun a b => lt₂ (key a) (key b)) l := by
  apply eq_of_sorted_of_filter_eq lt₂ h₂ key _ _ (SliceStable_sorted lt₂ h₂ key _)
    (SliceStable_sorted lt₂ h₂ key _)
  intro k
  rw [filter_SliceStable lt₂ h₂, filter_SliceStable lt₁ h₁, filter_SliceStable lt₂ h₂]
theorem insertStable_map {α β : Type} (f : α → β) (less : β → β → Bool) (x : α) (l : List α) :
    insertStable less (f x) (l.map f) =
      (insertStable (fun a b => less (f a) (f b)) x l).map f := by
  induction l with
  | nil => rfl
  | cons y ys ih =>
    simp only [List.map_cons, insertStable]
    split_ifs
    · rw [ih]; rfl
    · rfl

theorem SliceStable_map {α β : Type} (f : α → β) (less : β → β → Bool) (l : List α) :
    SliceStable less (l.map f) = (SliceStable (fun a b => less (f a) (f b)) l).map f := by
  induction l with
  | nil => rfl
  | cons x xs ih =>
    simp only [List.map_cons, SliceStable]
    rw [ih, insertStable_map]

theorem insertStable_forall₂ {α β : Type} (R : α → β → Prop) (la : α → α → Bool)
    (lb : β → β → Bool) (hR : ∀ a a' b b', R a b → R a' b' → la a a' = lb b b')
    (x : α) (y : β) (hxy : R x y) (l : List α) (m : List β) (h : List.Forall₂ R l m) :
    List.Forall₂ R (insertStable la x l) (insertStable lb y m) := by
  induction h with
  | nil => exact List.Forall₂.cons hxy List.Forall₂.nil
  | cons hab hrest ih =>
    rename_i a b l' m'
    unfold insertStable
    rw [hR a x b y hab hxy]
    split_ifs
    · exact List.Forall₂.cons hab ih
    · exact List.Forall₂.cons hxy (List.Forall₂.cons hab hrest)

theorem SliceStable_forall₂ {α β : Type} (R : α → β → Prop) (la : α → α → Bool)
    (lb : β → β → Bool) (hR : ∀ a a' b b', R a b → R a' b' → la a a' = lb b b')
    (l : List α) (m : List β) (h : List.Forall₂ R l m) :
    List.Forall₂ R (SliceStable la l) (SliceStable lb m) := by
  induction h with
  | nil => exact List.Forall₂.nil
  | cons hab _ ih =>
    unfold SliceStable
    exact insertStable_forall₂ R la lb hR _ _ hab _ _ ih

/-- With pairwise different keys the sort by the opposite order is the
reverse. -/
theorem SliceStable_reverse {α : Type} (lt : Time → Time → Bool) (hlt : StrictTotal lt)
    (hflip : StrictTotal (fun a b => lt b a)) (key : α → Time) (l : List α)
    (hd : l.Pairwise (fun a b => key a ≠ key b)) :
    SliceStable (fun a b => lt (key b) (key a)) l =
      (SliceStable (fun a b => lt (key a) (key b)) l).reverse := by
  apply eq_of_sorted_of_filter_eq (fun a b => lt b a) hflip key
  · exact SliceStable_sorted (fun a b => lt b a) hflip key l
  · rw [List.pairwise_reverse]
    have hs := SliceStable_sorted lt hlt key l
    have hp : (SliceStable (fun a b => lt (key a) (key b)) l).Pairwise
        (fun a b => key a ≠ key b) :=
      (List.Perm.pairwise_iff (fun {a b} (h : key a ≠ key b) => h.symm)
        (SliceStable_perm _ l)).2 hd
    refine (hs.and hp).imp ?_
    intro a b hab
    cases h : lt (key a) (key b) with
    | false => exact absurd (hlt.tri _ _ h hab.1) hab.2
    | true => 
      cases h' : lt (key b) (key a) with
      | false => rfl
      | true =>
        have := hlt.trans _ _ _ h h'
        rw [hlt.irrefl] at this
        exact Bool.noConfusion this
  · intro k
    rw [filter_SliceStable (fun a b => lt b a) hflip key k l, List.filter_reverse,
      filter_SliceStable lt hlt key k l]
    have hk : (l.filter (fun a => decide (key a = k))).length ≤ 1 := by
      have hp := hd.filter (fun a => decide (key a = k))
      match hf : l.filter (fun a => decide (key a = k)), hp with
      | [], _ => simp
      | [_], _ => simp
      | a :: b :: t, hp =>
        have ha : a ∈ l.filter (fun a => decide (key a = k)) := by rw [hf]; simp
        have hb : b ∈ l.filter (fun a => decide (key a = k)) := by rw [hf]; simp
        have ea : key a = k := by simpa using (List.mem_filter.1 ha).2
        have eb : key b = k := by simpa using (List.mem_filter.1 hb).2
        exact absurd (ea.trans eb.symm) ((List.pairwise_cons.1 hp).1 b (by simp))
    match hf : l.filter (fun a => decide (key a = k)), hk with
    | [], _ => rfl
    | [_], _ => rfl

/-- The first element of a stably sorted list has the least key. -/
theorem SliceStable_head_min {α : Type} (lt : Time → Time → Bool) (hlt : StrictTotal lt)
    (key : α → Time) (l : List α) (x : α)
    (h : (SliceStable (fun a b => lt (key a) (key b)) l).head? = some x) :
    x ∈ l ∧ ∀ y ∈ l, lt (key y) (key x) = false := by
  have hs := SliceStable_sorted lt hlt key l
  have hp := SliceStable_perm (fun a b => lt (key a) (key b)) l
  cases hl : SliceStable (fun a b => lt (key a) (key b)) l with
  | nil => rw [hl] at h; exact Option.noConfusion h
  | cons z zs =>
    rw [hl] at h hs hp
    simp only [List.head?_cons, Option.some.injEq] at h
    subst h
    refine ⟨hp.subset (by simp), ?_⟩
    intro y hy
    rcases List.mem_cons.1 (hp.symm.subset hy) with e | e
    · rw [e]; exact hlt.irrefl _
    · exact (List.pairwise_cons.1 hs).1 y e
/-! ## `Date` and `SortDate` on trees -/

/-- Induction on trees: a property holds of every node if it holds of a node
whenever it holds of its children. -/
theorem TreeNode.induct (P : TreeNode → Prop)
    (h : ∀ sp e r l cs, (∀ c ∈ cs, P c) → P (.mk sp e r l cs)) : ∀ t, P t := by
  intro t
  refine TreeNode.rec (motive_1 := P) (motive_2 := fun cs => ∀ c ∈ cs, P c) ?_ ?_ ?_ t
  · intro sp e r l cs ih; exact h sp e r l cs ih
  · intro c hc; simp at hc
  · intro c cs hc hcs x hx
    rcases List.mem_cons.1 hx with e | e
    · subst e; exact hc
    · exact hcs x e

theorem dated_eq_datedBy (cs : List TreeNode) : TreeNodeList.dated cs = datedBy id cs := by
  induction cs with
  | nil => rfl
  | cons c cs ih =>
    rw [TreeNodeList.dated, datedBy, ih]
    cases hc : c.Date with
    | error e => have : (id c).Date = .error e := hc; rw [this]
    | ok t =>
      have : (id c).Date = .ok t := hc
      rw [this]
      cases datedBy id cs <;> rfl

theorem Date_eq_dateOr (n : TreeNode) (t : Time) (h : n.Date = .ok t) : n.dateOr = t := by
  unfold TreeNode.dateOr; rw [h]

theorem datedBy_ok {α : Type} (node : α → TreeNode) (xs : List α) (ds : List (α × Time))
    (h : datedBy node xs = .ok ds) :
    ds = xs.map (fun x => (x, (node x).dateOr)) ∧
      ∀ x ∈ xs, (node x).Date = .ok (node x).dateOr := by
  induction xs generalizing ds with
  | nil =>
    simp only [datedBy] at h
    cases h
    exact ⟨rfl, by simp⟩
  | cons x xs ih =>
    rw [datedBy] at h
    cases hx : (node x).Date with
    | error e => rw [hx] at h; exact Except.noConfusion h
    | ok t =>
      rw [hx] at h
      cases hxs : datedBy node xs with
      | error e => rw [hxs] at h; exact Except.noConfusion h
      | ok ds' =>
        rw [hxs] at h
        simp only [Except.ok.injEq] at h
        obtain ⟨e1, e2⟩ := ih ds' hxs
        have et := Date_eq_dateOr _ _ hx
        refine ⟨by rw [← h, e1, List.map_cons, et], ?_⟩
        intro y hy
        rcases List.mem_cons.1 hy with e | e
        · subst e; rw [et]; exact hx
        · exact e2 y e

theorem datedBy_of_all_ok {α : Type} (node : α → TreeNode) (xs : List α)
    (h : ∀ x ∈ xs, ∃ t, (node x).Date = .ok t) :
    datedBy node xs = .ok (xs.map (fun x => (x, (node x).dateOr))) := by
  induction xs with
  | nil => rfl
  | cons x xs ih =>
    obtain ⟨t, ht⟩ := h x (by simp)
    rw [datedBy, ht, ih (fun y hy => h y (List.mem_cons_of_mem _ hy)), List.map_cons,
      Date_eq_dateOr _ _ ht]

theorem datedBy_error {α : Type} (node : α → TreeNode) (xs : List α) (e : Panic)
    (h : datedBy node xs = .error e) : ∃ x ∈ xs, (node x).Date = .error e := by
  induction xs with
  | nil => exact Except.noConfusion h
  | cons x xs ih =>
    rw [datedBy] at h
    cases hx : (node x).Date with
    | error e' =>
      rw [hx] at h
      simp only [Except.error.injEq] at h
      exact ⟨x, by simp, by rw [hx, h]⟩
    | ok t =>
      rw [hx] at h
      cases hxs : datedBy node xs with
      | error e' =>
        rw [hxs] at h
        simp only [Except.error.injEq] at h
        obtain ⟨y, hy, he⟩ := ih (by rw [hxs, h])
        exact ⟨y, List.mem_cons_of_mem _ hy, he⟩
      | ok ds' => rw [hxs] at h; exact Except.noConfusion h

theorem dateLess_eq {α : Type} (d : SortDirection) (p q : α × Time) :
    dateLess d p q = timeLess d p.2 q.2 := rfl

/-- What `TreeNodeList.SortDate` returns: the stable sort of the list by `Date()` in
the direction; it returns whenever the list is shorter than two or every
`Date()` returns. -/
theorem sortDateBy_ok_iff {α : Type} (node : α → TreeNode) (d : SortDirection)
    (tc r : List α) :
    sortDateBy node d tc = .ok r ↔
      (2 ≤ tc.length → ∀ x ∈ tc, ∃ t, (node x).Date = .ok t) ∧
      r = SliceStable (fun x y => nodeLess d (node x) (node y)) tc := by
  unfold sortDateBy
  split_ifs with hl
  · rw [SliceStable_short _ tc hl]
    constructor
    · intro h; cases h; exact ⟨fun h2 => absurd hl (by omega), rfl⟩
    · rintro ⟨_, rfl⟩; rfl
  · constructor
    · intro h
      cases hd : datedBy node tc with
      | error e => rw [hd] at h; exact Except.noConfusion h
      | ok ds =>
        rw [hd] at h
        simp only [Except.ok.injEq] at h
        obtain ⟨e1, e2⟩ := datedBy_ok node tc ds hd
        refine ⟨fun _ x hx => ⟨_, e2 x hx⟩, ?_⟩
        rw [← h, e1, SliceStable_map, List.map_map]
        have : (Prod.fst ∘ fun x => (x, (node x).dateOr)) = id := rfl
        rw [this, List.map_id]
        rfl
    · rintro ⟨h1, rfl⟩
      rw [datedBy_of_all_ok node tc (h1 (by omega))]
      simp only
      rw [SliceStable_map, List.map_map]
      have : (Prod.fst ∘ fun x => (x, (node x).dateOr)) = id := rfl
      rw [this, List.map_id]
      rfl

theorem runAll_map_ok_iff {α β : Type} (f : α → Except Panic β) (l : List α) (r : List β) :
    runAll (l.map f) = .ok r ↔ List.Forall₂ (fun a b => f a = .ok b) l r := by
  induction l generalizing r with
  | nil =>
    simp only [List.map_nil, runAll, Except.ok.injEq]
    constructor
    · intro h; subst h; exact List.Forall₂.nil
    · intro h; cases h; rfl
  | cons a l ih =>
    rw [List.map_cons]
    cases ha : f a with
    | error e =>
      simp only [runAll]
      constructor
      · intro h; exact Except.noConfusion h
      · intro h
        cases h with
        | cons h1 _ => rw [ha] at h1; exact Except.noConfusion h1
    | ok b =>
      simp only [runAll]
      cases hl : runAll (l.map f) with
      | error e =>
        simp only
        constructor
        · intro h; exact Except.noConfusion h
        · intro h
          cases h with
          | cons h1 h2 =>
            rw [(ih _).2 h2] at hl
            exact Except.noConfusion hl
      | ok bs =>
        simp only [Except.ok.injEq]
        constructor
        · intro h
          subst h
          exact List.Forall₂.cons ha ((ih bs).1 hl)
        · intro h
          cases h with
          | cons h1 h2 =>
            have := (ih _).2 h2
            rw [hl] at this
            rw [ha] at h1
            simp only [Except.ok.injEq] at h1 this
            rw [h1, this]

theorem pending_eq_map (d : SortDirection) (cs : List TreeNode) :
    TreeNodeList.pending d cs = cs.map (fun c => (c, c.SortDate d)) := by
  induction cs with
  | nil => rfl
  | cons c cs ih => rw [TreeNodeList.pending, ih]; rfl

/-- What `TreeNode.SortDate` returns: the node with its children stably
sorted by `Date()` and each child replaced by what `SortDate` returns for
it; it returns whenever the sort of the children and the calls on the
children return. -/
theorem SortDate_mk_iff (d : SortDirection) (sp : GoString) (e : DirEntry) (r l : Bool)
    (cs : List TreeNode) (n' : TreeNode) :
    (TreeNode.mk sp e r l cs).SortDate d = .ok n' ↔
      (2 ≤ cs.length → ∀ c ∈ cs, ∃ t, c.Date = .ok t) ∧
      ∃ cs', n' = .mk sp e r l cs' ∧
        List.Forall₂ (fun c c' => c.SortDate d = .ok c') (SliceStable (nodeLess d) cs) cs' := by
  rw [TreeNode.SortDate, pending_eq_map]
  have hs : ∀ sorted, sortDateBy Prod.fst d (cs.map (fun c => (c, c.SortDate d))) = .ok sorted ↔
      (2 ≤ cs.length → ∀ c ∈ cs, ∃ t, c.Date = .ok t) ∧
      sorted = (SliceStable (nodeLess d) cs).map (fun c => (c, c.SortDate d)) := by
    intro sorted
    rw [sortDateBy_ok_iff, SliceStable_map, List.length_map]
    constructor
    · rintro ⟨h1, h2⟩
      refine ⟨fun hl c hc => ?_, h2⟩
      exact h1 hl (c, c.SortDate d) (List.mem_map.2 ⟨c, hc, rfl⟩)
    · rintro ⟨h1, h2⟩
      refine ⟨fun hl x hx => ?_, h2⟩
      obtain ⟨c, hc, rfl⟩ := List.mem_map.1 hx
      exact h1 hl c hc
  cases hsd : sortDateBy Prod.fst d (cs.map (fun c => (c, c.SortDate d))) with
  | error err =>
    simp only
    constructor
    · intro h; exact Except.noConfusion h
    · rintro ⟨h1, cs', rfl, h2⟩
      have := (hs _).2 ⟨h1, rfl⟩
      rw [hsd] at this
      exact Except.noConfusion this
  | ok sorted =>
    simp only
    obtain ⟨h1, h2⟩ := (hs sorted).1 hsd
    subst h2
    rw [List.map_map]
    have hc : (Prod.snd ∘ fun c : TreeNode => (c, c.SortDate d)) = fun c => c.SortDate d := rfl
    rw [hc]
    cases hr : runAll ((SliceStable (nodeLess d) cs).map (fun c => c.SortDate d)) with
    | error err =>
      simp only
      constructor
      · intro h; exact Except.noConfusion h
      · rintro ⟨_, cs', rfl, h2⟩
        rw [(runAll_map_ok_iff _ _ _).2 h2] at hr
        exact Except.noConfusion hr
    | ok cs' =>
      simp only [Except.ok.injEq]
      have hf := (runAll_map_ok_iff _ _ _).1 hr
      constructor
      · intro h; exact ⟨h1, cs', h.symm, hf⟩
      · rintro ⟨_, cs'', rfl, h2⟩
        have := (runAll_map_ok_iff _ _ _).2 h2
        rw [hr] at this
        simp only [Except.ok.injEq] at this
        rw [this]
theorem Date_leaf (sp : GoString) (e : DirEntry) (r : Bool) (cs : List TreeNode) :
    (TreeNode.mk sp e r true cs).Date =
      match sliceTo (Base sp) 10 with
      | .error e => .error e
      | .ok ds =>
        match timeParse ds with
        | none => .error (.failedToParseDate ds)
        | some t => .ok t := by
  rw [TreeNode.Date]; rfl

theorem Date_dir (sp : GoString) (e : DirEntry) (r : Bool) (cs : List TreeNode) :
    (TreeNode.mk sp e r false cs).Date =
      match datedBy id cs with
      | .error e => .error e
      | .ok ds =>
        match TreeNodeList.Oldest ds with
        | some oldest => .ok oldest.2
        | none =>
          match e.ModTime with
          | none => .error .fileinfo
          | some t => .ok t := by
  rw [TreeNode.Date, dated_eq_datedBy]; rfl

theorem Date_dir_nil (sp : GoString) (e : DirEntry) (r : Bool) :
    (TreeNode.mk sp e r false []).Date =
      match e.ModTime with
      | none => .error .fileinfo
      | some t => .ok t := by
  rw [Date_dir]; rfl

theorem Date_dir_singleton (sp : GoString) (e : DirEntry) (r : Bool) (c : TreeNode) :
    (TreeNode.mk sp e r false [c]).Date = c.Date := by
  rw [Date_dir]
  cases hc : c.Date with
  | error err =>
    have : datedBy id [c] = .error err := by
      simp only [datedBy, id, hc]
    rw [this]
  | ok t =>
    have : datedBy id [c] = .ok [(c, t)] := by
      simp only [datedBy, id, hc]
    rw [this]
    rfl

/-- The `Date()` of a directory with children whose `Date()` all return:
the least of them. -/
theorem Date_dir_min (sp : GoString) (e : DirEntry) (r : Bool) (cs : List TreeNode)
    (hne : cs ≠ []) (hok : ∀ c ∈ cs, ∃ t, c.Date = .ok t) :
    ∃ t, (TreeNode.mk sp e r false cs).Date = .ok t ∧ (∃ c ∈ cs, c.Date = .ok t) ∧
      ∀ c ∈ cs, ∀ u, c.Date = .ok u → u.Before t = false := by
  rw [Date_dir, datedBy_of_all_ok id cs hok]
  simp only
  have hds : ∀ c ∈ cs, c.Date = .ok c.dateOr := by
    intro c hc
    obtain ⟨t, ht⟩ := hok c hc
    rw [Date_eq_dateOr c t ht]; exact ht
  have hlen : ¬ (cs.map (fun x => (x, (id x).dateOr))).length = 0 := by
    simpa using hne
  unfold TreeNodeList.Oldest
  rw [if_neg hlen]
  have hst : StrictTotal (fun a b : Time => a.Before b) :=
    ⟨Before_irrefl, Before_trans, Before_trichotomy, not_Before_trans⟩
  cases hh : (SliceStable (fun x y : TreeNode × Time => x.2.Before y.2)
      (cs.map (fun x => (x, (id x).dateOr)))).head? with
  | none =>
    have := SliceStable_length (fun x y : TreeNode × Time => x.2.Before y.2)
      (cs.map (fun x => (x, (id x).dateOr)))
    rw [List.head?_eq_none_iff.1 hh] at this
    exact absurd this.symm hlen
  | some p =>
    obtain ⟨hm, hmin⟩ := SliceStable_head_min (fun a b => a.Before b) hst
      (fun q : TreeNode × Time => q.2) _ p hh
    obtain ⟨c, hc, rfl⟩ := List.mem_map.1 hm
    refine ⟨c.dateOr, rfl, ⟨c, hc, hds c hc⟩, ?_⟩
    intro c' hc' u hu
    have := hmin (c', (id c').dateOr) (List.mem_map.2 ⟨c', hc', rfl⟩)
    simp only [id] at this
    rw [Date_eq_dateOr c' u hu] at this
    exact this

theorem forall₂_exists_right {α β : Type} (R : α → β → Prop) (l : List α) (m : List β)
    (h : List.Forall₂ R l m) : ∀ a ∈ l, ∃ b ∈ m, R a b := by
  induction h with
  | nil => intro a ha; simp at ha
  | cons hab _ ih =>
    intro a ha
    rcases List.mem_cons.1 ha with e | e
    · subst e; exact ⟨_, by simp, hab⟩
    · obtain ⟨b, hb, hr⟩ := ih a e
      exact ⟨b, List.mem_cons_of_mem _ hb, hr⟩

theorem forall₂_exists_left {α β : Type} (R : α → β → Prop) (l : List α) (m : List β)
    (h : List.Forall₂ R l m) : ∀ b ∈ m, ∃ a ∈ l, R a b := by
  induction h with
  | nil => intro a ha; simp at ha
  | cons hab _ ih =>
    intro b hb
    rcases List.mem_cons.1 hb with e | e
    · subst e; exact ⟨_, by simp, hab⟩
    · obtain ⟨a, ha, hr⟩ := ih b e
      exact ⟨a, List.mem_cons_of_mem _ ha, hr⟩

theorem forall₂_of_forall_exists {α β : Type} (R : α → β → Prop) (l : List α)
    (h : ∀ a ∈ l, ∃ b, R a b) : ∃ m, List.Forall₂ R l m := by
  induction l with
  | nil => exact ⟨[], List.Forall₂.nil⟩
  | cons a l ih =>
    obtain ⟨b, hb⟩ := h a (by simp)
    obtain ⟨m, hm⟩ := ih (fun x hx => h x (List.mem_cons_of_mem _ hx))
    exact ⟨b :: m, List.Forall₂.cons hb hm⟩

theorem mem_SliceStable {α : Type} (less : α → α → Bool) (l : List α) (x : α) :
    x ∈ SliceStable less l ↔ x ∈ l := (SliceStable_perm less l).mem_iff

/-- `SortDate` does not change the `Date()` of a node. -/
theorem Date_SortDate (d : SortDirection) :
    ∀ n n' : TreeNode, n.SortDate d = .ok n' → n'.Date = n.Date := by
  intro n
  induction n using TreeNode.induct with
  | h sp e r l cs ih =>
    intro n' h
    obtain ⟨hok, cs', rfl, hf⟩ := (SortDate_mk_iff d sp e r l cs n').1 h
    cases l with
    | true => rw [Date_leaf, Date_leaf]
    | false =>
      by_cases hl : cs.length < 2
      · rw [SliceStable_short _ cs hl] at hf
        match cs, hl, hf, ih with
        | [], _, hf, _ => cases hf; rfl
        | [c], _, hf, ih =>
          cases hf with
          | cons h1 h2 =>
            cases h2
            rw [Date_dir_singleton, Date_dir_singleton]
            exact ih c (by simp) _ h1
      · have hall := hok (by omega)
        have hne : cs ≠ [] := by
          intro h0; rw [h0] at hl; simp at hl
        have hall' : ∀ c' ∈ cs', ∃ t, c'.Date = .ok t := by
          intro c' hc'
          obtain ⟨c, hc, hs⟩ := forall₂_exists_left _ _ _ hf c' hc'
          have hc0 := (mem_SliceStable _ _ _).1 hc
          obtain ⟨t, ht⟩ := hall c hc0
          exact ⟨t, by rw [ih c hc0 c' hs]; exact ht⟩
        have hne' : cs' ≠ [] := by
          intro h0
          rw [h0] at hf
          have := hf.length_eq
          rw [SliceStable_length] at this
          rw [List.length_nil] at this
          exact hne (List.length_eq_zero.1 this)
        obtain ⟨t, ht, ⟨c, hc, hct⟩, hmin⟩ := Date_dir_min sp e r cs hne hall
        obtain ⟨t', ht', ⟨c', hc', hct'⟩, hmin'⟩ := Date_dir_min sp e r cs' hne' hall'
        rw [ht, ht']
        congr 1
        symm
        apply Before_trichotomy
        · -- `t` is the date of some child of the sorted node
          obtain ⟨b, hb, hs⟩ := forall₂_exists_right _ _ _ hf c ((mem_SliceStable _ _ _).2 hc)
          have := ih c hc b hs
          exact hmin' b hb t (by rw [this]; exact hct)
        · obtain ⟨a, ha, hs⟩ := forall₂_exists_left _ _ _ hf c' hc'
          have ha0 := (mem_SliceStable _ _ _).1 ha
          have := ih a ha0 c' hs
          exact hmin a ha0 t' (by rw [← this]; exact hct')
/-! ## C2: the date of a directory -/

theorem allLeavesDated_list (cs : List TreeNode) :
    TreeNodeList.allLeavesDated cs = true ↔ ∀ c ∈ cs, c.allLeavesDated = true := by
  induction cs with
  | nil => simp [TreeNodeList.allLeavesDated]
  | cons c cs ih => simp [TreeNodeList.allLeavesDated, ih]

theorem noEmptyDirectory_list (cs : List TreeNode) :
    TreeNodeList.noEmptyDirectory cs = true ↔ ∀ c ∈ cs, c.noEmptyDirectory = true := by
  induction cs with
  | nil => simp [TreeNodeList.noEmptyDirectory]
  | cons c cs ih => simp [TreeNodeList.noEmptyDirectory, ih]

theorem mem_leafDates_list (cs : List TreeNode) (u : Time) :
    u ∈ TreeNodeList.leafDates cs ↔ ∃ c ∈ cs, u ∈ c.leafDates := by
  induction cs with
  | nil => simp [TreeNodeList.leafDates]
  | cons c cs ih => simp [TreeNodeList.leafDates, ih]

/-- In a tree without empty directories whose leaves all have dated
filenames, the `Date()` of every node is the least filename date of the
leaves it looks at (`leafDates`). -/
theorem Date_eq_min_leafDates :
    ∀ n : TreeNode, n.noEmptyDirectory = true → n.allLeavesDated = true →
      ∃ t, n.Date = .ok t ∧ t ∈ n.leafDates ∧ ∀ u ∈ n.leafDates, u.Before t = false := by
  intro n
  induction n using TreeNode.induct with
  | h sp e r l cs ih =>
    intro hne hd
    cases l with
    | true =>
      simp only [TreeNode.allLeavesDated, if_true, Bool.and_eq_true, decide_eq_true_eq] at hd
      obtain ⟨hlen, hsome⟩ := hd
      obtain ⟨t, ht⟩ := Option.isSome_iff_exists.1 hsome
      refine ⟨t, ?_, ?_, ?_⟩
      · rw [Date_leaf]
        unfold sliceTo
        rw [if_neg (by omega)]
        unfold filenameDate at ht
        simp only [ht]
      · simp [TreeNode.leafDates, ht]
      · intro u hu
        simp only [TreeNode.leafDates, if_true, ht, List.mem_singleton] at hu
        rw [hu]; exact Before_irrefl t
    | false =>
      simp only [TreeNode.allLeavesDated, TreeNode.noEmptyDirectory, Bool.false_eq_true,
        if_false, Bool.and_eq_true, Bool.not_eq_true', List.isEmpty_eq_false] at hd hne
      rw [allLeavesDated_list] at hd
      rw [noEmptyDirectory_list] at hne
      obtain ⟨hcs, hne⟩ := hne
      have hok : ∀ c ∈ cs, ∃ t, c.Date = .ok t := by
        intro c hc
        obtain ⟨t, ht, _⟩ := ih c hc (hne c hc) (hd c hc)
        exact ⟨t, ht⟩
      obtain ⟨t, ht, ⟨c, hc, hct⟩, hmin⟩ := Date_dir_min sp e r cs hcs hok
      refine ⟨t, ht, ?_, ?_⟩
      · obtain ⟨t', ht', hm, _⟩ := ih c hc (hne c hc) (hd c hc)
        rw [hct] at ht'
        cases ht'
        simp only [TreeNode.leafDates, Bool.false_eq_true, if_false]
        exact (mem_leafDates_list cs t).2 ⟨c, hc, hm⟩
      · intro u hu
        simp only [TreeNode.leafDates, Bool.false_eq_true, if_false] at hu
        obtain ⟨c', hc', hu'⟩ := (mem_leafDates_list cs u).1 hu
        obtain ⟨t', ht', _, hmin'⟩ := ih c' hc' (hne c' hc') (hd c' hc')
        exact not_Before_trans t t' u (hmin c' hc' t' ht') (hmin' u hu')

theorem leavesChildless_list (cs : List TreeNode) :
    TreeNodeList.leavesChildless cs = true ↔ ∀ c ∈ cs, c.leavesChildless = true := by
  induction cs with
  | nil => simp [TreeNodeList.leavesChildless]
  | cons c cs ih => simp [TreeNodeList.leavesChildless, ih]

/-- In a tree without empty directories whose leaves all have dated
filenames and no children, `SortDate` returns. -/
theorem SortDate_returns (d : SortDirection) :
    ∀ n : TreeNode, n.leavesChildless = true → n.noEmptyDirectory = true →
      n.allLeavesDated = true → ∃ n', n.SortDate d = .ok n' := by
  intro n
  induction n using TreeNode.induct with
  | h sp e r l cs ih =>
    intro hlc hne hd
    simp only [TreeNode.leavesChildless, Bool.and_eq_true] at hlc
    rw [leavesChildless_list] at hlc
    have hch : ∀ c ∈ cs, c.noEmptyDirectory = true ∧ c.allLeavesDated = true := by
      cases l with
      | true =>
        have : cs = [] := by simpa using hlc.1
        subst this
        intro c hc; simp at hc
      | false =>
        simp only [TreeNode.allLeavesDated, TreeNode.noEmptyDirectory, Bool.false_eq_true,
          if_false, Bool.and_eq_true, Bool.not_eq_true', List.isEmpty_eq_false] at hd hne
        rw [allLeavesDated_list] at hd
        rw [noEmptyDirectory_list] at hne
        exact fun c hc => ⟨hne.2 c hc, hd c hc⟩
    obtain ⟨cs', hcs'⟩ := forall₂_of_forall_exists
      (fun c c' => c.SortDate d = .ok c') (SliceStable (nodeLess d) cs) (by
        intro c hc
        have hc0 := (mem_SliceStable _ _ _).1 hc
        exact ih c hc0 (hlc.2 c hc0) (hch c hc0).1 (hch c hc0).2)
    refine ⟨.mk sp e r l cs', (SortDate_mk_iff d sp e r l cs _).2 ⟨?_, cs', rfl, hcs'⟩⟩
    intro _ c hc
    obtain ⟨t, ht, _⟩ := Date_eq_min_leafDates c (hch c hc).1 (hch c hc).2
    exact ⟨t, ht⟩

/-- C2 (as stated, refuted): the root of a documents directory with the
leaf `2024-01-01-b.md` and a directory `drafts` without children, last
modified on 17 May 2023, is a directory with a leaf descendant; the least
filename date of its leaf descendants is 1 January 2024, and its `Date()`
is the modification time of `drafts`. -/
theorem Date_directory_with_empty_subdirectory :
    rootWithEmptyDirectory.IsLeaf = false ∧
    rootWithEmptyDirectory.leafDates = [midnightUTC 2024 1 1] ∧
    rootWithEmptyDirectory.Date = .ok ⟨2023, 5, 17, 36000000000000⟩ ∧
    rootWithEmptyDirectory.Date ≠ .ok (midnightUTC 2024 1 1) := by
  decide

theorem leafDates_list_eq (cs : List TreeNode)
    (h : ∀ c ∈ cs, c.leafDates = c.allLeafDates) :
    TreeNodeList.leafDates cs =
      ((TreeNodeList.subtrees cs).filter TreeNode.IsLeaf).filterMap
        (fun m => filenameDate m.SourcePath) := by
  induction cs with
  | nil => rfl
  | cons c cs ih =>
    rw [TreeNodeList.leafDates, TreeNodeList.subtrees, List.filter_append,
      List.filterMap_append, h c (List.mem_cons_self _ _),
      ih (fun c' hc' => h c' (List.mem_cons_of_mem _ hc'))]
    rfl

/-- Where no leaf node has children, the leaves `Date()` looks at are all
the leaves at or below the node. -/
theorem leafDates_eq_allLeafDates :
    ∀ n : TreeNode, n.leavesChildless = true → n.leafDates = n.allLeafDates := by
  intro n
  induction n using TreeNode.induct with
  | h sp e r l cs ih =>
    intro hlc
    simp only [TreeNode.leavesChildless, Bool.and_eq_true] at hlc
    rw [leavesChildless_list] at hlc
    cases l with
    | true =>
      have hcs : cs = [] := by simpa using hlc.1
      subst hcs
      simp only [TreeNode.leafDates, TreeNode.allLeafDates, TreeNode.subtrees,
        TreeNodeList.subtrees, if_true]
      cases hf : filenameDate sp with
      | none => simp [TreeNode.IsLeaf, TreeNode.SourcePath, hf]
      | some t => simp [TreeNode.IsLeaf, TreeNode.SourcePath, hf]
    | false =>
      have hl := leafDates_list_eq cs (fun c hc => ih c hc (hlc.2 c hc))
      simp only [TreeNode.leafDates, TreeNode.allLeafDates, TreeNode.subtrees,
        Bool.false_eq_true, if_false]
      rw [hl, List.filter_cons]
      simp [TreeNode.IsLeaf]

/-- A leaf with children, as `buildTree` makes one when a directory named
`index.md` follows a file directly below the top: the tree built for the
file `2022-01-01-a.md` and the directory `index.md` holding
`2019-01-01-x.md` has no empty directory and only dated leaves, the `Date()`
of the root is 1 January 2022, and the leaf below the leaf is dated
1 January 2019. -/
theorem Date_ignores_children_of_leaf :
    FsEntry.allWellFormed fileThenIndexDir = true ∧
    (buildTree (WalkDir none fileThenIndexDir)).map (fun r => r.2.toTree 3 0) =
      .ok (some fileThenIndexDirTree) ∧
    fileThenIndexDirTree.noEmptyDirectory = true ∧
    fileThenIndexDirTree.allLeavesDated = true ∧
    fileThenIndexDirTree.leavesChildless = false ∧
    fileThenIndexDirTree.Date = .ok (midnightUTC 2022 1 1) ∧
    fileThenIndexDirTree.allLeafDates = [midnightUTC 2022 1 1, midnightUTC 2019 1 1] :=
  ⟨by decide, by rfl, by decide, by decide, by decide, by decide, by decide⟩

/-- C2 (amended): for every directory node at and below which no leaf node
has children, no directory node is without children and every leaf has a
filename that begins with a calendar date, `Date()` is the least of the
filename dates of all leaf nodes below it (`allLeafDates`: every node of
the subtree with `IsLeaf`), and for either direction `SortDate` returns a
node whose `Date()` is the same. -/
theorem Date_directory_eq_min_leaf_dates (n : TreeNode) (_hdir : n.IsLeaf = false)
    (hlc : n.leavesChildless = true) (hne : n.noEmptyDirectory = true)
    (hd : n.allLeavesDated = true) :
    n.leafDates = n.allLeafDates ∧
    (∃ t, n.Date = .ok t ∧ t ∈ n.allLeafDates ∧ ∀ u ∈ n.allLeafDates, u.Before t = false) ∧
    ∀ d : SortDirection, ∃ n', n.SortDate d = .ok n' ∧ n'.Date = n.Date := by
  have he := leafDates_eq_allLeafDates n hlc
  refine ⟨he, ?_, ?_⟩
  · rw [← he]
    exact Date_eq_min_leafDates n hne hd
  · intro d
    obtain ⟨n', hn'⟩ := SortDate_returns d n hlc hne hd
    exact ⟨n', hn', Date_SortDate d n n' hn'⟩

/-- C2, witness: the root with the leaves `2023-01-01-hello.md`,
`2023-06-01-world.md` and the directory `notes` holding `2020-01-01-a.md`. -/
theorem Date_directory_eq_min_leaf_dates_witness :
    rootWithNotes.Date = .ok (midnightUTC 2020 1 1) ∧
    rootWithNotes.allLeafDates =
      [midnightUTC 2023 1 1, midnightUTC 2023 6 1, midnightUTC 2020 1 1] ∧
    rootWithNotes.leafDates = rootWithNotes.allLeafDates ∧
    (∃ t, rootWithNotes.Date = .ok t ∧ t ∈ rootWithNotes.allLeafDates ∧
      ∀ u ∈ rootWithNotes.allLeafDates, u.Before t = false) ∧
    ∀ d : SortDirection, ∃ n', rootWithNotes.SortDate d = .ok n' ∧
      n'.Date = rootWithNotes.Date :=
  ⟨by decide, by decide,
    Date_directory_eq_min_leaf_dates rootWithNotes (by decide) (by decide) (by decide)
      (by decide)⟩

/-! ## C3: what `SortDate` does to the children of every node -/

theorem mem_subtrees_list (cs : List TreeNode) (n : TreeNode) :
    n ∈ TreeNodeList.subtrees cs ↔ ∃ c ∈ cs, n ∈ c.subtrees := by
  induction cs with
  | nil => simp [TreeNodeList.subtrees]
  | cons c cs ih => simp [TreeNodeList.subtrees, ih]

theorem mem_subtrees_mk (sp : GoString) (e : DirEntry) (r l : Bool) (cs : List TreeNode)
    (n : TreeNode) :
    n ∈ (TreeNode.mk sp e r l cs).subtrees ↔
      n = .mk sp e r l cs ∨ ∃ c ∈ cs, n ∈ c.subtrees := by
  rw [TreeNode.subtrees, List.mem_cons, mem_subtrees_list]

theorem mem_subtrees_self (n : TreeNode) : n ∈ n.subtrees := by
  obtain ⟨sp, e, r, l, cs⟩ := n
  exact (mem_subtrees_mk sp e r l cs _).2 (Or.inl rfl)

/-- The nodes of the sorted tree are the nodes of the tree, each after its
own `SortDate`. -/
theorem SortDate_subtrees (d : SortDirection) :
    ∀ t t' : TreeNode, t.SortDate d = .ok t' →
      (∀ n' ∈ t'.subtrees, ∃ n ∈ t.subtrees, n.SortDate d = .ok n') ∧
      (∀ n ∈ t.subtrees, ∃ n' ∈ t'.subtrees, n.SortDate d = .ok n') := by
  intro t
  induction t using TreeNode.induct with
  | h sp e r l cs ih =>
    intro t' h
    obtain ⟨_, cs', rfl, hf⟩ := (SortDate_mk_iff d sp e r l cs t').1 h
    constructor
    · intro n' hn'
      rcases (mem_subtrees_mk sp e r l cs' n').1 hn' with e1 | ⟨c', hc', hn'c⟩
      · subst e1
        exact ⟨_, mem_subtrees_self _, h⟩
      · obtain ⟨c, hc, hs⟩ := forall₂_exists_left _ _ _ hf c' hc'
        have hc0 := (mem_SliceStable _ _ _).1 hc
        obtain ⟨n, hn, hsn⟩ := (ih c hc0 c' hs).1 n' hn'c
        exact ⟨n, (mem_subtrees_mk sp e r l cs n).2 (Or.inr ⟨c, hc0, hn⟩), hsn⟩
    · intro n hn
      rcases (mem_subtrees_mk sp e r l cs n).1 hn with e1 | ⟨c, hc, hnc⟩
      · subst e1
        exact ⟨_, mem_subtrees_self _, h⟩
      · obtain ⟨c', hc', hs⟩ := forall₂_exists_right _ _ _ hf c ((mem_SliceStable _ _ _).2 hc)
        obtain ⟨n', hn', hsn⟩ := (ih c hc c' hs).2 n hnc
        exact ⟨n', (mem_subtrees_mk sp e r l cs' n').2 (Or.inr ⟨c', hc', hn'⟩), hsn⟩

theorem pairwise_of_forall₂ {α β : Type} (R : α → β → Prop) (P : α → α → Prop)
    (Q : β → β → Prop) (l : List α) (m : List β) (h : List.Forall₂ R l m)
    (hP : l.Pairwise P)
    (hPQ : ∀ a a' b b', a ∈ l → a' ∈ l → R a b → R a' b' → P a a' → Q b b') :
    m.Pairwise Q := by
  induction h with
  | nil => exact List.Pairwise.nil
  | cons hab hrest ih =>
    rename_i a b l' m'
    rw [List.pairwise_cons] at hP ⊢
    refine ⟨?_, ih hP.2 (fun x x' y y' hx hx' => hPQ x x' y y' (List.mem_cons_of_mem _ hx)
      (List.mem_cons_of_mem _ hx'))⟩
    intro b' hb'
    obtain ⟨a', ha', hr⟩ := forall₂_exists_left _ _ _ hrest b' hb'
    exact hPQ a a' b b' (by simp) (List.mem_cons_of_mem _ ha') hab hr (hP.1 a' ha')

theorem SliceStable_nodeLess_sorted (d : SortDirection) :
    ∀ l : List TreeNode, (SliceStable (nodeLess d) l).Pairwise
      (fun a b => timeLess d b.dateOr a.dateOr = false) :=
  fun l => SliceStable_sorted (timeLess d) (timeLess_strictTotal d) TreeNode.dateOr l

/-- Equal dates keep their order: a pair of children with the same `Date()`
that stands in this order in the list stands in this order in the sorted
list. -/
theorem SliceStable_nodeLess_stable (d : SortDirection) (cs : List TreeNode) (a b : TreeNode)
    (hab : a.dateOr = b.dateOr) (h : List.Sublist [a, b] cs) :
    List.Sublist [a, b] (SliceStable (nodeLess d) cs) := by
  have hf := filter_SliceStable (timeLess d) (timeLess_strictTotal d) TreeNode.dateOr
    a.dateOr cs
  have h1 : List.Sublist ([a, b].filter (fun x => decide (x.dateOr = a.dateOr)))
      (cs.filter (fun x => decide (x.dateOr = a.dateOr))) := h.filter _
  have h2 : [a, b].filter (fun x => decide (x.dateOr = a.dateOr)) = [a, b] := by
    simp [List.filter_cons, hab]
  rw [h2, ← hf] at h1
  exact h1.trans (List.filter_sublist _)

/-- What `SortDate` makes of the children of the node it is called on. -/
theorem SortDate_children (d : SortDirection) (n n' : TreeNode) (h : n.SortDate d = .ok n') :
    n'.SourcePath = n.SourcePath ∧
    ∃ l : List TreeNode, l.Perm n.Children ∧
      List.Forall₂ (fun c c' => c.SortDate d = .ok c' ∧ c'.Date = c.Date) l n'.Children ∧
      n'.Children.Pairwise (fun a b => ∃ ta tb, a.Date = .ok ta ∧ b.Date = .ok tb ∧
        (d = SortDirectionAscending → tb.Before ta = false) ∧
        (d ≠ SortDirectionAscending → ta.Before tb = false)) ∧
      ∀ a b, a.Date = b.Date → List.Sublist [a, b] n.Children → List.Sublist [a, b] l := by
  obtain ⟨sp, e, r, lf, cs⟩ := n
  obtain ⟨hok, cs', rfl, hf⟩ := (SortDate_mk_iff d sp e r lf cs n').1 h
  refine ⟨rfl, SliceStable (nodeLess d) cs, SliceStable_perm _ cs, ?_, ?_, ?_⟩
  · exact hf.imp (fun c c' hs => ⟨hs, Date_SortDate d c c' hs⟩)
  · simp only [TreeNode.Children]
    by_cases hl : cs.length < 2
    · have hl' : cs'.length < 2 := by
        rw [← hf.length_eq, SliceStable_length]; exact hl
      match cs', hl' with
      | [], _ => exact List.Pairwise.nil
      | [_], _ => exact List.pairwise_singleton _ _
    · have hall := hok (by omega)
      apply pairwise_of_forall₂ _ _ _ _ _ hf (SliceStable_nodeLess_sorted d cs)
      intro a a' b b' ha ha' hab hab' hP
      have ha0 := (mem_SliceStable _ _ _).1 ha
      have ha0' := (mem_SliceStable _ _ _).1 ha'
      obtain ⟨ta, hta⟩ := hall a ha0
      obtain ⟨tb, htb⟩ := hall a' ha0'
      refine ⟨ta, tb, by rw [Date_SortDate d a b hab]; exact hta,
        by rw [Date_SortDate d a' b' hab']; exact htb, ?_, ?_⟩
      · intro hd
        rw [Date_eq_dateOr a ta hta, Date_eq_dateOr a' tb htb] at hP
        simpa [timeLess, hd] using hP
      · intro hd
        rw [Date_eq_dateOr a ta hta, Date_eq_dateOr a' tb htb] at hP
        simpa [timeLess, hd] using hP
  · intro a b hab hsub
    apply SliceStable_nodeLess_stable d cs a b _ hsub
    unfold TreeNode.dateOr
    rw [hab]

/-- C3: when `root.SortDate(d)` returns, and it does on every tree without
empty directories whose leaves have dated filenames and no children, every
node `n'` of the tree it returns is a node `n` of the tree after its own
`SortDate`, and the children of `n'` are the children of a list `l`, each
after its own `SortDate` (which leaves its `Date()` unchanged), where `l`
is a permutation of the children of `n`; the children of `n'` are in
non-decreasing order of `Date()` when `d` is ascending and in
non-increasing order otherwise; and two children of `n` with the same
`Date()` stand in `l` in the order they have in `n`. -/
theorem SortDate_sorts_children_of_every_node (d : SortDirection) (t : TreeNode) :
    (t.leavesChildless = true → t.noEmptyDirectory = true → t.allLeavesDated = true →
      ∃ t', t.SortDate d = .ok t') ∧
    ∀ t', t.SortDate d = .ok t' →
      (∀ n ∈ t.subtrees, ∃ n' ∈ t'.subtrees, n.SortDate d = .ok n') ∧
      ∀ n' ∈ t'.subtrees, ∃ n ∈ t.subtrees, n.SortDate d = .ok n' ∧
        n'.SourcePath = n.SourcePath ∧
        ∃ l : List TreeNode, l.Perm n.Children ∧
          List.Forall₂ (fun c c' => c.SortDate d = .ok c' ∧ c'.Date = c.Date) l n'.Children ∧
          n'.Children.Pairwise (fun a b => ∃ ta tb, a.Date = .ok ta ∧ b.Date = .ok tb ∧
            (d = SortDirectionAscending → tb.Before ta = false) ∧
            (d ≠ SortDirectionAscending → ta.Before tb = false)) ∧
          ∀ a b, a.Date = b.Date → List.Sublist [a, b] n.Children → List.Sublist [a, b] l := by
  refine ⟨SortDate_returns d t, ?_⟩
  intro t' h
  obtain ⟨h1, h2⟩ := SortDate_subtrees d t t' h
  refine ⟨h2, ?_⟩
  intro n' hn'
  obtain ⟨n, hn, hs⟩ := h1 n' hn'
  exact ⟨n, hn, hs, SortDate_children d n n' hs⟩
/-- C3, witness: the root with the leaves `2023-01-01-hello.md`,
`2023-06-01-world.md` and the directory `notes` holding `2020-01-01-a.md`,
sorted descending: `world`, `hello`, `notes`. -/
theorem SortDate_sorts_children_of_every_node_witness :
    rootWithNotes.SortDate SortDirectionDescending = .ok rootWithNotesDescending ∧
    ((∀ n ∈ rootWithNotes.subtrees, ∃ n' ∈ rootWithNotesDescending.subtrees,
        n.SortDate SortDirectionDescending = .ok n') ∧
      ∀ n' ∈ rootWithNotesDescending.subtrees, ∃ n ∈ rootWithNotes.subtrees,
        n.SortDate SortDirectionDescending = .ok n' ∧
        n'.SourcePath = n.SourcePath ∧
        ∃ l : List TreeNode, l.Perm n.Children ∧
          List.Forall₂ (fun c c' => c.SortDate SortDirectionDescending = .ok c' ∧
            c'.Date = c.Date) l n'.Children ∧
          n'.Children.Pairwise (fun a b => ∃ ta tb, a.Date = .ok ta ∧ b.Date = .ok tb ∧
            (SortDirectionDescending = SortDirectionAscending → tb.Before ta = false) ∧
            (SortDirectionDescending ≠ SortDirectionAscending → ta.Before tb = false)) ∧
          ∀ a b, a.Date = b.Date → List.Sublist [a, b] n.Children → List.Sublist [a, b] l) :=
  ⟨by rfl,
    (SortDate_sorts_children_of_every_node SortDirectionDescending rootWithNotes).2
      rootWithNotesDescending (by rfl)⟩

/-! ## C4: sorting again -/

theorem forall₂_join {α β γ : Type} (R : α → β → Prop) (R' : α → γ → Prop)
    (Q : β → γ → Prop) (l : List α) (m : List β) (k : List γ)
    (h : List.Forall₂ R l m) (h' : List.Forall₂ R' l k)
    (hQ : ∀ a b c, a ∈ l → R a b → R' a c → Q b c) : List.Forall₂ Q m k := by
  induction h generalizing k with
  | nil => cases h'; exact List.Forall₂.nil
  | cons hab _ ih =>
    cases h' with
    | cons hac hrest' =>
      exact List.Forall₂.cons (hQ _ _ _ (by simp) hab hac)
        (ih _ hrest' (fun a b c ha => hQ a b c (List.mem_cons_of_mem _ ha)))

theorem dateOr_SortDate (d : SortDirection) (n n' : TreeNode) (h : n.SortDate d = .ok n') :
    n'.dateOr = n.dateOr := by
  unfold TreeNode.dateOr
  rw [Date_SortDate d n n' h]

theorem SliceStable_nodeLess_twice (d₁ d₂ : SortDirection) (cs : List TreeNode) :
    SliceStable (nodeLess d₂) (SliceStable (nodeLess d₁) cs) = SliceStable (nodeLess d₂) cs :=
  SliceStable_SliceStable (timeLess d₁) (timeLess d₂) (timeLess_strictTotal d₁)
    (timeLess_strictTotal d₂) TreeNode.dateOr cs

/-- The last sort wins, on trees. -/
theorem SortDate_SortDate (d₁ d₂ : SortDirection) :
    ∀ t t₁ : TreeNode, t.SortDate d₁ = .ok t₁ →
      ∃ t₂, t.SortDate d₂ = .ok t₂ ∧ t₁.SortDate d₂ = .ok t₂ := by
  intro t
  induction t using TreeNode.induct with
  | h sp e r l cs ih =>
    intro t₁ h
    obtain ⟨hok, cs₁, rfl, hf⟩ := (SortDate_mk_iff d₁ sp e r l cs t₁).1 h
    have hex : ∀ c ∈ SliceStable (nodeLess d₂) cs, ∃ c₂, c.SortDate d₂ = .ok c₂ := by
      intro c hc
      have hc0 := (mem_SliceStable _ _ _).1 hc
      obtain ⟨c₁, _, hs⟩ := forall₂_exists_right _ _ _ hf c ((mem_SliceStable _ _ _).2 hc0)
      obtain ⟨c₂, h2, _⟩ := ih c hc0 c₁ hs
      exact ⟨c₂, h2⟩
    obtain ⟨cs₂, hf₂⟩ := forall₂_of_forall_exists _ _ hex
    refine ⟨.mk sp e r l cs₂, (SortDate_mk_iff d₂ sp e r l cs _).2 ⟨hok, cs₂, rfl, hf₂⟩, ?_⟩
    refine (SortDate_mk_iff d₂ sp e r l cs₁ _).2 ⟨?_, cs₂, rfl, ?_⟩
    · intro hl c₁ hc₁
      have hlen : cs₁.length = cs.length := by
        rw [← hf.length_eq, SliceStable_length]
      obtain ⟨c, hc, hs⟩ := forall₂_exists_left _ _ _ hf c₁ hc₁
      obtain ⟨t, ht⟩ := hok (by omega) c ((mem_SliceStable _ _ _).1 hc)
      exact ⟨t, by rw [Date_SortDate d₁ c c₁ hs]; exact ht⟩
    · have hA : List.Forall₂ (fun c c₁ => c.SortDate d₁ = .ok c₁)
          (SliceStable (nodeLess d₂) cs) (SliceStable (nodeLess d₂) cs₁) := by
        rw [← SliceStable_nodeLess_twice d₁ d₂ cs]
        apply SliceStable_forall₂ _ _ _ _ _ _ hf
        intro a a' b b' hab hab'
        unfold nodeLess
        rw [dateOr_SortDate d₁ a b hab, dateOr_SortDate d₁ a' b' hab']
      apply forall₂_join _ _ _ _ _ _ hA hf₂
      intro c c₁ c₂ hc hs₁ hs₂
      obtain ⟨c₂', h2, h12⟩ := ih c ((mem_SliceStable _ _ _).1 hc) c₁ hs₁
      rw [hs₂] at h2
      cases h2
      exact h12

theorem SortDate_SourcePath (d : SortDirection) (n n' : TreeNode) (h : n.SortDate d = .ok n') :
    n'.SourcePath = n.SourcePath := by
  obtain ⟨sp, e, r, lf, cs⟩ := n
  obtain ⟨_, cs', rfl, _⟩ := (SortDate_mk_iff d sp e r lf cs n').1 h
  rfl

theorem map_SourcePath_of_forall₂ (d : SortDirection) (l m : List TreeNode)
    (h : List.Forall₂ (fun c c' => c.SortDate d = .ok c') l m) :
    m.map TreeNode.SourcePath = l.map TreeNode.SourcePath := by
  induction h with
  | nil => rfl
  | cons hab _ ih =>
    rw [List.map_cons, List.map_cons, ih, SortDate_SourcePath d _ _ hab]

/-- Sorted descending, a list of nodes with pairwise different dates is the
reverse of the list sorted ascending. -/
theorem SliceStable_nodeLess_reverse (d : SortDirection) (hd : d ≠ SortDirectionAscending)
    (cs : List TreeNode) (hdist : cs.Pairwise (fun a b => a.dateOr ≠ b.dateOr)) :
    SliceStable (nodeLess d) cs = (SliceStable (nodeLess SortDirectionAscending) cs).reverse := by
  have hst : StrictTotal (fun a b : Time => a.Before b) :=
    ⟨Before_irrefl, Before_trans, Before_trichotomy, not_Before_trans⟩
  have hfl : StrictTotal (fun a b : Time => b.Before a) :=
    ⟨Before_irrefl, fun a b c h1 h2 => Before_trans c b a h2 h1,
      fun a b h1 h2 => Before_trichotomy a b h2 h1,
      fun a b c h1 h2 => not_Before_trans c b a h2 h1⟩
  have e1 : nodeLess d = fun a b : TreeNode => b.dateOr.Before a.dateOr := by
    funext a b; simp [nodeLess, timeLess, hd]
  have e2 : nodeLess SortDirectionAscending =
      fun a b : TreeNode => a.dateOr.Before b.dateOr := by
    funext a b; simp [nodeLess, timeLess]
  rw [e1, e2]
  exact SliceStable_reverse (fun a b => a.Before b) hst hfl TreeNode.dateOr cs hdist

theorem pairwise_dateOr_ne (cs : List TreeNode) (hok : ∀ c ∈ cs, ∃ t, c.Date = .ok t)
    (h : cs.Pairwise (fun a b => a.Date ≠ b.Date)) :
    cs.Pairwise (fun a b => a.dateOr ≠ b.dateOr) := by
  refine h.imp_of_mem ?_
  intro a b ha hb hab hk
  obtain ⟨ta, hta⟩ := hok a ha
  obtain ⟨tb, htb⟩ := hok b hb
  rw [Date_eq_dateOr a ta hta, Date_eq_dateOr b tb htb] at hk
  rw [hta, htb, hk] at hab
  exact hab rfl

/-- The two sorts of a list of nodes with pairwise different `Date()`, when
both return, are the reverse of each other. -/
theorem sorted_reverse_of_distinct (d : SortDirection) (hd : d ≠ SortDirectionAscending)
    (cs : List TreeNode) (hok : 2 ≤ cs.length → ∀ c ∈ cs, ∃ t, c.Date = .ok t)
    (hdist : cs.Pairwise (fun a b => a.Date ≠ b.Date)) :
    SliceStable (nodeLess d) cs = (SliceStable (nodeLess SortDirectionAscending) cs).reverse := by
  by_cases hl : cs.length < 2
  · rw [SliceStable_short _ cs hl, SliceStable_short _ cs hl]
    match cs, hl with
    | [], _ => rfl
    | [_], _ => rfl
  · exact SliceStable_nodeLess_reverse d hd cs (pairwise_dateOr_ne cs (hok (by omega)) hdist)

/-- C4: (1) when `SortDate(d1)` returns, `SortDate(d2)` on its result
returns exactly what `SortDate(d2)` returns on the original tree, for all
directions; (2) in particular sorting the result again in the same direction
changes nothing; (3) for a node whose children have pairwise different
`Date()`, the children after a descending sort are, by source path, the
reverse of the children after an ascending sort; (4) the same for the method
on a list of nodes; (5) in either direction two nodes of the list with the
same `Date()` keep the order they had. -/
theorem SortDate_last_sort_wins :
    (∀ (d₁ d₂ : SortDirection) (t t₁ : TreeNode), t.SortDate d₁ = .ok t₁ →
      ∃ t₂, t.SortDate d₂ = .ok t₂ ∧ t₁.SortDate d₂ = .ok t₂) ∧
    (∀ (d : SortDirection) (t t₁ : TreeNode), t.SortDate d = .ok t₁ →
      t₁.SortDate d = .ok t₁) ∧
    (∀ (d : SortDirection) (n na nd : TreeNode), d ≠ SortDirectionAscending →
      n.SortDate SortDirectionAscending = .ok na → n.SortDate d = .ok nd →
      n.Children.Pairwise (fun a b => a.Date ≠ b.Date) →
      nd.Children.map TreeNode.SourcePath = (na.Children.map TreeNode.SourcePath).reverse) ∧
    (∀ (d : SortDirection) (tc la ld : List TreeNode), d ≠ SortDirectionAscending →
      TreeNodeList.SortDate tc SortDirectionAscending = .ok la →
      TreeNodeList.SortDate tc d = .ok ld →
      tc.Pairwise (fun a b => a.Date ≠ b.Date) → ld = la.reverse) ∧
    (∀ (d : SortDirection) (tc l : List TreeNode), TreeNodeList.SortDate tc d = .ok l →
      ∀ a b, a.Date = b.Date → List.Sublist [a, b] tc → List.Sublist [a, b] l) := by
  refine ⟨SortDate_SortDate, ?_, ?_, ?_, ?_⟩
  · intro d t t₁ h
    obtain ⟨t₂, h2, h12⟩ := SortDate_SortDate d d t t₁ h
    rw [h] at h2
    cases h2
    exact h12
  · intro d n na nd hd ha hdd hdist
    obtain ⟨sp, e, r, lf, cs⟩ := n
    obtain ⟨hok, csa, rfl, hfa⟩ := (SortDate_mk_iff _ sp e r lf cs na).1 ha
    obtain ⟨_, csd, rfl, hfd⟩ := (SortDate_mk_iff _ sp e r lf cs nd).1 hdd
    simp only [TreeNode.Children] at hdist ⊢
    rw [map_SourcePath_of_forall₂ _ _ _ hfa, map_SourcePath_of_forall₂ _ _ _ hfd,
      sorted_reverse_of_distinct d hd cs hok hdist, List.map_reverse]
  · intro d tc la ld hd ha hdd hdist
    obtain ⟨hok, rfl⟩ := (sortDateBy_ok_iff id _ tc la).1 ha
    obtain ⟨_, rfl⟩ := (sortDateBy_ok_iff id _ tc ld).1 hdd
    exact sorted_reverse_of_distinct d hd tc hok hdist
  · intro d tc l h a b hab hsub
    obtain ⟨_, rfl⟩ := (sortDateBy_ok_iff id _ tc l).1 h
    apply SliceStable_nodeLess_stable d tc a b _ hsub
    unfold TreeNode.dateOr
    rw [hab]

/-- C4, witness: `rootWithNotes` sorted ascending and then descending is
`rootWithNotes` sorted descending, and its children sorted descending
(`world`, `hello`, `notes`) are the reverse of its children sorted
ascending. -/
theorem SortDate_last_sort_wins_witness :
    (∃ t₂, rootWithNotes.SortDate SortDirectionDescending = .ok t₂ ∧
      rootWithNotesAscending.SortDate SortDirectionDescending = .ok t₂) ∧
    rootWithNotesDescending.Children.map TreeNode.SourcePath =
      (rootWithNotesAscending.Children.map TreeNode.SourcePath).reverse :=
  ⟨SortDate_last_sort_wins.1 SortDirectionAscending SortDirectionDescending rootWithNotes
      rootWithNotesAscending (by rfl),
    SortDate_last_sort_wins.2.2.1 SortDirectionDescending rootWithNotes
      rootWithNotesAscending rootWithNotesDescending (by decide) (by rfl) (by rfl)
      (by decide)⟩

/-! ## `buildTree`: the steps of the walk function -/

theorem buildStep_index (st : BuildState) (w : WalkEntry)
    (h : w.d.Name = "index.md".toList) : buildStep st w = .ok st := by
  unfold buildStep; rw [if_pos h]

theorem buildStep_root (st : BuildState) (w : WalkEntry)
    (h : w.d.Name ≠ "index.md".toList) (hp : w.path = ".".toList) :
    buildStep st w = .ok
      (BuildState.mk
        (st.heap ++ [HeapNode.mk w.path w.d true (!w.d.IsDir) none [] (some st.heap.length)])
        (some st.heap.length) st.currentBranch) := by
  unfold buildStep
  rw [if_neg h]
  simp only [hp, if_true, Bool.not_true, Bool.false_eq_true, if_false]

theorem buildStep_entry (st : BuildState) (w : WalkEntry)
    (h : w.d.Name ≠ "index.md".toList) (hp : w.path ≠ ".".toList) :
    buildStep st w =
      match (if w.path = w.d.Name then st.treeRoot else st.currentBranch) with
      | none => .error .nilDereference
      | some p => .ok
        (BuildState.mk
          (Heap.update st.heap p
              (fun q => { q with Children := q.Children ++ [st.heap.length] }) ++
            [HeapNode.mk w.path w.d false (!w.d.IsDir) (some p) [] st.treeRoot])
          st.treeRoot
          (if w.path = w.d.Name ∨ w.d.IsDir = true then some st.heap.length
            else st.currentBranch)) := by
  unfold buildStep
  rw [if_neg h]
  simp only [if_neg hp]
  by_cases h1 : w.path = w.d.Name
  · rw [if_pos (Or.inl h1 : w.path = w.d.Name ∨ w.d.IsDir = true)]
    simp only [if_pos h1, Bool.not_false, if_true]
    cases st.treeRoot <;> rfl
  · by_cases h2 : w.d.IsDir = true
    · rw [if_pos (Or.inr h2 : w.path = w.d.Name ∨ w.d.IsDir = true)]
      simp only [if_neg h1, if_pos h2, Bool.not_false, if_true]
      cases st.currentBranch <;> rfl
    · rw [if_neg (fun hc : w.path = w.d.Name ∨ w.d.IsDir = true => hc.elim h1 h2)]
      simp only [if_neg h1, if_neg h2, Bool.not_false, if_true]
      cases st.currentBranch <;> rfl
theorem Heap.length_update (h : Heap) (p : Nat) (f : HeapNode → HeapNode) :
    (Heap.update h p f).length = h.length := by
  induction h generalizing p with
  | nil => rfl
  | cons n ns ih =>
    cases p with
    | zero => rfl
    | succ p => simp [Heap.update, ih]

theorem Heap.node_update (h : Heap) (p : Nat) (f : HeapNode → HeapNode) (i : Nat) :
    (Heap.update h p f).node i = if i = p then (h.node i).map f else h.node i := by
  induction h generalizing p i with
  | nil => simp [Heap.update, Heap.node]
  | cons n ns ih =>
    cases p with
    | zero =>
      cases i with
      | zero => simp [Heap.update, Heap.node]
      | succ i => simp [Heap.update, Heap.node]
    | succ p =>
      cases i with
      | zero => simp [Heap.update, Heap.node]
      | succ i =>
        have := ih p i
        simp only [Heap.node] at this
        simp only [Heap.update, Heap.node, List.get?_cons_succ, this, Nat.succ.injEq]

theorem Heap.node_lt (h : Heap) (i : Nat) (n : HeapNode) (hn : h.node i = some n) :
    i < h.length := by
  unfold Heap.node at hn
  exact (List.get?_eq_some.1 hn).1

theorem Heap.node_of_lt (h : Heap) (i : Nat) (hi : i < h.length) : ∃ n, h.node i = some n := by
  unfold Heap.node
  exact ⟨h.get ⟨i, hi⟩, List.get?_eq_get hi⟩

theorem Heap.node_append_lt (h : Heap) (x : HeapNode) (i : Nat) (hi : i < h.length) :
    (h ++ [x]).node i = h.node i := by
  unfold Heap.node
  rw [List.get?_eq_getElem?, List.get?_eq_getElem?]
  exact List.getElem?_append_left hi

theorem Heap.node_append_length (h : Heap) (x : HeapNode) :
    (h ++ [x]).node h.length = some x := by
  unfold Heap.node
  simp

theorem Heap.node_append (h : Heap) (x n : HeapNode) (i : Nat)
    (hn : (h ++ [x]).node i = some n) :
    (i < h.length ∧ h.node i = some n) ∨ (i = h.length ∧ n = x) := by
  have hi : i < List.length h + 1 := by
    have := Heap.node_lt _ _ _ hn
    simpa using this
  by_cases hlt : i < h.length
  · left
    rw [Heap.node_append_lt h x i hlt] at hn
    exact ⟨hlt, hn⟩
  · right
    have : i = List.length h := by omega
    subst this
    rw [Heap.node_append_length] at hn
    exact ⟨rfl, (Option.some.inj hn).symm⟩
theorem Heap.node_link_old (H : Heap) (p : Nat) (x : HeapNode) (i : Nat) (n : HeapNode)
    (hn : H.node i = some n) :
    (Heap.update H p (fun q => { q with Children := q.Children ++ [H.length] }) ++ [x]).node i =
      some (if i = p then { n with Children := n.Children ++ [H.length] } else n) := by
  have hi := Heap.node_lt H i n hn
  rw [Heap.node_append_lt _ _ _ (by rw [Heap.length_update]; exact hi), Heap.node_update, hn]
  split_ifs <;> rfl

theorem Heap.node_link_new (H : Heap) (p : Nat) (x : HeapNode) (i : Nat) (n' : HeapNode)
    (hn : (Heap.update H p (fun q => { q with Children := q.Children ++ [H.length] }) ++
      [x]).node i = some n') :
    (i = H.length ∧ n' = x) ∨
    (∃ n, H.node i = some n ∧
      n' = if i = p then { n with Children := n.Children ++ [H.length] } else n) := by
  rcases Heap.node_append _ _ _ _ hn with ⟨hi, h1⟩ | ⟨hi, h1⟩
  · right
    rw [Heap.length_update] at hi
    obtain ⟨n, hn0⟩ := Heap.node_of_lt H i hi
    refine ⟨n, hn0, ?_⟩
    have := Heap.node_link_old H p x i n hn0
    rw [hn] at this
    exact Option.some.inj this
  · left
    rw [Heap.length_update] at hi
    exact ⟨hi, h1⟩

/-- Linking a new node below an allocated node keeps the links. -/
theorem Heap.Linked_link (H : Heap) (p : Nat) (x : HeapNode) (hL : H.Linked)
    (hp : p < H.length) (hx1 : x.IsRoot = false) (hx2 : x.Parent = some p)
    (hx3 : x.Children = []) (hx4 : x.Root = some 0) :
    (Heap.update H p (fun q => { q with Children := q.Children ++ [H.length] }) ++
      [x]).Linked := by
  have hlen0 : 0 < H.length := by
    obtain ⟨r, hr, _⟩ := hL.root
    exact Heap.node_lt H 0 r hr
  constructor
  · obtain ⟨r, hr, h1, h2⟩ := hL.root
    refine ⟨_, Heap.node_link_old H p x 0 r hr, ?_, ?_⟩
    · split_ifs <;> exact h1
    · split_ifs <;> exact h2
  · intro i n' hn
    rcases Heap.node_link_new H p x i n' hn with ⟨hi, hx⟩ | ⟨n, hn0, rfl⟩
    · rw [hx]
      refine ⟨⟨fun h => ?_, fun h => ?_⟩, hx4⟩
      · rw [hx1] at h; exact Bool.noConfusion h
      · omega
    · obtain ⟨h1, h2⟩ := hL.isRoot i n hn0
      split_ifs
      · exact ⟨h1, h2⟩
      · exact ⟨h1, h2⟩
  · intro i n' hn hi0
    rcases Heap.node_link_new H p x i n' hn with ⟨hi, hx⟩ | ⟨n, hn0, rfl⟩
    · obtain ⟨pn, hpn⟩ := Heap.node_of_lt H p hp
      rw [hx]
      refine ⟨p, _, hx2, by omega, Heap.node_link_old H p x p pn hpn, ?_⟩
      rw [if_pos rfl]
      simp [hi]
    · obtain ⟨q, qn, h1, h2, h3, h4⟩ := hL.parent i n hn0 hi0
      refine ⟨q, _, ?_, h2, Heap.node_link_old H p x q qn h3, ?_⟩
      · split_ifs <;> exact h1
      · split_ifs
        · exact List.mem_append_left _ h4
        · exact h4
  · intro q qn' hq
    rcases Heap.node_link_new H p x q qn' hq with ⟨hi, hx⟩ | ⟨qn, hq0, rfl⟩
    · rw [hx, hx3]
      exact ⟨List.Pairwise.nil, fun c hc => absurd hc (List.not_mem_nil c)⟩
    · obtain ⟨h1, h2⟩ := hL.children q qn hq0
      have hold : ∀ c ∈ qn.Children, ∃ cn,
          (Heap.update H p (fun q => { q with Children := q.Children ++ [H.length] }) ++
            [x]).node c = some cn ∧ cn.Parent = some q := by
        intro c hc
        obtain ⟨cn, hcn, hcp⟩ := h2 c hc
        refine ⟨_, Heap.node_link_old H p x c cn hcn, ?_⟩
        split_ifs <;> exact hcp
      by_cases hqp : q = p
      · rw [if_pos hqp]
        constructor
        · rw [List.pairwise_append]
          refine ⟨h1, List.pairwise_singleton _ _, ?_⟩
          intro a ha b hb
          obtain ⟨cn, hcn, _⟩ := h2 a ha
          rw [List.mem_singleton] at hb
          rw [hb]
          exact Heap.node_lt H a cn hcn
        · intro c hc
          rcases List.mem_append.1 hc with hc | hc
          · exact hold c hc
          · rw [List.mem_singleton] at hc
            subst hc
            refine ⟨x, ?_, by rw [hx2, hqp]⟩
            have := Heap.node_append_length
              (Heap.update H p (fun q => { q with Children := q.Children ++ [H.length] })) x
            rw [Heap.length_update] at this
            exact this
      · rw [if_neg hqp]
        exact ⟨h1, hold⟩
/-! ## The calls of the walk function -/

/-- Induction on file system entries. -/
theorem FsEntry.walkInduct (P : FsEntry → Prop) (hfile : ∀ n mt, P (.file n mt))
    (hdir : ∀ n mt es, (∀ e ∈ es, P e) → P (.dir n mt es)) : ∀ e, P e := by
  intro e
  refine FsEntry.rec (motive_1 := P) (motive_2 := fun es => ∀ e ∈ es, P e) hfile ?_ ?_ ?_ e
  · intro n mt es ih; exact hdir n mt es ih
  · intro e he; simp at he
  · intro e es he hes x hx
    rcases List.mem_cons.1 hx with h | h
    · subst h; exact he
    · exact hes x h

theorem walkDirEntries_cons (name : GoString) (e : FsEntry) (es : List FsEntry) :
    walkDirEntries name (e :: es) =
      walkDir (Join [name, e.name]) e ++ walkDirEntries name es := by
  cases e <;> rfl

theorem allWellFormed_iff (es : List FsEntry) :
    FsEntry.allWellFormed es = true ↔ ∀ e ∈ es, e.wellFormed = true := by
  induction es with
  | nil => simp [FsEntry.allWellFormed]
  | cons e es ih => simp [FsEntry.allWellFormed, ih]

theorem wellFormed_name (e : FsEntry) (h : e.wellFormed = true) : validName e.name = true := by
  cases e with
  | file n mt => simpa [FsEntry.wellFormed, FsEntry.name] using h
  | dir n mt es =>
    simp only [FsEntry.wellFormed, Bool.and_eq_true] at h
    exact h.1.1

theorem wellFormed_entries (n : GoString) (mt : Option Time) (es : List FsEntry)
    (h : (FsEntry.dir n mt es).wellFormed = true) : ∀ e ∈ es, e.wellFormed = true := by
  simp only [FsEntry.wellFormed, Bool.and_eq_true] at h
  exact (allWellFormed_iff es).1 h.2

/-- The path under which the walk reaches the entries of the directory
with the given directory names: `.` for the documents directory. -/
theorem Join_dirs_name (dirs : List GoString) (n : GoString)
    (hdirs : ∀ x ∈ dirs, validName x = true) (hn : validName n = true) :
    Join [if dirs = [] then ".".toList else joinSep dirs, n] =
      if dirs ++ [n] = [] then ".".toList else joinSep (dirs ++ [n]) := by
  rw [Join_Dir_name dirs n hdirs hn, if_neg (by simp)]

/-- Every call of the walk function below the documents directory has a
path made of file names, the last of which is the name of the entry. -/
theorem walkDir_paths :
    ∀ (e : FsEntry) (dirs : List GoString), (∀ x ∈ dirs, validName x = true) →
      e.wellFormed = true →
      ∀ w ∈ walkDir (joinSep (dirs ++ [e.name])) e,
        ∃ names : List GoString, (∀ x ∈ names, validName x = true) ∧
          w.path = joinSep (dirs ++ names) ∧ names.getLast? = some w.d.Name := by
  intro e
  induction e using FsEntry.walkInduct with
  | hfile n mt =>
    intro dirs hdirs hwf w hw
    simp only [walkDir, List.mem_singleton] at hw
    subst hw
    exact ⟨[n], by simpa [FsEntry.wellFormed] using hwf, rfl, rfl⟩
  | hdir n mt es ih =>
    intro dirs hdirs hwf w hw
    have hn : validName n = true := wellFormed_name _ hwf
    have hes := wellFormed_entries n mt es hwf
    simp only [walkDir, List.mem_cons, FsEntry.name] at hw
    rcases hw with hw | hw
    · subst hw
      exact ⟨[n], by simpa using hn, rfl, rfl⟩
    · -- an entry of the directory
      have hdirs' : ∀ x ∈ dirs ++ [n], validName x = true := by
        intro x hx
        rcases List.mem_append.1 hx with hx | hx
        · exact hdirs x hx
        · rw [List.mem_singleton] at hx; rw [hx]; exact hn
      have key : ∀ (l : List FsEntry), (∀ e ∈ l, e ∈ es) →
          ∀ w ∈ walkDirEntries (joinSep (dirs ++ [n])) l,
            ∃ names : List GoString, (∀ x ∈ names, validName x = true) ∧
              w.path = joinSep (dirs ++ names) ∧ names.getLast? = some w.d.Name := by
        intro l
        induction l with
        | nil => intro _ w hw; simp [walkDirEntries] at hw
        | cons e l ihl =>
          intro hl w hw
          rw [walkDirEntries_cons] at hw
          rcases List.mem_append.1 hw with hw | hw
          · have he : e ∈ es := hl e (by simp)
            have hj := Join_dirs_name (dirs ++ [n]) e.name hdirs'
              (wellFormed_name e (hes e he))
            rw [if_neg (by simp), if_neg (by simp)] at hj
            rw [hj] at hw
            obtain ⟨names, h1, h2, h3⟩ := ih e he (dirs ++ [n]) hdirs' (hes e he) w hw
            refine ⟨n :: names, ?_, ?_, ?_⟩
            · intro x hx
              rcases List.mem_cons.1 hx with hx | hx
              · rw [hx]; exact hn
              · exact h1 x hx
            · rw [h2]; simp
            · cases names with
              | nil => simp at h3
              | cons a as => rw [List.getLast?_cons_cons]; exact h3
          · exact ihl (fun x hx => hl x (List.mem_cons_of_mem _ hx)) w hw
      exact key es (fun e he => he) w hw
theorem joinSep_ne_dot (names : List GoString) (hne : names ≠ [])
    (h : ∀ x ∈ names, validName x = true) : joinSep names ≠ ".".toList := by
  intro hj
  have hp := pathElems_joinSep names hne (fun e he => validName_no_slash e (h e he))
  rw [hj] at hp
  have hd : pathElems ".".toList = [".".toList] := by decide
  rw [hd] at hp
  have := h ".".toList (by rw [← hp]; simp)
  exact absurd this (by decide)

theorem Join_dot_name (n : GoString) (hn : validName n = true) :
    Join [".".toList, n] = n := by
  have := Join_Dir_name [] n (by simp) hn
  simpa [joinSep] using this

/-- No call of the walk function below the documents directory has the
path `.`. -/
theorem walkDirEntries_path_ne_dot (entries : List FsEntry)
    (hwf : FsEntry.allWellFormed entries = true) :
    ∀ w ∈ walkDirEntries ".".toList entries, w.path ≠ ".".toList := by
  rw [allWellFormed_iff] at hwf
  induction entries with
  | nil => intro w hw; simp [walkDirEntries] at hw
  | cons e es ih =>
    intro w hw
    rw [walkDirEntries_cons] at hw
    rcases List.mem_append.1 hw with hw | hw
    · have hn := wellFormed_name e (hwf e (by simp))
      rw [Join_dot_name e.name hn] at hw
      obtain ⟨names, h1, h2, h3⟩ := walkDir_paths e [] (by simp) (hwf e (by simp)) w
        (by simpa [joinSep] using hw)
      rw [h2, List.nil_append]
      apply joinSep_ne_dot names _ h1
      intro h0; rw [h0] at h3; simp at h3
    · exact ih (fun x hx => hwf x (List.mem_cons_of_mem _ hx)) w hw

theorem anchored_append_of_first (w : WalkEntry) (ws : List WalkEntry)
    (h1 : w.d.Name ≠ "index.md".toList) (h2 : w.path = w.d.Name) :
    anchored (w :: ws) = true := by
  simp only [anchored, if_neg h1, h2, decide_True]

/-- When no directory directly below the documents directory is named
`index.md`, the first entry the walk function does not skip lies directly
below the documents directory. -/
theorem walkDirEntries_anchored (entries : List FsEntry)
    (hwf : FsEntry.allWellFormed entries = true)
    (hidx : ∀ e ∈ entries, e.isIndexDir = false) :
    anchored (walkDirEntries ".".toList entries) = true := by
  rw [allWellFormed_iff] at hwf
  induction entries with
  | nil => rfl
  | cons e es ih =>
    rw [walkDirEntries_cons]
    have hn := wellFormed_name e (hwf e (by simp))
    rw [Join_dot_name e.name hn]
    have ih' := ih (fun x hx => hwf x (List.mem_cons_of_mem _ hx))
      (fun x hx => hidx x (List.mem_cons_of_mem _ hx))
    cases e with
    | file n mt =>
      simp only [walkDir, FsEntry.name, List.singleton_append, anchored]
      split_ifs
      · exact ih'
      · simp
    | dir n mt sub =>
      have hi := hidx _ (List.mem_cons_self _ _)
      simp only [FsEntry.isIndexDir, decide_eq_false_iff_not] at hi
      simp only [walkDir, FsEntry.name, List.cons_append, anchored, if_neg hi]
      simp
/-! ## `buildTree`: what the walk builds -/

theorem Heap.map_update {β : Type} (H : Heap) (p : Nat) (f : HeapNode → HeapNode)
    (key : HeapNode → β) (hf : ∀ n, key (f n) = key n) :
    (Heap.update H p f).map key = H.map key := by
  induction H generalizing p with
  | nil => rfl
  | cons n ns ih =>
    cases p with
    | zero => simp [Heap.update, hf]
    | succ p => simp [Heap.update, ih]

theorem Heap.map_key_link (H : Heap) (p k : Nat) :
    (Heap.update H p (fun q => { q with Children := q.Children ++ [k] })).map
        (fun n => (n.SourcePath, n.Entry, n.IsLeaf)) =
      H.map (fun n => (n.SourcePath, n.Entry, n.IsLeaf)) :=
  Heap.map_update H p (fun q => { q with Children := q.Children ++ [k] })
    (fun n => (n.SourcePath, n.Entry, n.IsLeaf)) (fun _ => rfl)

/-- The nodes `buildTree` allocates: one for every call of the walk
function on an entry not named `index.md`, in the order of the calls, with
the path and the entry of the call. -/
theorem buildSteps_nodes (ws : List WalkEntry) :
    ∀ st st' : BuildState, buildSteps st ws = .ok st' →
      st'.heap.map (fun n => (n.SourcePath, n.Entry, n.IsLeaf)) =
        st.heap.map (fun n => (n.SourcePath, n.Entry, n.IsLeaf)) ++
          (ws.filter (fun w => decide (w.d.Name ≠ "index.md".toList))).map
            (fun w => (w.path, w.d, !w.d.IsDir)) := by
  induction ws with
  | nil =>
    intro st st' h
    simp only [buildSteps, Except.ok.injEq] at h
    subst h
    simp
  | cons w ws ih =>
    intro st st' h
    rw [buildSteps] at h
    cases hs : buildStep st w with
    | error e => rw [hs] at h; exact Except.noConfusion h
    | ok st₁ =>
      rw [hs] at h
      simp only at h
      rw [ih st₁ st' h]
      by_cases hidx : w.d.Name = "index.md".toList
      · rw [buildStep_index st w hidx] at hs
        cases hs
        simp [List.filter_cons, hidx]
      · rw [List.filter_cons, if_pos (by simpa using hidx), List.map_cons,
          ← List.singleton_append, ← List.append_assoc]
        congr 1
        by_cases hp : w.path = ".".toList
        · rw [buildStep_root st w hidx hp] at hs
          cases hs
          simp
        · rw [buildStep_entry st w hidx hp] at hs
          split at hs
          · exact Except.noConfusion hs
          · cases hs
            rw [List.map_append, Heap.map_key_link]
            rfl

/-- The links are kept by the walk function on entries other than the
documents directory. -/
theorem buildSteps_linked (ws : List WalkEntry) :
    ∀ st st' : BuildState, st.heap.Linked → st.treeRoot = some 0 →
      (∀ b : Nat, st.currentBranch = some b → b < st.heap.length) →
      (∀ w ∈ ws, w.path ≠ ".".toList) → buildSteps st ws = .ok st' →
      st'.heap.Linked ∧ st'.treeRoot = some 0 := by
  induction ws with
  | nil =>
    intro st st' hL hr _ _ h
    simp only [buildSteps, Except.ok.injEq] at h
    subst h
    exact ⟨hL, hr⟩
  | cons w ws ih =>
    intro st st' hL hr hb hws h
    rw [buildSteps] at h
    cases hs : buildStep st w with
    | error e => rw [hs] at h; exact Except.noConfusion h
    | ok st₁ =>
      rw [hs] at h
      simp only at h
      have hws' : ∀ w ∈ ws, w.path ≠ ".".toList := fun x hx => hws x (List.mem_cons_of_mem _ hx)
      by_cases hidx : w.d.Name = "index.md".toList
      · rw [buildStep_index st w hidx] at hs
        cases hs
        exact ih st st' hL hr hb hws' h
      · have hp := hws w (by simp)
        rw [buildStep_entry st w hidx hp] at hs
        have hlen0 : 0 < st.heap.length := by
          obtain ⟨r, hr0, _⟩ := hL.root
          exact Heap.node_lt _ 0 r hr0
        split at hs
        · exact Except.noConfusion hs
        · rename_i p hpar
          have hplt : p < st.heap.length := by
            split_ifs at hpar
            · rw [hr] at hpar; cases hpar; exact hlen0
            · exact hb p hpar
          cases hs
          refine ih ⟨_, _, _⟩ st' ?_ ?_ ?_ hws' h
          · exact Heap.Linked_link st.heap p _ hL hplt rfl rfl rfl hr
          · exact hr
          · intro b hbb
            simp only [List.length_append, Heap.length_update, List.length_singleton]
            simp only at hbb
            split_ifs at hbb
            · cases hbb; omega
            · have := hb b hbb; omega
/-- One call of the walk function on an entry that is not skipped and is not
the documents directory: it returns when the pointer it follows is not nil,
and keeps the links. -/
theorem buildStep_linked (st : BuildState) (w : WalkEntry) (hL : st.heap.Linked)
    (hr : st.treeRoot = some 0)
    (hb : ∀ b : Nat, st.currentBranch = some b → b < st.heap.length)
    (hidx : w.d.Name ≠ "index.md".toList) (hp : w.path ≠ ".".toList)
    (hsafe : st.currentBranch ≠ none ∨ w.path = w.d.Name) :
    ∃ st₁, buildStep st w = .ok st₁ ∧ st₁.heap.Linked ∧ st₁.treeRoot = some 0 ∧
      (∀ b : Nat, st₁.currentBranch = some b → b < st₁.heap.length) ∧
      st₁.currentBranch ≠ none := by
  have hlen0 : 0 < st.heap.length := by
    obtain ⟨r, hr0, _⟩ := hL.root
    exact Heap.node_lt _ 0 r hr0
  rw [buildStep_entry st w hidx hp]
  have hpar : ∃ p : Nat, (if w.path = w.d.Name then st.treeRoot else st.currentBranch) = some p ∧
      p < st.heap.length := by
    split_ifs with h1
    · exact ⟨0, hr, hlen0⟩
    · rcases hsafe with h | h
      · cases hc : st.currentBranch with
        | none => exact absurd hc h
        | some b => exact ⟨b, rfl, hb b hc⟩
      · exact absurd h h1
  obtain ⟨p, hp1, hp2⟩ := hpar
  rw [hp1]
  refine ⟨_, rfl, Heap.Linked_link st.heap p _ hL hp2 rfl rfl rfl hr, hr, ?_, ?_⟩
  · intro b hbb
    simp only [List.length_append, Heap.length_update, List.length_singleton]
    simp only at hbb
    split_ifs at hbb
    · cases hbb; omega
    · have := hb b hbb; omega
  · simp only
    split_ifs with h1
    · simp
    · rcases hsafe with h | h
      · exact h
      · exact absurd (Or.inl h) h1

/-- The walk function returns on every call when, before any call that
follows `currentBranch`, a call has set it. -/
theorem buildSteps_returns (ws : List WalkEntry) :
    ∀ st : BuildState, st.heap.Linked → st.treeRoot = some 0 →
      (∀ b : Nat, st.currentBranch = some b → b < st.heap.length) →
      (∀ w ∈ ws, w.path ≠ ".".toList) →
      (st.currentBranch ≠ none ∨ anchored ws = true) →
      ∃ st', buildSteps st ws = .ok st' := by
  induction ws with
  | nil => intro st _ _ _ _ _; exact ⟨st, rfl⟩
  | cons w ws ih =>
    intro st hL hr hb hws hsafe
    have hws' : ∀ w ∈ ws, w.path ≠ ".".toList := fun x hx => hws x (List.mem_cons_of_mem _ hx)
    rw [buildSteps]
    by_cases hidx : w.d.Name = "index.md".toList
    · rw [buildStep_index st w hidx]
      simp only
      apply ih st hL hr hb hws'
      rcases hsafe with h | h
      · exact Or.inl h
      · right
        rw [anchored, if_pos hidx] at h
        exact h
    · have hs : st.currentBranch ≠ none ∨ w.path = w.d.Name := by
        rcases hsafe with h | h
        · exact Or.inl h
        · right
          rw [anchored, if_neg hidx] at h
          exact of_decide_eq_true h
      obtain ⟨st₁, h1, h2, h3, h4, h5⟩ := buildStep_linked st w hL hr hb hidx (hws w (by simp)) hs
      rw [h1]
      simp only
      exact ih st₁ h2 h3 h4 hws' (Or.inl h5)

theorem WalkDir_eq (modTime : Option Time) (entries : List FsEntry) :
    WalkDir modTime entries =
      ⟨".".toList, ⟨".".toList, true, modTime⟩⟩ :: walkDirEntries ".".toList entries := rfl

theorem Heap.Linked_root (d : DirEntry) (leaf : Bool) :
    Heap.Linked [HeapNode.mk ".".toList d true leaf none [] (some 0)] := by
  constructor
  · exact ⟨_, rfl, rfl, rfl⟩
  · intro i n hn
    cases i with
    | zero =>
      simp only [Heap.node, List.get?_cons_zero, Option.some.injEq] at hn
      subst hn
      exact ⟨⟨fun _ => rfl, fun _ => rfl⟩, rfl⟩
    | succ i => simp [Heap.node] at hn
  · intro i n hn hi
    cases i with
    | zero => exact absurd rfl hi
    | succ i => simp [Heap.node] at hn
  · intro p pn hp
    cases p with
    | zero =>
      simp only [Heap.node, List.get?_cons_zero, Option.some.injEq] at hp
      subst hp
      exact ⟨List.Pairwise.nil, fun c hc => absurd hc (List.not_mem_nil c)⟩
    | succ p => simp [Heap.node] at hp

/-- What `buildTree` does on the walk of a documents directory: after the
call for the documents directory the state holds the root alone, and the
remaining calls run from that state. -/
theorem buildTree_eq (modTime : Option Time) (entries : List FsEntry) :
    buildTree (WalkDir modTime entries) =
      match buildSteps
          ⟨[HeapNode.mk ".".toList ⟨".".toList, true, modTime⟩ true false none [] (some 0)],
            some 0, none⟩ (walkDirEntries ".".toList entries) with
      | .error e => .error e
      | .ok st => .ok (st.treeRoot, st.heap) := by
  rw [WalkDir_eq, buildTree, buildSteps,
    buildStep_root _ _ (by simp) rfl]
  rfl

/-- Every tree `buildTree` returns for a documents directory is linked, and
its root is the node allocated first. -/
theorem buildTree_linked (modTime : Option Time) (entries : List FsEntry)
    (hwf : FsEntry.allWellFormed entries = true) (root : Option Ptr) (heap : Heap)
    (h : buildTree (WalkDir modTime entries) = .ok (root, heap)) :
    root = some 0 ∧ heap.Linked := by
  rw [buildTree_eq] at h
  split at h
  · exact Except.noConfusion h
  · rename_i st hst
    simp only [Except.ok.injEq, Prod.mk.injEq] at h
    obtain ⟨h1, h2⟩ := buildSteps_linked _ _ st (Heap.Linked_root _ _) rfl
      (by intro b hb; simp at hb) (walkDirEntries_path_ne_dot entries hwf) hst
    rw [← h.1, ← h.2]
    exact ⟨h2, h1⟩

/-- `buildTree` returns a tree for every documents directory in which no
directory directly below the top is named `index.md`. -/
theorem buildTree_returns (modTime : Option Time) (entries : List FsEntry)
    (hwf : FsEntry.allWellFormed entries = true)
    (hidx : ∀ e ∈ entries, e.isIndexDir = false) :
    ∃ heap, buildTree (WalkDir modTime entries) = .ok (some 0, heap) := by
  rw [buildTree_eq]
  obtain ⟨st, hst⟩ := buildSteps_returns (walkDirEntries ".".toList entries)
    ⟨[HeapNode.mk ".".toList ⟨".".toList, true, modTime⟩ true false none [] (some 0)],
      some 0, none⟩ (Heap.Linked_root _ _) rfl (by intro b hb; simp at hb)
    (walkDirEntries_path_ne_dot entries hwf)
    (Or.inr (walkDirEntries_anchored entries hwf hidx))
  obtain ⟨_, h2⟩ := buildSteps_linked _ _ st (Heap.Linked_root _ _) rfl
    (by intro b hb; simp at hb) (walkDirEntries_path_ne_dot entries hwf) hst
  rw [hst]
  simp only
  rw [h2]
  exact ⟨st.heap, rfl⟩
/-! ## C11: one root -/

/-- C11: `buildTree` returns a tree for every documents directory in which no
directory directly below the top is named `index.md`; and in every tree it
returns for a documents directory the returned root is the node allocated
first, which is the node of the path `.`, has `IsRoot` and has no parent; no
other node has `IsRoot`; and the field `Root` of every node, the root
included, points to that node. -/
theorem buildTree_one_root (modTime : Option Time) (entries : List FsEntry)
    (hwf : FsEntry.allWellFormed entries = true) :
    ((∀ e ∈ entries, e.isIndexDir = false) →
      ∃ heap, buildTree (WalkDir modTime entries) = .ok (some 0, heap)) ∧
    ∀ (root : Option Ptr) (heap : Heap),
      buildTree (WalkDir modTime entries) = .ok (root, heap) →
      root = some 0 ∧
      (∃ r, heap.node 0 = some r ∧ r.SourcePath = ".".toList ∧ r.IsRoot = true ∧
        r.Parent = none) ∧
      ∀ (i : Nat) (n : HeapNode), heap.node i = some n →
        (n.IsRoot = true ↔ i = 0) ∧ n.Root = some 0 := by
  refine ⟨buildTree_returns modTime entries hwf, ?_⟩
  intro root heap h
  obtain ⟨h1, hL⟩ := buildTree_linked modTime entries hwf root heap h
  refine ⟨h1, ?_, hL.isRoot⟩
  obtain ⟨r, hr, hr1, hr2⟩ := hL.root
  refine ⟨r, hr, ?_, hr1, hr2⟩
  -- the node allocated first is the node of the first call
  rw [buildTree_eq] at h
  split at h
  · exact Except.noConfusion h
  · rename_i st hst
    simp only [Except.ok.injEq, Prod.mk.injEq] at h
    have hn := buildSteps_nodes _ _ st hst
    rw [h.2] at hn
    simp only [List.map_cons, List.map_nil, List.singleton_append] at hn
    cases heap with
    | nil => simp at hn
    | cons n0 rest =>
      simp only [Heap.node, List.get?_cons_zero, Option.some.injEq] at hr
      subst hr
      simp only [List.map_cons, List.cons.injEq, Prod.mk.injEq] at hn
      exact hn.1.1

/-- C11, witness: the documents directory of scenario B. -/
theorem buildTree_one_root_witness :
    ∃ heap, buildTree (WalkDir none scenarioB) = .ok (some 0, heap) ∧
      (some 0 : Option Ptr) = some 0 ∧
      (∃ r, heap.node 0 = some r ∧ r.SourcePath = ".".toList ∧ r.IsRoot = true ∧
        r.Parent = none) ∧
      ∀ (i : Nat) (n : HeapNode), heap.node i = some n →
        (n.IsRoot = true ↔ i = 0) ∧ n.Root = some 0 := by
  obtain ⟨heap, hh⟩ := (buildTree_one_root none scenarioB (by decide)).1 (by decide)
  exact ⟨heap, hh, (buildTree_one_root none scenarioB (by decide)).2 (some 0) heap hh⟩

/-! ## C12: one node for every entry, one place in the parent's children -/

/-- C12: in every tree `buildTree` returns for a documents directory, and it
returns one whenever no directory directly below the top is named
`index.md`, the nodes are, in order of allocation, the calls of the walk
function on entries not named `index.md`, each with the path and the entry
of the call; every node without `IsRoot` has a parent, is listed exactly once
in the `Children` of the parent and in no other `Children`; and every
`Children` lists the nodes in order of allocation, which is the order of the
walk. -/
theorem buildTree_nodes_and_children (modTime : Option Time) (entries : List FsEntry)
    (hwf : FsEntry.allWellFormed entries = true) :
    ((∀ e ∈ entries, e.isIndexDir = false) →
      ∃ heap, buildTree (WalkDir modTime entries) = .ok (some 0, heap)) ∧
    ∀ (root : Option Ptr) (heap : Heap),
      buildTree (WalkDir modTime entries) = .ok (root, heap) →
      heap.map (fun n => (n.SourcePath, n.Entry, n.IsLeaf)) =
        ((WalkDir modTime entries).filter
          (fun w => decide (w.d.Name ≠ "index.md".toList))).map
          (fun w => (w.path, w.d, !w.d.IsDir)) ∧
      (∀ (i : Nat) (n : HeapNode), heap.node i = some n → n.IsRoot = false →
        ∃ (p : Nat) (pn : HeapNode), n.Parent = some p ∧ heap.node p = some pn ∧
          pn.Children.count i = 1 ∧
          ∀ (q : Nat) (qn : HeapNode), heap.node q = some qn → i ∈ qn.Children → q = p) ∧
      ∀ (p : Nat) (pn : HeapNode), heap.node p = some pn →
        pn.Children.Pairwise (fun a b : Nat => a < b) := by
  refine ⟨buildTree_returns modTime entries hwf, ?_⟩
  intro root heap h
  obtain ⟨_, hL⟩ := buildTree_linked modTime entries hwf root heap h
  refine ⟨?_, ?_, fun p pn hp => (hL.children p pn hp).1⟩
  · rw [buildTree_eq] at h
    split at h
    · exact Except.noConfusion h
    · rename_i st hst
      simp only [Except.ok.injEq, Prod.mk.injEq] at h
      have hn := buildSteps_nodes _ _ st hst
      rw [h.2] at hn
      rw [hn, WalkDir_eq, List.filter_cons, if_pos (by simp)]
      rfl
  · intro i n hn hroot
    have hi0 : i ≠ 0 := by
      intro h0
      have := ((hL.isRoot i n hn).1).2 h0
      rw [hroot] at this
      exact Bool.noConfusion this
    obtain ⟨p, pn, h1, _, h3, h4⟩ := hL.parent i n hn hi0
    refine ⟨p, pn, h1, h3, ?_, ?_⟩
    · have hnd : pn.Children.Nodup :=
        ((hL.children p pn h3).1).imp (fun {a b} (hab : a < b) => Nat.ne_of_lt hab)
      exact List.count_eq_one_of_mem hnd h4
    · intro q qn hq hmem
      obtain ⟨cn, hcn, hcp⟩ := (hL.children q qn hq).2 i hmem
      have hcn' : heap.node i = some cn := hcn
      rw [hn] at hcn'
      cases hcn'
      rw [h1] at hcp
      exact (Option.some.inj hcp).symm

/-- C12, witness: a documents directory with an `index.md` at the top and
an `index.md` in `notes`. -/
theorem buildTree_nodes_and_children_witness :
    ∃ heap, buildTree (WalkDir none notesWithIndex) = .ok (some 0, heap) ∧
      heap.map (fun n => (n.SourcePath, n.Entry, n.IsLeaf)) =
        ((WalkDir none notesWithIndex).filter
          (fun w => decide (w.d.Name ≠ "index.md".toList))).map
          (fun w => (w.path, w.d, !w.d.IsDir)) ∧
      (∀ (i : Nat) (n : HeapNode), heap.node i = some n → n.IsRoot = false →
        ∃ (p : Nat) (pn : HeapNode), n.Parent = some p ∧ heap.node p = some pn ∧
          pn.Children.count i = 1 ∧
          ∀ (q : Nat) (qn : HeapNode), heap.node q = some qn → i ∈ qn.Children → q = p) ∧
      ∀ (p : Nat) (pn : HeapNode), heap.node p = some pn →
        pn.Children.Pairwise (fun a b : Nat => a < b) := by
  obtain ⟨heap, hh⟩ := (buildTree_nodes_and_children none notesWithIndex (by decide)).1
    (by decide)
  exact ⟨heap, hh,
    (buildTree_nodes_and_children none notesWithIndex (by decide)).2 (some 0) heap hh⟩

/-! ## C13: scenario B -/

/-- C13 (as stated, refuted): the tree `buildTree` returns for the documents
directory of scenario B has the children `2024-01-01-b.md`, `notes` below
the root, and `SortDate(SortDirectionDescending)` returns them in this order:
`b` before `notes`, not `notes` before `b`. -/
theorem scenarioB_descending_b_first :
    (buildTree (WalkDir none scenarioB)).map (fun r => r.2.toTree 3 0) =
      .ok (some scenarioBTree) ∧
    (scenarioBTree.SortDate SortDirectionDescending).map
        (fun t => t.Children.map TreeNode.SourcePath) =
      .ok ["2024-01-01-b.md".toList, "notes".toList] ∧
    ["2024-01-01-b.md".toList, "notes".toList] ≠
      ["notes".toList, "2024-01-01-b.md".toList] :=
  ⟨by rfl, by decide, by decide⟩

/-- C13 (amended): in the tree built for scenario B the `Date()` of the node
`notes` is 1 January 2020, the `Date()` of `2024-01-01-b.md` is 1 January
2024, and `SortDate(SortDirectionDescending)` returns the root with the
newer `b` before `notes`; `SortDate(SortDirectionAscending)` returns it
with `notes` before `b`. -/
theorem scenarioB_dates_and_order :
    FsEntry.allWellFormed scenarioB = true ∧
    (buildTree (WalkDir none scenarioB)).map (fun r => r.2.toTree 3 0) =
      .ok (some scenarioBTree) ∧
    (dirNode "notes".toList none [leafNode "notes/2020-01-01-a.md".toList]).Date =
      .ok (midnightUTC 2020 1 1) ∧
    (leafNode "2024-01-01-b.md".toList).Date = .ok (midnightUTC 2024 1 1) ∧
    scenarioBTree.SortDate SortDirectionDescending = .ok scenarioBTree ∧
    scenarioBTree.SortDate SortDirectionAscending = .ok scenarioBTreeNotesFirst :=
  ⟨by decide, by rfl, by decide, by decide, by rfl, by rfl⟩

/-! ## C14: `RenderWalk` -/

theorem renderInOrder_append {σ : Type} (distPath : GoString) (io : RenderIO σ)
    (l₁ l₂ : List TreeNode) (st : RenderState σ) :
    renderInOrder distPath io (l₁ ++ l₂) st =
      match renderInOrder distPath io l₁ st with
      | (st', .returnedNil) => renderInOrder distPath io l₂ st'
      | (st', out) => (st', out) := by
  induction l₁ generalizing st with
  | nil => rfl
  | cons n ns ih =>
    rw [List.cons_append, renderInOrder, renderInOrder]
    rcases hr : TreeWalker.renderNode distPath io n st with ⟨st', out⟩
    cases out with
    | returnedNil => simp only; exact ih st'
    | returned e => rfl
    | panicked p => rfl

/-- `RenderWalk` renders the nodes of the tree one after the other in
pre-order, up to the first that does not return nil. -/
theorem RenderWalk_eq_renderInOrder {σ : Type} (distPath : GoString) (io : RenderIO σ) :
    ∀ (t : TreeNode) (st : RenderState σ),
      TreeWalker.RenderWalk distPath io t st = renderInOrder distPath io t.subtrees st := by
  intro t
  induction t using TreeNode.induct with
  | h sp e r l cs ih =>
    intro st
    rw [TreeWalker.RenderWalk, TreeNode.subtrees, renderInOrder]
    rcases hr : TreeWalker.renderNode distPath io (.mk sp e r l cs) st with ⟨st', out⟩
    cases out with
    | returned err => rfl
    | panicked p => rfl
    | returnedNil =>
      simp only
      clear hr
      induction cs generalizing st' with
      | nil => rfl
      | cons c cs ihc =>
        rw [TreeWalker.renderChildren, TreeNodeList.subtrees, renderInOrder_append,
          ih c (by simp) st']
        rcases renderInOrder distPath io c.subtrees st' with ⟨st'', out⟩
        cases out with
        | returnedNil =>
          simp only
          exact ihc (fun x hx => ih x (List.mem_cons_of_mem _ hx)) st''
        | returned err => rfl
        | panicked p => rfl
theorem renderNode_rendered {σ : Type} (distPath : GoString) (io : RenderIO σ)
    (n : TreeNode) (st st' : RenderState σ) (out : Outcome)
    (h : TreeWalker.renderNode distPath io n st = (st', out)) :
    (out = .returnedNil → st'.2 = st.2 ++ [n]) ∧ (out ≠ .returnedNil → st'.2 = st.2) := by
  unfold TreeWalker.renderNode at h
  split at h
  · cases h
    exact ⟨fun h => Outcome.noConfusion h, fun _ => rfl⟩
  · split at h
    · cases h
      exact ⟨fun h => Outcome.noConfusion h, fun _ => rfl⟩
    · cases h
      exact ⟨fun _ => rfl, fun h => absurd rfl h⟩

/-- Rendering a list of nodes in order writes the files of a first part of
the list, all of it exactly when nil is returned; otherwise the result is the
result of rendering the first node after that part. -/
theorem renderInOrder_prefix {σ : Type} (distPath : GoString) (io : RenderIO σ)
    (ns : List TreeNode) :
    ∀ st : RenderState σ, ∃ pre post : List TreeNode, ns = pre ++ post ∧
      (renderInOrder distPath io ns st).1.2 = st.2 ++ pre ∧
      ((renderInOrder distPath io ns st).2 = .returnedNil ↔ post = []) ∧
      ∀ f rest, post = f :: rest → ∃ st_f : RenderState σ, st_f.2 = st.2 ++ pre ∧
        TreeWalker.renderNode distPath io f st_f = renderInOrder distPath io ns st := by
  induction ns with
  | nil =>
    intro st
    exact ⟨[], [], rfl, by simp [renderInOrder], by simp [renderInOrder],
      fun f rest h => List.noConfusion h⟩
  | cons n ns ih =>
    intro st
    rw [renderInOrder]
    rcases hr : TreeWalker.renderNode distPath io n st with ⟨st', out⟩
    obtain ⟨h1, h2⟩ := renderNode_rendered distPath io n st st' out hr
    cases out with
    | returnedNil =>
      simp only
      obtain ⟨pre, post, e1, e2, e3, e4⟩ := ih st'
      refine ⟨n :: pre, post, by rw [e1]; rfl, ?_, e3, ?_⟩
      · rw [e2, h1 rfl]; simp
      · intro f rest hf
        obtain ⟨st_f, g1, g2⟩ := e4 f rest hf
        exact ⟨st_f, by rw [g1, h1 rfl]; simp, g2⟩
    | returned err =>
      refine ⟨[], n :: ns, rfl, by simp [h2], by simp, ?_⟩
      intro f rest hf
      cases hf
      exact ⟨st, by simp, hr⟩
    | panicked p =>
      refine ⟨[], n :: ns, rfl, by simp [h2], by simp, ?_⟩
      intro f rest hf
      cases hf
      exact ⟨st, by simp, hr⟩

/-- C14: `RenderWalk` renders the nodes of the tree one after the other in
pre-order (`subtrees`: a node, then its children in their order, each with
its descendants) up to the first node whose rendering does not return nil.
The files written are those of a first part `pre` of the pre-order, each node
once; nil is returned exactly when `pre` is the whole pre-order; otherwise
the error (or panic) of the first node `f` after `pre` is what `RenderWalk`
returns, and neither `f` nor any node after it in pre-order is rendered. -/
theorem RenderWalk_preorder {σ : Type} (distPath : GoString) (io : RenderIO σ)
    (t : TreeNode) (st : RenderState σ) :
    TreeWalker.RenderWalk distPath io t st = renderInOrder distPath io t.subtrees st ∧
    ∃ pre post : List TreeNode, t.subtrees = pre ++ post ∧
      (TreeWalker.RenderWalk distPath io t st).1.2 = st.2 ++ pre ∧
      ((TreeWalker.RenderWalk distPath io t st).2 = .returnedNil ↔ post = []) ∧
      ∀ f rest, post = f :: rest → ∃ st_f : RenderState σ, st_f.2 = st.2 ++ pre ∧
        TreeWalker.renderNode distPath io f st_f =
          TreeWalker.RenderWalk distPath io t st := by
  refine ⟨RenderWalk_eq_renderInOrder distPath io t st, ?_⟩
  rw [RenderWalk_eq_renderInOrder distPath io t st]
  exact renderInOrder_prefix distPath io t.subtrees st

/-- C14, witness: the tree of scenario B in a world where the template fails
on `notes`: the root and `b` are rendered, `notes` and the leaf below it are
not, and the error is returned. -/
theorem RenderWalk_preorder_witness :
    TreeWalker.RenderWalk "dist".toList failOnNotes scenarioBTree ((), []) =
      (((), [scenarioBTree, leafNode "2024-01-01-b.md".toList]),
        .returned .execTemplate) ∧
    (TreeWalker.RenderWalk "dist".toList failOnNotes scenarioBTree ((), []) =
        renderInOrder "dist".toList failOnNotes scenarioBTree.subtrees ((), []) ∧
      ∃ pre post : List TreeNode, scenarioBTree.subtrees = pre ++ post ∧
        (TreeWalker.RenderWalk "dist".toList failOnNotes scenarioBTree ((), [])).1.2 =
          [] ++ pre ∧
        ((TreeWalker.RenderWalk "dist".toList failOnNotes scenarioBTree ((), [])).2 =
          .returnedNil ↔ post = []) ∧
        ∀ f rest, post = f :: rest → ∃ st_f : RenderState Unit, st_f.2 = [] ++ pre ∧
          TreeWalker.renderNode "dist".toList failOnNotes f st_f =
            TreeWalker.RenderWalk "dist".toList failOnNotes scenarioBTree ((), [])) :=
  ⟨by rfl, RenderWalk_preorder "dist".toList failOnNotes scenarioBTree ((), [])⟩

/-! ## C15: a malformed date and the sort step -/

/-- `Date()` panics on a leaf without a dated filename and on a directory
node from which such a leaf is reached through directory nodes. -/
theorem Date_error_of_undated :
    ∀ n : TreeNode, n.allLeavesDated = false → ∃ e, n.Date = .error e := by
  intro n
  induction n using TreeNode.induct with
  | h sp e r l cs ih =>
    intro hd
    cases l with
    | true =>
      simp only [TreeNode.allLeavesDated, if_true, Bool.and_eq_false_iff,
        decide_eq_false_iff_not] at hd
      rw [Date_leaf]
      unfold sliceTo
      by_cases hl : (Base sp).length < 10
      · rw [if_pos hl]; exact ⟨_, rfl⟩
      · rw [if_neg hl]
        rcases hd with hd | hd
        · exact absurd (by omega) hd
        · unfold filenameDate at hd
          cases ht : timeParse ((Base sp).take 10) with
          | none => simp only [ht]; exact ⟨_, rfl⟩
          | some t => rw [ht] at hd; simp at hd
    | false =>
      simp only [TreeNode.allLeavesDated, Bool.false_eq_true, if_false] at hd
      have hex : ∃ c ∈ cs, c.allLeavesDated = false := by
        by_contra hcon
        push_neg at hcon
        have : TreeNodeList.allLeavesDated cs = true :=
          (allLeavesDated_list cs).2 (fun c hc => by simpa using hcon c hc)
        rw [this] at hd
        exact Bool.noConfusion hd
      obtain ⟨c, hc, hcd⟩ := hex
      obtain ⟨err, herr⟩ := ih c hc hcd
      rw [Date_dir]
      cases hdd : datedBy id cs with
      | error e' => exact ⟨e', rfl⟩
      | ok ds =>
        have := (datedBy_ok id cs ds hdd).2 c hc
        simp only [id] at this
        rw [herr] at this
        exact Except.noConfusion this

/-- C15 (as stated, refuted): the root whose only child is the leaf
`draft.md` contains a leaf whose filename does not begin with a date, the
`Date()` of that leaf panics, and `SortDate(SortDirectionDescending)` returns
the tree. -/
theorem SortDate_returns_with_undated_only_child :
    rootWithDraft.allLeavesDated = false ∧
    (leafNode "draft.md".toList).Date = .error .sliceBounds ∧
    rootWithDraft.SortDate SortDirectionDescending = .ok rootWithDraft :=
  ⟨by decide, by decide, by rfl⟩

/-- `SortDate` returns exactly when, at every node with two or more
children, the `Date()` of every child returns. -/
theorem SortDate_returns_iff (d : SortDirection) :
    ∀ t : TreeNode, (∃ t', t.SortDate d = .ok t') ↔
      ∀ n ∈ t.subtrees, 2 ≤ n.Children.length → ∀ c ∈ n.Children, ∃ tm, c.Date = .ok tm := by
  intro t
  induction t using TreeNode.induct with
  | h sp e r l cs ih =>
    constructor
    · rintro ⟨t', hs⟩ n hn hlen c hc
      obtain ⟨n', _, hn'⟩ := (SortDate_subtrees d _ t' hs).2 n hn
      obtain ⟨sp', e', r', l', cs'⟩ := n
      exact ((SortDate_mk_iff d sp' e' r' l' cs' n').1 hn').1 hlen c hc
    · intro hall
      have hch : ∀ c ∈ SliceStable (nodeLess d) cs, ∃ c', c.SortDate d = .ok c' := by
        intro c hc
        have hc0 := (mem_SliceStable _ _ _).1 hc
        apply (ih c hc0).2
        intro n hn
        exact hall n ((mem_subtrees_mk sp e r l cs n).2 (Or.inr ⟨c, hc0, hn⟩))
      obtain ⟨cs', hcs'⟩ := forall₂_of_forall_exists _ _ hch
      refine ⟨.mk sp e r l cs', (SortDate_mk_iff d sp e r l cs _).2 ⟨?_, cs', rfl, hcs'⟩⟩
      exact hall (.mk sp e r l cs) (mem_subtrees_self _)

/-- An undated leaf below a leaf does not stop the sort: in the tree built
for the files `2020-01-01-a.md`, `2021-01-01-b.md` and the directory
`index.md` holding `draft.md`, the root has two children, `draft.md` is the
only child of the leaf `2021-01-01-b.md`, whose `Date()` is read from its own
filename, and `SortDate` returns in both directions. -/
theorem SortDate_returns_with_undated_below_leaf :
    FsEntry.allWellFormed draftInIndexDir = true ∧
    (buildTree (WalkDir none draftInIndexDir)).map (fun r => r.2.toTree 3 0) =
      .ok (some draftInIndexDirTree) ∧
    draftInIndexDirTree.SortDate SortDirectionDescending =
      .ok draftInIndexDirTreeNewestFirst ∧
    draftInIndexDirTree.SortDate SortDirectionAscending = .ok draftInIndexDirTree :=
  ⟨by decide, by rfl, by rfl, by rfl⟩

/-- C15 (amended): when some node of the tree has two or more children and
one of them is a leaf whose filename does not begin with a calendar date, or
is a directory node from which such a leaf is reached through directory
nodes only (`allLeavesDated` is false: `Date()` of a leaf node does not look
at its children), `SortDate` panics in either direction instead of returning
a sorted tree; in general `SortDate` returns exactly when, at every node with
two or more children, the `Date()` of every child returns. -/
theorem SortDate_panics_of_undated_sibling (d : SortDirection) (t n c : TreeNode)
    (hn : n ∈ t.subtrees) (hlen : 2 ≤ n.Children.length) (hc : c ∈ n.Children)
    (hcd : c.allLeavesDated = false) :
    (∃ e, t.SortDate d = .error e) ∧
    ((∃ t', t.SortDate d = .ok t') ↔
      ∀ m ∈ t.subtrees, 2 ≤ m.Children.length → ∀ k ∈ m.Children, ∃ tm, k.Date = .ok tm) := by
  refine ⟨?_, SortDate_returns_iff d t⟩
  cases hs : t.SortDate d with
  | error e => exact ⟨e, rfl⟩
  | ok t' =>
    exfalso
    obtain ⟨tm, htm⟩ := (SortDate_returns_iff d t).1 ⟨t', hs⟩ n hn hlen c hc
    obtain ⟨err, herr⟩ := Date_error_of_undated c hcd
    rw [herr] at htm
    exact Except.noConfusion htm

/-- C15, witness: the root with the children `draft.md` and
`2024-01-01-b.md`. -/
theorem SortDate_panics_of_undated_sibling_witness :
    ∃ e, (rootNode none [leafNode "draft.md".toList,
      leafNode "2024-01-01-b.md".toList]).SortDate SortDirectionDescending = .error e :=
  (SortDate_panics_of_undated_sibling SortDirectionDescending
    (rootNode none [leafNode "draft.md".toList, leafNode "2024-01-01-b.md".toList])
    (rootNode none [leafNode "draft.md".toList, leafNode "2024-01-01-b.md".toList])
    (leafNode "draft.md".toList) (mem_subtrees_self _) (by decide)
    (by simp [rootNode, TreeNode.Children]) (by decide)).1

/-! ## C16: sibling navigation -/

theorem firstIndex_append (pre post : List Ptr) (n : Ptr) (h : n ∉ pre) :
    firstIndex (pre ++ n :: post) n = some pre.length := by
  induction pre with
  | nil => simp [firstIndex]
  | cons c cs ih =>
    have hc : c ≠ n := fun e => h (by simp [e])
    have hcs : n ∉ cs := fun e => h (List.mem_cons_of_mem _ e)
    simp [firstIndex, hc, ih hcs]

theorem get?_append_after (pre post : List Ptr) (n : Ptr) :
    (pre ++ n :: post).get? (pre.length + 1) = post.head? := by
  induction pre with
  | nil => cases post <;> rfl
  | cons c cs ih => simpa using ih

theorem get?_append_before (pre post : List Ptr) (n : Ptr) (h : pre ≠ []) :
    (pre ++ n :: post).get? (pre.length - 1) = pre.getLast? := by
  induction pre with
  | nil => exact absurd rfl h
  | cons c cs ih =>
    cases cs with
    | nil => rfl
    | cons c' cs' =>
      have := ih (by simp)
      simp only [List.length_cons, Nat.add_sub_cancel, List.cons_append,
        List.get?_cons_succ] at this ⊢
      rw [this]
      simp [List.getLast?_cons_cons]

/-- `NextSibling` and `PreviousSibling` of a node that stands in the
`Children` of its parent between `pre` and `post`. -/
theorem siblings_of_position (h : Heap) (n p : Nat) (node parent : HeapNode)
    (pre post : List Ptr) (hn : h.node n = some node) (hr : node.IsRoot = false)
    (hp : node.Parent = some p) (hpn : h.node p = some parent)
    (hcs : parent.Children = pre ++ n :: post) (hpre : n ∉ pre) :
    h.NextSibling n = .ok post.head? ∧ h.PreviousSibling n = .ok pre.getLast? := by
  constructor
  · simp only [Heap.NextSibling, hn, hr, Bool.false_eq_true, if_false, hp, hpn, hcs,
      firstIndex_append pre post n hpre, List.length_append, List.length_cons,
      get?_append_after]
    cases post with
    | nil => simp
    | cons c cs =>
      rw [if_neg (by simp only [List.length_cons]; omega)]
      rfl
  · simp only [Heap.PreviousSibling, hn, hr, Bool.false_eq_true, if_false, hp, hpn, hcs,
      firstIndex_append pre post n hpre]
    by_cases he : pre = []
    · subst he
      simp
    · have hl : 0 < pre.length := List.length_pos.2 he
      rw [if_neg (by omega)]
      have e : ((pre.length : Int) - 1).toNat = pre.length - 1 := by omega
      rw [e, get?_append_before pre post n he]
      cases hg : pre.getLast? with
      | none => rw [List.getLast?_eq_none_iff] at hg; exact absurd hg he
      | some c => rfl
/-- C16: (1) a node that is not the root and stands in the `Children` of its
parent between `pre` and `post`, where the `Children` of the parent list no
node twice and list only nodes whose `Parent` points back, has the first
node of `post` as `NextSibling` (nil when `post` is empty) and the last node
of `pre` as `PreviousSibling` (nil when `pre` is empty), in whatever order
the `Children` currently are; `PreviousSibling` of its `NextSibling` and
`NextSibling` of its `PreviousSibling` are the node itself; (2) on a node
with `IsRoot` both methods panic; (3) in a tree built by `buildTree` every
node that is not the root stands in this way in the `Children` of its
parent. -/
theorem siblings_follow_children (h : Heap) :
    (∀ (n p : Nat) (node parent : HeapNode) (pre post : List Ptr),
      h.node n = some node → node.IsRoot = false → node.Parent = some p →
      h.node p = some parent → parent.Children = pre ++ n :: post →
      parent.Children.Nodup →
      (∀ c ∈ parent.Children, ∃ cn, h.node c = some cn ∧ cn.IsRoot = false ∧
        cn.Parent = some p) →
      h.NextSibling n = .ok post.head? ∧ h.PreviousSibling n = .ok pre.getLast? ∧
      (∀ m : Nat, h.NextSibling n = .ok (some m) → h.PreviousSibling m = .ok (some n)) ∧
      (∀ m : Nat, h.PreviousSibling n = .ok (some m) → h.NextSibling m = .ok (some n))) ∧
    (∀ (r : Nat) (node : HeapNode), h.node r = some node → node.IsRoot = true →
      h.NextSibling r = .error .rootNodeCannotHaveSiblings ∧
      h.PreviousSibling r = .error .rootNodeCannotHaveSiblings) ∧
    (∀ (modTime : Option Time) (entries : List FsEntry) (root : Option Ptr),
      FsEntry.allWellFormed entries = true →
      buildTree (WalkDir modTime entries) = .ok (root, h) →
      ∀ (n : Nat) (node : HeapNode), h.node n = some node → node.IsRoot = false →
      ∃ (p : Nat) (parent : HeapNode) (pre post : List Ptr),
        node.Parent = some p ∧ h.node p = some parent ∧
        parent.Children = pre ++ n :: post ∧ parent.Children.Nodup ∧
        ∀ c ∈ parent.Children, ∃ cn, h.node c = some cn ∧ cn.IsRoot = false ∧
          cn.Parent = some p) := by
  refine ⟨?_, ?_, ?_⟩
  · intro n p node parent pre post hn hr hp hpn hcs hnd hback
    have hnd' := hnd
    rw [hcs] at hnd'
    have hpre : n ∉ pre := by
      intro hm
      have := (List.nodup_append.1 hnd').2.2
      exact this hm (by simp)
    obtain ⟨h1, h2⟩ := siblings_of_position h n p node parent pre post hn hr hp hpn hcs hpre
    refine ⟨h1, h2, ?_, ?_⟩
    · intro m hm
      rw [h1] at hm
      simp only [Except.ok.injEq] at hm
      cases post with
      | nil => simp at hm
      | cons c post' =>
        simp only [List.head?_cons, Option.some.injEq] at hm
        subst hm
        obtain ⟨cn, hcn, hcr, hcp⟩ := hback c (by rw [hcs]; simp)
        have hcs' : parent.Children = (pre ++ [n]) ++ c :: post' := by rw [hcs]; simp
        have hnot : c ∉ pre ++ [n] := by
          intro hm
          rw [hcs'] at hnd
          exact (List.nodup_append.1 hnd).2.2 hm (by simp)
        have := (siblings_of_position h c p cn parent (pre ++ [n]) post' hcn hcr hcp hpn
          hcs' hnot).2
        rw [this]
        simp
    · intro m hm
      rw [h2] at hm
      simp only [Except.ok.injEq] at hm
      obtain ⟨pre', hpre'⟩ : ∃ pre', pre = pre' ++ [m] := by
        rcases List.eq_nil_or_concat pre with he | ⟨l, b, he⟩
        · rw [he] at hm; simp at hm
        · rw [he, List.concat_eq_append, List.getLast?_concat] at hm
          simp only [Option.some.injEq] at hm
          exact ⟨l, by rw [he, hm]; simp⟩
      subst hpre'
      obtain ⟨cn, hcn, hcr, hcp⟩ := hback m (by rw [hcs]; simp)
      have hcs' : parent.Children = pre' ++ m :: (n :: post) := by rw [hcs]; simp
      have hnot : m ∉ pre' := by
        intro hmm
        rw [hcs'] at hnd
        exact (List.nodup_append.1 hnd).2.2 hmm (by simp)
      have := (siblings_of_position h m p cn parent pre' (n :: post) hcn hcr hcp hpn
        hcs' hnot).1
      rw [this]
      rfl
  · intro r node hr hroot
    simp [Heap.NextSibling, Heap.PreviousSibling, hr, hroot]
  · intro modTime entries root hwf hb n node hn hr
    have hL := (buildTree_linked modTime entries hwf root h hb).2
    have hn0 : n ≠ 0 := by
      intro h0
      have := ((hL.isRoot n node hn).1).2 h0
      rw [hr] at this
      exact Bool.noConfusion this
    obtain ⟨p, parent, h1, _, h3, h4⟩ := hL.parent n node hn hn0
    obtain ⟨pre, post, hsplit⟩ := List.append_of_mem h4
    obtain ⟨hpw, hch⟩ := hL.children p parent h3
    refine ⟨p, parent, pre, post, h1, h3, hsplit,
      hpw.imp (fun {a b} (hab : a < b) => Nat.ne_of_lt hab), ?_⟩
    intro c hc
    obtain ⟨cn, hcn, hcp⟩ := hch c hc
    refine ⟨cn, hcn, ?_, hcp⟩
    cases hcr : cn.IsRoot with
    | false => rfl
    | true =>
      have hc0 := ((hL.isRoot c cn hcn).1).1 hcr
      obtain ⟨r, hr0, _, hr2⟩ := hL.root
      rw [hc0] at hcn
      rw [hr0] at hcn
      cases hcn
      rw [hr2] at hcp
      exact Option.noConfusion hcp

/-- C16, witness: in the tree built for scenario B the node
`2024-01-01-b.md` is the first child of the root and `notes` is the second. -/
theorem siblings_follow_children_witness :
    buildTree (WalkDir none scenarioB) = .ok (some 0, scenarioBHeap) ∧
    scenarioBHeap.NextSibling 1 = .ok (some 2) ∧
    scenarioBHeap.PreviousSibling 1 = .ok none ∧
    (∀ m : Nat, scenarioBHeap.NextSibling 1 = .ok (some m) →
      scenarioBHeap.PreviousSibling m = .ok (some 1)) ∧
    (∀ m : Nat, scenarioBHeap.PreviousSibling 1 = .ok (some m) →
      scenarioBHeap.NextSibling m = .ok (some 1)) :=
  ⟨by decide,
    (siblings_follow_children scenarioBHeap).1 1 0 _ _ [] [2] rfl rfl rfl rfl rfl
      (by decide) (by decide)⟩

/-! ## C17: when two nodes share a path -/

theorem pathElems_nil : pathElems [] = [[]] := rfl

theorem foldl_cleanStep_joinSep_names (r : Bool) (S : List GoString) (c : List GoString)
    (h : ∀ x ∈ c, validName x = true) :
    (pathElems (joinSep c)).foldl (cleanStep r) S = c.reverse ++ S := by
  by_cases hc : c = []
  · subst hc
    simp [joinSep, pathElems_nil, cleanStep_nil]
  · rw [pathElems_joinSep c hc (fun e he => validName_no_slash e (h e he)),
      foldl_cleanStep_names r S c h]

/-- The file joined from an output root, a path made of file names and
`index.html`: the kept elements of the output root, the file names and
`index.html`, separated by `/`. -/
theorem Join_dist_names (dist : GoString) (hd : dist ≠ []) :
    ∃ (pfx : GoString) (S : List GoString), (∀ x ∈ S, '/' ∉ x) ∧
      ∀ c : List GoString, (∀ x ∈ c, validName x = true) →
        Join [dist, joinSep c, "index.html".toList] =
          pfx ++ joinSep (S ++ c ++ ["index.html".toList]) := by
  cases dist with
  | nil => exact absurd rfl hd
  | cons d0 dt =>
    refine ⟨if d0 = '/' then ['/'] else [],
      ((pathElems (d0 :: dt)).foldl (cleanStep (decide (d0 = '/'))) []).reverse, ?_, ?_⟩
    · intro x hx
      rw [List.mem_reverse] at hx
      rcases mem_foldl_cleanStep _ _ [] x hx with h | h
      · simp at h
      · exact no_slash_of_mem_pathElems _ x h.1
    · intro c hc
      have e : Join [d0 :: dt, joinSep c, "index.html".toList] =
          Clean (d0 :: (dt ++ '/' :: (joinSep c ++ '/' :: "index.html".toList))) := by
        simp only [Join, joinSep, List.cons_append, if_neg (List.cons_ne_nil d0 dt)]
      have f : pathElems (d0 :: (dt ++ '/' :: (joinSep c ++ '/' :: "index.html".toList))) =
          pathElems (d0 :: dt) ++ (pathElems (joinSep c) ++ pathElems "index.html".toList) := by
        rw [← List.cons_append, pathElems_append_slash, pathElems_append_slash]
      have hx : pathElems "index.html".toList = ["index.html".toList] := by decide
      rw [e]
      simp only [Clean]
      rw [f, List.foldl_append, List.foldl_append, foldl_cleanStep_joinSep_names _ _ c hc, hx,
        List.foldl_cons, List.foldl_nil,
        cleanStep_proper _ _ "index.html".toList (by decide) (by decide) (by decide)]
      simp only [List.reverse_cons, List.reverse_append, List.reverse_reverse,
        List.append_assoc]
      by_cases hr : d0 = '/'
      · simp [hr]
      · simp [hr]

theorem joinSep_injective (l₁ l₂ : List GoString) (h₁ : l₁ ≠ []) (h₂ : l₂ ≠ [])
    (s₁ : ∀ x ∈ l₁, '/' ∉ x) (s₂ : ∀ x ∈ l₂, '/' ∉ x) (h : joinSep l₁ = joinSep l₂) :
    l₁ = l₂ := by
  rw [← pathElems_joinSep l₁ h₁ s₁, ← pathElems_joinSep l₂ h₂ s₂, h]

/-- `Path()` and the output file of a node in terms of the path elements it
is published under. -/
theorem Path_outputPath_normalized (ctx dist : GoString) (hd : dist ≠ []) (n : TreeNode)
    (c : List GoString) (h : NormalizedAs n c) :
    c ≠ [] ∧ n.Path ctx = .ok (ctx ++ joinSep c ++ "/".toList) ∧
      TreeWalker.outputPath dist n = .ok (Join [dist, joinSep c, "index.html".toList]) := by
  obtain ⟨sp, entry, isRoot, isLeaf, cs⟩ := n
  obtain ⟨hroot, hval, hcase⟩ := h
  simp only [TreeNode.IsRoot, TreeNode.IsLeaf, TreeNode.SourcePath] at hroot hcase
  subst hroot
  rcases hcase with ⟨hleaf, hne, hsp⟩ | ⟨hleaf, dirs, date, slug, hlen, hdate, hc, hsp⟩
  · subst hleaf
    subst hsp
    exact ⟨hne, rfl, rfl⟩
  · subst hleaf
    subst hc
    have hdirs : ∀ e ∈ dirs, validName e = true :=
      fun e he => hval e (List.mem_append_left _ he)
    have hslug : validName slug = true := hval slug (by simp)
    have hfile_ne : date ++ "-".toList ++ slug ++ ".md".toList ≠ [] := by simp
    have hfile : '/' ∉ date ++ "-".toList ++ slug ++ ".md".toList := by
      have := validName_no_slash slug hslug
      simp only [List.mem_append, not_or]
      exact ⟨⟨⟨hdate, by decide⟩, this⟩, by decide⟩
    obtain ⟨hb, hdir⟩ := Base_Dir_joinSep dirs _ hdirs hfile_ne hfile
    refine ⟨by simp, ?_, ?_⟩
    · simp only [TreeNode.Path, TreeNode.IsRoot, TreeNode.IsLeaf, TreeNode.SourcePath, hsp,
        hb, hdir, NormalizeMdName_dated date slug hlen, ToSlash,
        Join_Dir_name dirs slug hdirs hslug]
      rfl
    · simp only [TreeWalker.outputPath, TreeNode.IsLeaf, TreeNode.SourcePath, hsp, hb, hdir,
        NormalizeMdName_dated date slug hlen, if_true]
      congr 1
      rw [Join_four _ _ _ _ hd]
      by_cases hds : dirs = []
      · subst hds
        simp only [if_true, List.nil_append, joinSep]
        apply Join_congr _ _ _ _ hd
        intro r S
        rw [pathElems_append_slash]
        have : pathElems ".".toList = [".".toList] := by decide
        rw [this, List.singleton_append, List.foldl_cons, cleanStep_dot]
      · rw [if_neg hds, joinSep_append_singleton dirs hds]

/-- C17 (as stated, refuted): in the tree built for a documents directory
with the files `2020-01-01-x.md` and `2021-01-01-x.md` the two leaves are
different nodes with the same `Path()`, `/x/`, and the same output file,
`dist/x/index.html`. -/
theorem same_slug_same_paths :
    (buildTree (WalkDir none sameSlug)).map (fun r => (r.2.toTree 2 1, r.2.toTree 2 2)) =
      .ok (some (leafNode "2020-01-01-x.md".toList),
        some (leafNode "2021-01-01-x.md".toList)) ∧
    (leafNode "2020-01-01-x.md".toList).SourcePath ≠
      (leafNode "2021-01-01-x.md".toList).SourcePath ∧
    (leafNode "2020-01-01-x.md".toList).Path defaultContextPath = .ok "/x/".toList ∧
    (leafNode "2021-01-01-x.md".toList).Path defaultContextPath = .ok "/x/".toList ∧
    TreeWalker.outputPath "dist".toList (leafNode "2020-01-01-x.md".toList) =
      .ok "dist/x/index.html".toList ∧
    TreeWalker.outputPath "dist".toList (leafNode "2021-01-01-x.md".toList) =
      .ok "dist/x/index.html".toList :=
  ⟨by rfl, by decide, by decide, by decide, by decide, by decide⟩

/-- C17 (amended): two nodes that are not the root, directories or leaves
named `<date>-<slug>.md`, have the same `Path()` exactly when they are
published under the same path elements (the source path elements of a
directory; the directories and the slug of a leaf), and, for a non-empty
output root, the same output file exactly then; so two different nodes
overwrite each other exactly when they are two leaves of one directory with
the same slug, or a leaf and a directory of one directory named like the
slug.  The root (a directory with the source path `.`) shares neither its
`Path()` nor its output file with such a node. -/
theorem paths_equal_iff (ctx dist : GoString) (hd : dist ≠ []) (n₁ n₂ : TreeNode)
    (c₁ c₂ : List GoString) (h₁ : NormalizedAs n₁ c₁) (h₂ : NormalizedAs n₂ c₂) :
    (n₁.Path ctx = n₂.Path ctx ↔ c₁ = c₂) ∧
    (TreeWalker.outputPath dist n₁ = TreeWalker.outputPath dist n₂ ↔ c₁ = c₂) ∧
    ∀ root : TreeNode, root.IsRoot = true → root.IsLeaf = false →
      root.SourcePath = ".".toList →
      root.Path ctx ≠ n₁.Path ctx ∧
      TreeWalker.outputPath dist root ≠ TreeWalker.outputPath dist n₁ := by
  obtain ⟨hne₁, hp₁, ho₁⟩ := Path_outputPath_normalized ctx dist hd n₁ c₁ h₁
  obtain ⟨hne₂, hp₂, ho₂⟩ := Path_outputPath_normalized ctx dist hd n₂ c₂ h₂
  obtain ⟨pfx, S, hS, hJ⟩ := Join_dist_names dist hd
  have hv₁ := h₁.2.1
  have hv₂ := h₂.2.1
  have hx : '/' ∉ "index.html".toList := by decide
  have hslash : ∀ c : List GoString, (∀ x ∈ c, validName x = true) →
      ∀ x ∈ S ++ c ++ ["index.html".toList], '/' ∉ x := by
    intro c hc x hxm
    simp only [List.mem_append, List.mem_singleton] at hxm
    rcases hxm with (h | h) | h
    · exact hS x h
    · exact validName_no_slash x (hc x h)
    · rw [h]; exact hx
  refine ⟨?_, ?_, ?_⟩
  · rw [hp₁, hp₂]
    constructor
    · intro h
      simp only [Except.ok.injEq, List.append_assoc, List.append_cancel_left_eq,
        List.append_cancel_right_eq] at h
      exact joinSep_injective c₁ c₂ hne₁ hne₂ (fun x hx => validName_no_slash x (hv₁ x hx))
        (fun x hx => validName_no_slash x (hv₂ x hx)) h
    · intro h; rw [h]
  · rw [ho₁, ho₂, hJ c₁ hv₁, hJ c₂ hv₂]
    constructor
    · intro h
      simp only [Except.ok.injEq, List.append_cancel_left_eq] at h
      have := joinSep_injective _ _ (by simp) (by simp) (hslash c₁ hv₁) (hslash c₂ hv₂) h
      simpa using this
    · intro h; rw [h]
  · intro root hr hl hsp
    obtain ⟨sp, entry, isRoot, isLeaf, cs⟩ := root
    simp only [TreeNode.IsRoot, TreeNode.IsLeaf, TreeNode.SourcePath] at hr hl hsp
    subst hr hl hsp
    constructor
    · rw [hp₁]
      simp only [TreeNode.Path, TreeNode.IsRoot, if_true, ne_eq, Except.ok.injEq]
      intro h
      have hlen := congrArg List.length h
      simp only [List.length_append] at hlen
      have : "/".toList.length = 1 := rfl
      omega
    · rw [ho₁, hJ c₁ hv₁]
      have hroot : TreeWalker.outputPath dist (.mk ".".toList entry true false cs) =
          .ok (Join [dist, joinSep [], "index.html".toList]) := by
        simp only [TreeWalker.outputPath, TreeNode.IsLeaf, TreeNode.SourcePath,
          Bool.false_eq_true, if_false]
        congr 1
        apply Join_congr _ _ _ _ hd
        intro r S'
        have : pathElems ".".toList = [".".toList] := by decide
        rw [this]
        simp only [joinSep, pathElems_nil, List.foldl_cons, List.foldl_nil, cleanStep_nil,
          cleanStep_dot]
      rw [hroot, hJ [] (by simp)]
      simp only [ne_eq, Except.ok.injEq, List.append_cancel_left_eq, List.append_nil]
      intro h
      have := joinSep_injective _ _ (by simp) (by simp) (hslash [] (by simp))
        (hslash c₁ hv₁) (by simpa using h)
      have hlen := congrArg List.length this
      simp only [List.length_append, List.length_nil, List.length_singleton] at hlen
      have : 0 < c₁.length := List.length_pos.2 hne₁
      omega

/-- C17, witness: the directory `notes` and the leaf
`notes/2020-01-01-a.md`, published under `notes` and `notes/a`. -/
theorem paths_equal_iff_witness :
    ((dirNode "notes".toList none []).Path "/".toList =
        (leafNode "notes/2020-01-01-a.md".toList).Path "/".toList ↔
      ["notes".toList] = ["notes".toList, "a".toList]) ∧
    (TreeWalker.outputPath "dist".toList (dirNode "notes".toList none []) =
        TreeWalker.outputPath "dist".toList (leafNode "notes/2020-01-01-a.md".toList) ↔
      ["notes".toList] = ["notes".toList, "a".toList]) :=
  ⟨(paths_equal_iff "/".toList "dist".toList (by decide) (dirNode "notes".toList none [])
      (leafNode "notes/2020-01-01-a.md".toList) ["notes".toList]
      ["notes".toList, "a".toList]
      ⟨rfl, by decide, Or.inl ⟨rfl, by decide, rfl⟩⟩
      ⟨rfl, by decide, Or.inr ⟨rfl, ["notes".toList], "2020-01-01".toList, "a".toList,
        rfl, by decide, rfl, by decide⟩⟩).1,
    (paths_equal_iff "/".toList "dist".toList (by decide) (dirNode "notes".toList none [])
      (leafNode "notes/2020-01-01-a.md".toList) ["notes".toList]
      ["notes".toList, "a".toList]
      ⟨rfl, by decide, Or.inl ⟨rfl, by decide, rfl⟩⟩
      ⟨rfl, by decide, Or.inr ⟨rfl, ["notes".toList], "2020-01-01".toList, "a".toList,
        rfl, by decide, rfl, by decide⟩⟩).2.1⟩

/-! ## C10: the page a link resolves to -/

end Doktri
